import Mathlib

/-!
# PSLQ integer-relation detection (`boost/multiprecision/pslq.hpp`)

A shallow embedding of `pslq` and of the helpers it is built from, followed by
theorems about the embedding.

Conventions of the embedding.

* The template parameter `Real` is a linearly ordered field `R`.  The operations the
  code takes from the numeric type (`sqrt`, `round`,
  `std::numeric_limits<Real>::epsilon()`) are the fields of `RealOps R`.  The bound
  `2/sqrt(3)` and the default `γ` (which C++ evaluates in `double`) are evaluated in
  `R` with the same `sqrt`.
* `std::vector<Real>` is `List R`; inside the algorithm vectors and Eigen matrices are
  total functions `Nat → R` and `Nat → Nat → R`, together with the dimension `n`.
* Loops are `forUp` / `forDown` over the loop index, written in the order of the source.
* The `while` loop has no iteration cap; `mainLoop` takes a fuel argument and returns
  `none` when the fuel runs out before the loop has ended.
* `std::cerr` messages are the `Diag` carried by the return site; `std::cout` tracing
  is dropped; `std::cin.get()` consumes one character of the console input `cin`.
* `std::map<Real, std::string>` is `Dictionary R`, the list of its entries in iteration
  order with strictly ascending keys; the stream output of `Real` is a parameter
  `showReal` of the renderer.
* A field has no overflow, no NaN and no rounding.  Runs that leave the exact range are
  followed in a second embedding of lines 104-239 over `Ieee` (finite values, `±∞`, NaN),
  and a square root of finite precision is `sqrtNearest`.
-/

namespace Pslq

/-! ## Numeric collaborator -/

/-- Operations `pslq` takes from the numeric type `Real`. -/
structure RealOps (R : Type) where
  /-- Square root: `sqrt`. -/
  sqrt : R → R
  /-- Round to nearest integer value: `round`. -/
  round : R → R
  /-- Machine epsilon: `std::numeric_limits<Real>::epsilon()`. -/
  epsilon : R

/-- Rounding of `std::round`: to the nearest integer, halfway cases away from zero. -/
def cRound {R : Type} [LinearOrderedField R] [FloorRing R] (a : R) : R :=
  if 0 ≤ a then ((⌊a + 1 / 2⌋ : Int) : R) else ((⌈a - 1 / 2⌉ : Int) : R)

/-- The numeric type given by a square root function and an epsilon, with `cRound`. -/
def RealOps.ofSqrt {R : Type} [LinearOrderedField R] [FloorRing R]
    (sqrt : R → R) (epsilon : R) : RealOps R :=
  ⟨sqrt, cRound, epsilon⟩

/-! ## Result of a call -/

/-- Messages `pslq` writes to `std::cerr` before returning. -/
inductive Diag
  /-- "Elements must be sorted in increasing order." -/
  | unsorted
  /-- "γ > 2/√3 is required" -/
  | gammaTooSmall
  /-- "τ ∈ (1, 2) is required." -/
  | tauOutOfRange
  /-- "At least two values are required to find an integer relation." -/
  | tooFewValues
  /-- "Zero in the dictionary gives trivial relations." -/
  | zeroElement
  /-- "Super small elements in the dictionary gives spurious relations; ..." -/
  | tinyElement
  /-- "The algorithm is reflection invariant, so negative values ... should be removed." -/
  | negativeElement
  /-- "‖Hₓ‖² ≠ n - 1. Hence Lemma 1.ii of the reference has numerically failed; this is a bug." -/
  | normLemmaFailed
  /-- "xᵀHₓ ≠ 0; Lemma 1.iii of the reference cpslq has numerically failed; this is a bug." -/
  | orthLemmaFailed
  /-- "OMG: m = n- 1, swap gonna segfault." -/
  | pivotLast
  /-- "OMG: m = - 1, swap gonna segfault." -/
  | pivotNone
  deriving DecidableEq, Repr

/-- Operations with no defined result in C++. -/
inductive Fault
  /-- A division whose divisor is zero. -/
  | divisionByZero
  /-- `back()` of an empty vector. -/
  | backOfEmpty
  deriving DecidableEq, Repr

/-- The `return` statement a call leaves through. -/
inductive Site
  /-- A return that follows a message on `std::cerr`. -/
  | diag (d : Diag)
  /-- The return inside the "Look for a solution" loop, taken at index `k`. -/
  | found (k : Nat)
  /-- The return after the `while` loop, reached when `norm_bound` is not below the ceiling. -/
  | ceiling
  /-- No return: the call executed an undefined operation. -/
  | undefined (f : Fault)
  deriving DecidableEq, Repr

/-- What a call of `pslq` produces: the returned vector and the return site. -/
structure Outcome (R : Type) where
  /-- The returned `std::vector<std::pair<int64_t, Real>>`. -/
  relation : List (Int × R)
  /-- The return statement taken. -/
  site : Site

/-! ## Loops, vectors, matrices -/

/-- The loop `for (i = lo; i < lo + count; ++i) s = body i s`. -/
def forUp {σ : Type} (lo : Nat) : Nat → (Nat → σ → σ) → σ → σ
  | 0, _, s => s
  | c + 1, body, s => body (lo + c) (forUp lo c body s)

/-- The loop `for (i = count - 1; i >= 0; --i) s = body i s`. -/
def forDown {σ : Type} : Nat → (Nat → σ → σ) → σ → σ
  | 0, _, s => s
  | c + 1, body, s => forDown c body (body c s)

/-- Assignment `v[i] = a`. -/
def setV {R : Type} (v : Nat → R) (i : Nat) (a : R) : Nat → R :=
  fun k => if k = i then a else v k

/-- Assignment `M(i,j) = a`. -/
def setM {R : Type} (M : Nat → Nat → R) (i j : Nat) (a : R) : Nat → Nat → R :=
  fun r c => if r = i ∧ c = j then a else M r c

/-- The identity matrix: `Matrix::Identity(n, n)`. -/
def identity {R : Type} [Zero R] [One R] : Nat → Nat → R :=
  fun r c => if r = c then 1 else 0

/-- Row exchange `M.row(m).swap(M.row(m+1))`. -/
def swapRows {R : Type} (M : Nat → Nat → R) (m : Nat) : Nat → Nat → R :=
  fun r c => if r = m then M (m + 1) c else if r = m + 1 then M m c else M r c

/-- Column exchange `M.col(m).swap(M.col(m+1))`. -/
def swapCols {R : Type} (M : Nat → Nat → R) (m : Nat) : Nat → Nat → R :=
  fun r c => if c = m then M r (m + 1) else if c = m + 1 then M r m else M r c

/-- Exchange `std::swap(y[m], y[m+1])`. -/
def swapV {R : Type} (y : Nat → R) (m : Nat) : Nat → R :=
  fun k => if k = m then y (m + 1) else if k = m + 1 then y m else y k

/-- Squared Frobenius norm of an `r × c` matrix: `squaredNorm()`. -/
def squaredNorm {R : Type} [Semiring R] (M : Nat → Nat → R) (r c : Nat) : R :=
  ∑ i in Finset.range r, ∑ j in Finset.range c, M i j * M i j

/-- Entry `j` of the product `yᵀ M` for an `r`-row matrix. -/
def vecMul {R : Type} [Semiring R] (y : Nat → R) (M : Nat → Nat → R) (r j : Nat) : R :=
  ∑ i in Finset.range r, y i * M i j

section Algorithm

variable {R : Type} [LinearOrderedField R]

/-! ## Validator (lines 106-142) -/

/-- The test of `std::is_sorted`: no element is less than its predecessor. -/
def isSorted : List R → Bool
  | [] => true
  | [_] => true
  | a :: b :: rest => if b < a then false else isSorted (b :: rest)

/-- Division, undefined for a zero divisor. -/
def checkedDiv (a b : R) : Except Fault R :=
  if b = 0 then .error .divisionByZero else .ok (a / b)

/-- The per-element loop of lines 128-142. -/
def checkElements (ops : RealOps R) : List R → Option Diag
  | [] => none
  | t :: rest =>
    if t = 0 then some .zeroElement
    else if t < ops.sqrt ops.epsilon then some .tinyElement
    else if t < 0 then some .negativeElement
    else checkElements ops rest

/-- Lines 107-142: the checks in source order.  `.ok none` means every check passed,
`.ok (some d)` is the return with message `d`. -/
def validate (ops : RealOps R) (x : List R) (gamma : R) : Except Fault (Option Diag) :=
  if isSorted x = false then .ok (some .unsorted)
  else
    match checkedDiv 2 (ops.sqrt 3) with
    | .error f => .error f
    | .ok bound =>
      if gamma ≤ bound then .ok (some .gammaTooSmall)
      else
        match checkedDiv 1 (gamma * gamma) with
        | .error f => .error f
        | .ok g2 =>
          match checkedDiv 1 (ops.sqrt (1 / 4 + g2)) with
          | .error f => .error f
          | .ok tau =>
            if tau ≤ 1 ∨ tau ≥ 2 then .ok (some .tauOutOfRange)
            else if x.length < 2 then .ok (some .tooFewValues)
            else .ok (checkElements ops x)

/-! ## Decomposer (lines 145-194) -/

/-- Lines 145-150: `s_sq`, filled from the back; `xback` is `x.back()`. -/
def sSq (xv : Nat → R) (n : Nat) (xback : R) : Nat → R :=
  forDown (n - 1) (fun i s => setV s i (s (i + 1) + xv i * xv i))
    (setV (fun _ => 0) (n - 1) (xback * xback))

/-- Lines 152-169: the matrix `Hx`, an `n × (n-1)` matrix. -/
def buildH (ops : RealOps R) (xv s : Nat → R) (n : Nat) : Nat → Nat → R :=
  let H1 :=
    forUp 0 (n - 1)
      (fun i H =>
        forUp 0 (n - 1)
          (fun j H =>
            if i < j then setM H i j 0
            else if i = j then setM H i i (ops.sqrt (s (i + 1) / s i))
            else setM H i j (-xv i * xv j / ops.sqrt (s j * s (j + 1))))
          H)
      (fun _ _ => 0)
  forUp 0 (n - 1)
    (fun j H => setM H (n - 1) j (-xv (n - 1) * xv j / ops.sqrt (s j * s (j + 1))))
    H1

/-- Line 179: the test that reports a failure of Lemma 1.ii. -/
def normCheckFails (ops : RealOps R) (H : Nat → Nat → R) (n : Nat) : Prop :=
  |squaredNorm H n (n - 1) / ((n - 1 : Nat) : R) - 1| > ops.sqrt ops.epsilon

instance (ops : RealOps R) (H : Nat → Nat → R) (n : Nat) : Decidable (normCheckFails ops H n) := by
  unfold normCheckFails; infer_instance

/-- Lines 184-187: `y[i] = x[i]/sqrt(s_sq[0])`. -/
def initY (ops : RealOps R) (xv s : Nat → R) (n : Nat) : Nat → R :=
  forUp 0 n (fun i y => setV y i (xv i / ops.sqrt (s 0))) (fun _ => 0)

/-- Lines 188-194: the loop that reports a failure of Lemma 1.iii; `true` when some
entry of `yᵀ Hx` fails the test. -/
def orthCheckFails (ops : RealOps R) (y : Nat → R) (H : Nat → Nat → R) (n : Nat) : Bool :=
  (List.range (n - 1)).any
    (fun i => decide (|vecMul y H n i| / ((n - 1 : Nat) : R) > ops.sqrt ops.epsilon))

/-! ## Reducer (lines 199-221) -/

/-- The working matrices and the vector `y`. -/
structure State (R : Type) where
  /-- The matrix `Hx`. -/
  H : Nat → Nat → R
  /-- The matrix `D` of Definition 4. -/
  D : Nat → Nat → R
  /-- The matrix `A`. -/
  A : Nat → Nat → R
  /-- The matrix `B`. -/
  B : Nat → Nat → R
  /-- The vector `y`. -/
  y : Nat → R

/-- The state at line 202: `Hx` and `y` from the Decomposer, `D = A = B = I`. -/
def initState (H : Nat → Nat → R) (y : Nat → R) : State R :=
  ⟨H, identity, identity, identity, y⟩

/-- Lines 204-219: the body of the inner loop of the Reducer at `(i, j)`. -/
def reduceStep (ops : RealOps R) (n i j : Nat) (st : State R) : State R :=
  let q := ops.round (st.H i j / st.H j j)
  if q = 0 then st
  else
    let H := forUp 0 (j + 1) (fun k H => setM H i k (H i k - q * H j k)) st.H
    let dab :=
      forUp 0 n
        (fun k (dab : (Nat → Nat → R) × (Nat → Nat → R) × (Nat → Nat → R)) =>
          let D := setM dab.1 i k (dab.1 i k - q * dab.1 j k)
          let A := setM dab.2.1 i k (dab.2.1 i k - q * dab.2.1 j k)
          let B := setM dab.2.2 k j (dab.2.2 k j + q * dab.2.2 k i)
          (D, A, B))
        (st.D, st.A, st.B)
    ⟨H, dab.1, dab.2.1, dab.2.2, setV st.y j (st.y j + q * st.y i)⟩

/-- Lines 202-221: `for i = 1 .. n-1`, `for j = i-1 downto 0`. -/
def reducer (ops : RealOps R) (n : Nat) (st : State R) : State R :=
  forUp 1 (n - 1) (fun i st => forDown i (fun j st => reduceStep ops n i j st) st) st

/-! ## IterationEngine (lines 228-337) -/

/-- Lines 229-234 and 327-332: the largest `|Hx(i,i)|`, `0 ≤ i < n-1`. -/
def maxCoeff (H : Nat → Nat → R) (n : Nat) : R :=
  forUp 0 (n - 1) (fun i mc => if |H i i| > mc then |H i i| else mc) 0

/-- Lines 235 and 333: `norm_bound = 1/max_coeff`, as a quotient of the field `R`.  At
`max_coeff = 0` the quotient of a field is `0`, where IEEE arithmetic gives `+∞`: the value
follows the code only for `max_coeff ≠ 0`.  `normBoundChecked` reports the division by zero,
and `pslqEntryF` evaluates line 235 in IEEE arithmetic. -/
def normBound (H : Nat → Nat → R) (n : Nat) : R :=
  1 / maxCoeff H n

/-- The literal `10e10` of line 237. -/
def maxAcceptableNormBound : R := 100000000000

/-- Loop variables of the pivot search. -/
structure PivotVars (R : Type) where
  /-- The running power `gammai`. -/
  gammai : R
  /-- The largest term so far, `max_term`. -/
  maxTerm : R
  /-- The index `m`, `-1` until a positive term is seen. -/
  m : Int

/-- Lines 248-258: select `m` with `γ^(i+1)·|Hx(i,i)|` maximal. -/
def pivot (H : Nat → Nat → R) (n : Nat) (gamma : R) : PivotVars R :=
  forUp 0 (n - 1)
    (fun i pv =>
      let term := pv.gammai * |H i i|
      if term > pv.maxTerm then ⟨pv.gammai * gamma, term, (i : Int)⟩
      else ⟨pv.gammai * gamma, pv.maxTerm, pv.m⟩)
    ⟨gamma, 0, -1⟩

/-- Lines 269-274: the exchange at `m`. -/
def swapStep (m : Nat) (st : State R) : State R :=
  ⟨swapRows st.H m, st.D, swapRows st.A m, swapCols st.B m, swapV st.y m⟩

/-- Lines 278-291: corner removal on columns `m`, `m+1`. -/
def removeCorner (ops : RealOps R) (n m : Nat) (H : Nat → Nat → R) : Nat → Nat → R :=
  if m + 2 < n then
    let t0 := ops.sqrt (H m m * H m m + H m (m + 1) * H m (m + 1))
    let t1 := H m m / t0
    let t2 := H m (m + 1) / t0
    forUp m (n - 1 - m)
      (fun i H =>
        let t3 := H i m
        let t4 := H i (m + 1)
        let H1 := setM H i m (t1 * t3 + t2 * t4)
        setM H1 i (m + 1) (-t2 * t3 + t1 * t4))
      H
  else H

/-- Lines 299-313: the body of the inner loop of the re-reduction at `(i, j)`. -/
def rereduceStep (ops : RealOps R) (n i j : Nat) (st : State R) : State R :=
  let t := ops.round (st.H i j / st.H j j)
  if t = 0 then st
  else
    let y := setV st.y j (st.y j + t * st.y i)
    let H := forUp 0 j (fun k H => setM H i k (H i k - t * H j k)) st.H
    let ab :=
      forUp 0 n
        (fun k (ab : (Nat → Nat → R) × (Nat → Nat → R)) =>
          let A := setM ab.1 i k (ab.1 i k - t * ab.1 j k)
          let B := setM ab.2 k j (ab.2 k j + t * ab.2 k i)
          (A, B))
        (st.A, st.B)
    ⟨H, st.D, ab.1, ab.2, y⟩

/-- Lines 295-315: `for i = m+1 .. n-2`, `for j = min(i-1, m+1) downto 0`. -/
def rereduce (ops : RealOps R) (n m : Nat) (st : State R) : State R :=
  forUp (m + 1) (n - 1 - (m + 1))
    (fun i st => forDown (min (i - 1) (m + 1) + 1) (fun j st => rereduceStep ops n i j st) st)
    st

/-- Lines 319-324: the first index `i < n` with `|y[i]| < sqrt(epsilon)`, if any. -/
def findSmall (ops : RealOps R) (y : Nat → R) (n : Nat) : Option Nat :=
  (List.range n).find? (fun i => decide (|y i| < ops.sqrt ops.epsilon))

/-- What one pass through the body of the `while` loop does. -/
inductive Step (R : Type) where
  /-- The body executed a `return`. -/
  | done (site : Site) (st : State R)
  /-- The body ran to its end with the new `norm_bound`. -/
  | next (st : State R) (normBound : R)

/-- Lines 241-336: the body of the `while` loop. -/
def iteration (ops : RealOps R) (n : Nat) (gamma : R) (st : State R) : Step R :=
  let mi := (pivot st.H n gamma).m
  if mi = (n : Int) - 1 then .done (.diag .pivotLast) st
  else if mi < 0 then .done (.diag .pivotNone) st
  else
    let m := mi.toNat
    let st1 := swapStep m st
    let st2 : State R := { st1 with H := removeCorner ops n m st1.H }
    let st3 := rereduce ops n m st2
    match findSmall ops st3.y n with
    | some k => .done (.found k) st3
    | none => .next st3 (normBound st3.H n)

/-- Lines 239-337: the `while` loop, with `fuel` bounding the number of passes, `none`
when the fuel is used up.  Each completed pass reads one character from `cin`.
Returns the return site and the state the loop was left in. -/
def mainLoop (ops : RealOps R) (n : Nat) (gamma : R) :
    Nat → List Char → State R → R → Option (Site × State R)
  | fuel, cin, st, nb =>
    if nb < maxAcceptableNormBound then
      match fuel with
      | 0 => none
      | fuel + 1 =>
        match iteration ops n gamma st with
        | .done site st1 => some (site, st1)
        | .next st1 nb1 => mainLoop ops n gamma fuel cin.tail st1 nb1
    else some (.ceiling, st)

/-- Lines 338-342: the vector pushed after the loop ("stubbing it out"). -/
def stubRelation (x : List R) : List (Int × R) :=
  x.map (fun t => ((-8 : Int), t))

/-- The returned vector at each return site: `relation` is filled only after the loop. -/
def relationAt (x : List R) : Site → List (Int × R)
  | .ceiling => stubRelation x
  | _ => []

/-- Lines 145-235: Decomposer and Reducer on a validated input; the state and the
`norm_bound` the `while` loop starts from, or the message of a failed Lemma 1 test. -/
def prepare (ops : RealOps R) (x : List R) (xback : R) : Diag ⊕ (State R × R) :=
  let n := x.length
  let xv : Nat → R := fun i => x.getD i 0
  let s := sSq xv n xback
  let H := buildH ops xv s n
  if normCheckFails ops H n then .inl .normLemmaFailed
  else
    let y := initY ops xv s n
    if orthCheckFails ops y H n then .inl .orthLemmaFailed
    else
      let st := reducer ops n (initState H y)
      .inr (st, normBound st.H n)

/-- The function `pslq(std::vector<Real>& x, Real gamma)` (lines 104-343). -/
def pslq (ops : RealOps R) (fuel : Nat) (cin : List Char) (x : List R) (gamma : R) :
    Option (Outcome R) :=
  match validate ops x gamma with
  | .error f => some ⟨[], .undefined f⟩
  | .ok (some d) => some ⟨[], .diag d⟩
  | .ok none =>
    match x.getLast? with
    | none => some ⟨[], .undefined .backOfEmpty⟩
    | some xback =>
      match prepare ops x xback with
      | .inl d => some ⟨[], .diag d⟩
      | .inr (st, nb) =>
        (mainLoop ops x.length gamma fuel cin st nb).map
          (fun r => ⟨relationAt x r.1, r.1⟩)

/-- The default `γ` of line 347: `2/sqrt(3) + 0.01`. -/
def defaultGamma (ops : RealOps R) : R := 2 / ops.sqrt 3 + 1 / 100

/-- The two-argument function at the default `γ` of lines 347 and 398.  The dictionary form
of lines 396-400 runs it on the values of the dictionary (`pslqDictDefault`); the vector form
of lines 345-349 is written to return it, but its call of line 348 is `pslqVector` below. -/
def pslqDefault (ops : RealOps R) (fuel : Nat) (cin : List Char) (x : List R) :
    Option (Outcome R) :=
  pslq ops fuel cin x (defaultGamma ops)

/-! ## The input vector as caller state -/

/-- Lines 128-142 with the vector threaded through the loop: `for (auto & t : x)` binds
`t` to each element by reference.  The result is the message, if any, and the vector as
the loop leaves it. -/
def checkElementsRef (ops : RealOps R) : List R → Option Diag × List R
  | [] => (none, [])
  | t :: rest =>
    if t = 0 then (some .zeroElement, t :: rest)
    else if t < ops.sqrt ops.epsilon then (some .tinyElement, t :: rest)
    else if t < 0 then (some .negativeElement, t :: rest)
    else ((checkElementsRef ops rest).1, t :: (checkElementsRef ops rest).2)

/-- The call as a transformer of the caller's vector `x`, which is passed by non-const
reference: the outcome, together with the content of `x` after the call.  The loop of
lines 128-142 is the only statement that holds non-const references to the elements;
all other uses of `x` are reads (`is_sorted`, `size`, `back`, `x[i]`, the by-value loop of
line 339). -/
def pslqInPlace (ops : RealOps R) (fuel : Nat) (cin : List Char) (x : List R) (gamma : R) :
    Option (Outcome R × List R) :=
  (pslq ops fuel cin x gamma).map (fun o => (o, (checkElementsRef ops x).2))

/-! ## Dictionary form (lines 351-400) -/

/-- A `std::map<Real, std::string>`: its entries in iteration order, which is strictly
ascending in the key. -/
structure Dictionary (R : Type) [LinearOrderedField R] where
  /-- The entries in the order of `begin()` to `end()`. -/
  entries : List (R × String)
  /-- Keys are unique and are iterated in ascending order. -/
  ascending : (entries.map Prod.fst).Pairwise (fun a b => a < b)

/-- Lines 353-357: `values[i++] = it->first` into a vector of `dictionary.size()` zeros. -/
def dictValues (d : Dictionary R) : List R :=
  (d.entries.foldl (fun (acc : List R × Nat) e => (acc.1.set acc.2 e.1, acc.2 + 1))
    (List.replicate d.entries.length 0, 0)).1

/-- The name `dictionary.find(key)->second`; the empty string stands for the dereference
of `end()` when the key is absent. -/
def symbolOf (d : Dictionary R) (key : R) : String :=
  match d.entries.find? (fun e => decide (e.1 = key)) with
  | some e => e.2
  | none => ""

/-- The separator written before the terms after the first: `" - "` for a negative
coefficient, `" + "` otherwise. -/
def signText (c : Int) : String :=
  if c < 0 then " - " else " + "

/-- Lines 360-393: the text built in `oss` for the relation `m`, the empty string when
`m` is empty.  `showReal` is the stream output of `Real`. -/
def renderRelation (showReal : R → String) (d : Dictionary R) (m : List (Int × R)) : String :=
  match m with
  | [] => ""
  | first :: rest =>
    let oss0 := "As\n\t" ++ toString first.1 ++ "⋅" ++ showReal first.2
    let acc :=
      rest.foldl
        (fun (acc : String × R) p =>
          (acc.1 ++ signText p.1 ++ toString |p.1| ++ "⋅" ++ showReal p.2,
            acc.2 + (p.1 : R) * p.2))
        (oss0, (first.1 : R) * first.2)
    let oss1 := acc.1 ++ " = " ++ showReal acc.2 ++ ",\nit is likely that\n\t"
    let oss2 := oss1 ++ toString first.1 ++ "⋅" ++ symbolOf d first.2
    let oss3 :=
      rest.foldl
        (fun (s : String) p => s ++ signText p.1 ++ toString |p.1| ++ "⋅" ++ symbolOf d p.2)
        oss2
    oss3 ++ " = 0."

/-- The function `pslq(std::map<Real, std::string> const& dictionary, Real gamma)`
(lines 351-394); `none` when the inner call does not return. -/
def pslqDict (ops : RealOps R) (showReal : R → String) (fuel : Nat) (cin : List Char)
    (d : Dictionary R) (gamma : R) : Option String :=
  (pslq ops fuel cin (dictValues d) gamma).map
    (fun o => renderRelation showReal d o.relation)

/-- The function `pslq(std::map<Real, std::string> const& dictionary)` (lines 396-400). -/
def pslqDictDefault (ops : RealOps R) (showReal : R → String) (fuel : Nat)
    (cin : List Char) (d : Dictionary R) : Option String :=
  pslqDict ops showReal fuel cin d (defaultGamma ops)

/-! ## Reducer and norm bound with the divisions checked -/

/-- Lines 204-219 with the division of line 205 checked: the step at `(i, j)` has no
defined result when the divisor `Hx(j,j)` is zero, and is `reduceStep` otherwise. -/
def reduceStepChecked (ops : RealOps R) (n i j : Nat) (st : State R) :
    Except Fault (State R) :=
  match checkedDiv (st.H i j) (st.H j j) with
  | .error f => .error f
  | .ok _ => .ok (reduceStep ops n i j st)

/-- Lines 202-221 with every division checked: the loops of `reducer` over
`reduceStepChecked`, stopping at the first undefined division. -/
def reducerChecked (ops : RealOps R) (n : Nat) (st : State R) : Except Fault (State R) :=
  forUp 1 (n - 1)
    (fun i s => forDown i (fun j s => s.bind (reduceStepChecked ops n i j)) s)
    (.ok st)

/-- Line 235 with the division checked: `norm_bound = 1/max_coeff`. -/
def normBoundChecked (H : Nat → Nat → R) (n : Nat) : Except Fault R :=
  checkedDiv 1 (maxCoeff H n)

/-! ## `gmp_int` assignment from 64-bit integers (gmp.hpp, lines 897-924)

The value of an `mpz_t` is an `Int`; an `unsigned long long` is a `Nat` below `2^64`;
`w` stands for `std::numeric_limits<unsigned>::digits`. -/

/-- Line 899: `mask = (1uLL << digits) - 1`, in 64-bit unsigned arithmetic. -/
def chunkMask (w : Nat) : Nat :=
  ((1 <<< w) % 2 ^ 64 + 2 ^ 64 - 1) % 2 ^ 64

/-- Lines 904-912: the `while (i)` loop on the variables `(i, shift, m_data)`; `fuel`
bounds the number of passes, `none` when it is used up. -/
def assignLoop (w : Nat) : Nat → Nat → Nat → Int → Option Int
  | fuel, i, shift, data =>
    if i = 0 then some data
    else
      match fuel with
      | 0 => none
      | fuel + 1 =>
        let t : Int := (((i &&& chunkMask w) % 2 ^ w : Nat) : Int)
        let t1 : Int := if shift ≠ 0 then t * 2 ^ shift else t
        assignLoop w fuel (i >>> w) ((shift + w) % 2 ^ w) (data + t1)

/-- The value `gmp_int::operator=(unsigned long long i)` leaves in `m_data` (lines 897-915). -/
def assignUnsignedLongLong (w fuel : Nat) (i : Nat) : Option Int :=
  assignLoop w fuel i 0 0

/-- The value `gmp_int::operator=(long long i)` leaves in `m_data` (lines 916-924):
`bool neg = i < 0`, assignment of `static_cast<unsigned long long>(abs(i))`, then `mpz_neg`
when `neg`.  (`abs(i)` is undefined for `i = LLONG_MIN`; the model takes `|i|` there.) -/
def assignLongLong (w fuel : Nat) (i : Int) : Option Int :=
  (assignUnsignedLongLong w fuel (i.natAbs % 2 ^ 64)).map
    (fun v => if i < 0 then -v else v)

/-! ## The calls `pslq(x, gamma)` on a vector (lines 348 and 359)

Of the functions named `pslq`, only the one of line 105 takes a vector and a `Real`; its first
parameter is `std::vector<Real> & x`, a reference to non-const.  Line 359 passes the local
vector `values`; line 348 passes the parameter `x` of line 346, a `std::vector<Real> const &`. -/

/-- Whether a vector, or the vector a reference parameter refers to, is const. -/
inductive Constness where
  /-- The type `std::vector<Real>`. -/
  | nonConst
  /-- The type `std::vector<Real> const`. -/
  | const
  deriving DecidableEq

/-- Reference binding in a call: a reference to non-const does not bind to a const vector. -/
def bindsTo (parameter argument : Constness) : Bool :=
  match parameter, argument with
  | .nonConst, .const => false
  | _, _ => true

/-- Why a call expression has no value. -/
inductive IllFormed where
  /-- No function of the name accepts the arguments. -/
  | noMatchingFunction
  deriving DecidableEq

/-- The first parameter of the function of line 105, `std::vector<Real> & x`. -/
def pslqParameter : Constness := .nonConst

/-- A call `pslq(v, gamma)` on a vector `v` of the given constness: the function of line 105
when `v` binds to its first parameter; otherwise no function `pslq` accepts the call. -/
def callPslq (argument : Constness) (ops : RealOps R) (fuel : Nat) (cin : List Char)
    (x : List R) (gamma : R) : Except IllFormed (Option (Outcome R)) :=
  if bindsTo pslqParameter argument then .ok (pslq ops fuel cin x gamma)
  else .error .noMatchingFunction

/-- The function `pslq(std::vector<Real> const & x)` (lines 345-349): line 348 passes the
const `x` on to `pslq(x, gamma)`. -/
def pslqVector (ops : RealOps R) (fuel : Nat) (cin : List Char) (x : List R) :
    Except IllFormed (Option (Outcome R)) :=
  callPslq .const ops fuel cin x (defaultGamma ops)

/-- The call of line 359 inside the dictionary form: `values` is a local non-const vector. -/
def callPslqOnValues (ops : RealOps R) (fuel : Nat) (cin : List Char) (x : List R)
    (gamma : R) : Except IllFormed (Option (Outcome R)) :=
  callPslq .nonConst ops fuel cin x gamma

/-! ## `pslq` up to the `while` loop on a floating-point `Real`

A second embedding of lines 104-239 and 338-342, for a `Real` with the range and the special
values of IEEE binary64 (`double`): a result beyond `DBL_MAX` in magnitude is `±∞`, and
`∞ - ∞`, `0·∞`, `∞/∞`, `0/0` are NaN; a comparison with NaN is false.  Arithmetic on finite
values is exact: rounding to 53 bits, underflow and the sign of zero are not modelled.  The
square root, the rounding and the epsilon for finite values are those of a `RealOps ℚ`.
Each definition follows the source line by line, as its namesake without the final `F` does
over a field. -/

/-- Values of the floating-point `Real`: finite numbers, `±∞` and NaN. -/
inductive Ieee where
  /-- A finite value. -/
  | finite (q : ℚ)
  /-- Plus infinity (`negative = false`) or minus infinity (`negative = true`). -/
  | inf (negative : Bool)
  /-- Not a number. -/
  | nan
  deriving DecidableEq

/-- The largest finite value, `DBL_MAX = (2^53 - 1)·2^971`. -/
def Ieee.maxFinite : ℚ := (2 ^ 53 - 1) * 2 ^ 971

/-- The result of an operation whose exact value is `q`: overflow gives `±∞`. -/
def Ieee.ofRat (q : ℚ) : Ieee :=
  if Ieee.maxFinite < q then .inf false
  else if q < -Ieee.maxFinite then .inf true
  else .finite q

/-- Addition: `∞ + (-∞)` is NaN. -/
def Ieee.add : Ieee → Ieee → Ieee
  | .finite a, .finite b => Ieee.ofRat (a + b)
  | .finite _, .inf s => .inf s
  | .inf s, .finite _ => .inf s
  | .inf s, .inf t => if s = t then .inf s else .nan
  | _, _ => .nan

/-- Unary minus. -/
def Ieee.neg : Ieee → Ieee
  | .finite a => .finite (-a)
  | .inf s => .inf (!s)
  | .nan => .nan

/-- Multiplication: `0·∞` is NaN. -/
def Ieee.mul : Ieee → Ieee → Ieee
  | .finite a, .finite b => Ieee.ofRat (a * b)
  | .finite a, .inf s => if a = 0 then .nan else .inf (s != decide (a < 0))
  | .inf s, .finite b => if b = 0 then .nan else .inf (s != decide (b < 0))
  | .inf s, .inf t => .inf (s != t)
  | _, _ => .nan

/-- Division: `x/0` is `±∞` for `x ≠ 0`, `0/0` and `∞/∞` are NaN, `x/∞` is `0`. -/
def Ieee.div : Ieee → Ieee → Ieee
  | .finite a, .finite b =>
    if b = 0 then (if a = 0 then .nan else .inf (decide (a < 0))) else Ieee.ofRat (a / b)
  | .finite _, .inf _ => .finite 0
  | .inf s, .finite b => .inf (s != decide (b < 0))
  | .inf _, .inf _ => .nan
  | _, _ => .nan

instance : Add Ieee := ⟨Ieee.add⟩
instance : Neg Ieee := ⟨Ieee.neg⟩
instance : Sub Ieee := ⟨fun a b => Ieee.add a (Ieee.neg b)⟩
instance : Mul Ieee := ⟨Ieee.mul⟩
instance : Div Ieee := ⟨Ieee.div⟩
instance (n : Nat) : OfNat Ieee n := ⟨.finite n⟩

/-- The comparison `a < b`: false when either side is NaN. -/
def Ieee.lt : Ieee → Ieee → Bool
  | .finite a, .finite b => decide (a < b)
  | .finite _, .inf s => !s
  | .inf s, .finite _ => s
  | .inf s, .inf t => s && !t
  | _, _ => false

/-- The comparison `a <= b`: false when either side is NaN. -/
def Ieee.le : Ieee → Ieee → Bool
  | .finite a, .finite b => decide (a ≤ b)
  | .finite _, .inf s => !s
  | .inf s, .finite _ => s
  | .inf s, .inf t => s || !t
  | _, _ => false

/-- The comparison `a == b`: false when either side is NaN. -/
def Ieee.eq : Ieee → Ieee → Bool
  | .finite a, .finite b => decide (a = b)
  | .inf s, .inf t => s == t
  | _, _ => false

/-- The function `abs`. -/
def Ieee.abs : Ieee → Ieee
  | .finite a => .finite |a|
  | .inf _ => .inf false
  | .nan => .nan

/-- The function `sqrt`: NaN for a negative argument and for NaN, `+∞` for `+∞`. -/
def Ieee.sqrt (ops : RealOps ℚ) : Ieee → Ieee
  | .finite a => if a < 0 then .nan else .finite (ops.sqrt a)
  | .inf s => if s then .nan else .inf false
  | .nan => .nan

/-- The function `round`. -/
def Ieee.round (ops : RealOps ℚ) : Ieee → Ieee
  | .finite a => .finite (ops.round a)
  | .inf s => .inf s
  | .nan => .nan

/-- A square root of finite precision: the multiple of `2^-p` nearest to `sqrt q`, that is
`⌊2^p·sqrt q + 1/2⌋ / 2^p`, computed from the integer square root of `⌊q·4^(p+1)⌋`. -/
def sqrtNearest (p : Nat) (q : ℚ) : ℚ :=
  (((Nat.sqrt ⌊q * 4 ^ (p + 1)⌋.toNat + 1) / 2 : Nat) : ℚ) / 2 ^ p

/-- Line 107, `std::is_sorted`. -/
def isSortedF : List Ieee → Bool
  | [] => true
  | [_] => true
  | a :: b :: rest => if Ieee.lt b a then false else isSortedF (b :: rest)

/-- Lines 128-142, the per-element loop. -/
def checkElementsF (ops : RealOps ℚ) : List Ieee → Option Diag
  | [] => none
  | t :: rest =>
    if Ieee.eq t 0 then some .zeroElement
    else if Ieee.lt t (Ieee.sqrt ops (.finite ops.epsilon)) then some .tinyElement
    else if Ieee.lt t 0 then some .negativeElement
    else checkElementsF ops rest

/-- Lines 107-142: the message of the first failed check, `none` when every check passed. -/
def validateF (ops : RealOps ℚ) (x : List Ieee) (gamma : Ieee) : Option Diag :=
  if isSortedF x = false then some .unsorted
  else if Ieee.le gamma (2 / Ieee.sqrt ops 3) then some .gammaTooSmall
  else
    let tmp : Ieee := 1 / 4 + 1 / (gamma * gamma)
    let tau : Ieee := 1 / Ieee.sqrt ops tmp
    if Ieee.le tau 1 || Ieee.le 2 tau then some .tauOutOfRange
    else if x.length < 2 then some .tooFewValues
    else checkElementsF ops x

/-- Lines 145-150: `s_sq`. -/
def sSqF (xv : Nat → Ieee) (n : Nat) (xback : Ieee) : Nat → Ieee :=
  forDown (n - 1) (fun i s => setV s i (s (i + 1) + xv i * xv i))
    (setV (fun _ => 0) (n - 1) (xback * xback))

/-- Lines 152-169: the matrix `Hx`. -/
def buildHF (ops : RealOps ℚ) (xv s : Nat → Ieee) (n : Nat) : Nat → Nat → Ieee :=
  let H1 :=
    forUp 0 (n - 1)
      (fun i H =>
        forUp 0 (n - 1)
          (fun j H =>
            if i < j then setM H i j 0
            else if i = j then setM H i i (Ieee.sqrt ops (s (i + 1) / s i))
            else setM H i j (-xv i * xv j / Ieee.sqrt ops (s j * s (j + 1))))
          H)
      (fun _ _ => 0)
  forUp 0 (n - 1)
    (fun j H => setM H (n - 1) j (-xv (n - 1) * xv j / Ieee.sqrt ops (s j * s (j + 1))))
    H1

/-- Line 177: `Hx.squaredNorm()` of the `n × (n-1)` matrix. -/
def squaredNormF (H : Nat → Nat → Ieee) (n : Nat) : Ieee :=
  forUp 0 (n - 1) (fun j acc => forUp 0 n (fun i acc => acc + H i j * H i j) acc) 0

/-- Line 178: the test that reports a failure of Lemma 1.ii. -/
def normCheckFailsF (ops : RealOps ℚ) (H : Nat → Nat → Ieee) (n : Nat) : Bool :=
  Ieee.lt (Ieee.sqrt ops (.finite ops.epsilon))
    (Ieee.abs (squaredNormF H n / .finite ((n - 1 : Nat) : ℚ) - 1))

/-- Lines 183-186: `y[i] = x[i]/sqrt(s_sq[0])`. -/
def initYF (ops : RealOps ℚ) (xv s : Nat → Ieee) (n : Nat) : Nat → Ieee :=
  forUp 0 n (fun i y => setV y i (xv i / Ieee.sqrt ops (s 0))) (fun _ => 0)

/-- Line 187: entry `j` of `y.transpose()*Hx`. -/
def vecMulF (y : Nat → Ieee) (H : Nat → Nat → Ieee) (n j : Nat) : Ieee :=
  forUp 0 n (fun i acc => acc + y i * H i j) 0

/-- Lines 188-193: `true` when some entry fails the test of Lemma 1.iii. -/
def orthCheckFailsF (ops : RealOps ℚ) (y : Nat → Ieee) (H : Nat → Nat → Ieee) (n : Nat) :
    Bool :=
  (List.range (n - 1)).any
    (fun i => Ieee.lt (Ieee.sqrt ops (.finite ops.epsilon))
      (Ieee.abs (vecMulF y H n i) / .finite ((n - 1 : Nat) : ℚ)))

/-- Lines 204-219: the body of the inner loop of the Reducer at `(i, j)`. -/
def reduceStepF (ops : RealOps ℚ) (n i j : Nat) (st : State Ieee) : State Ieee :=
  let q := Ieee.round ops (st.H i j / st.H j j)
  if Ieee.eq q 0 then st
  else
    let H := forUp 0 (j + 1) (fun k H => setM H i k (H i k - q * H j k)) st.H
    let dab :=
      forUp 0 n
        (fun k (dab : (Nat → Nat → Ieee) × (Nat → Nat → Ieee) × (Nat → Nat → Ieee)) =>
          let D := setM dab.1 i k (dab.1 i k - q * dab.1 j k)
          let A := setM dab.2.1 i k (dab.2.1 i k - q * dab.2.1 j k)
          let B := setM dab.2.2 k j (dab.2.2 k j + q * dab.2.2 k i)
          (D, A, B))
        (st.D, st.A, st.B)
    ⟨H, dab.1, dab.2.1, dab.2.2, setV st.y j (st.y j + q * st.y i)⟩

/-- Lines 199-221: the Reducer, from `D = A = B = I`. -/
def reducerF (ops : RealOps ℚ) (n : Nat) (H : Nat → Nat → Ieee) (y : Nat → Ieee) :
    State Ieee :=
  forUp 1 (n - 1) (fun i st => forDown i (fun j st => reduceStepF ops n i j st) st)
    ⟨H, fun r c => if r = c then 1 else 0, fun r c => if r = c then 1 else 0,
      fun r c => if r = c then 1 else 0, y⟩

/-- Lines 229-234: `max_coeff`. -/
def maxCoeffF (H : Nat → Nat → Ieee) (n : Nat) : Ieee :=
  forUp 0 (n - 1) (fun i mc => if Ieee.lt mc (Ieee.abs (H i i)) then Ieee.abs (H i i) else mc) 0

/-- Where a call stands when it reaches the `while` loop, or how it returned before. -/
inductive Entry where
  /-- A return that follows a message on `std::cerr`. -/
  | diag (d : Diag)
  /-- The call `x.back()` on an empty vector. -/
  | backOfEmpty
  /-- The loop test of line 239 failed at once: the body is not executed and the vector
  of lines 338-342 is returned. -/
  | skipped (relation : List (Int × Ieee)) (st : State Ieee) (maxCoeff normBound : Ieee)
  /-- The loop test of line 239 held: the body is executed. -/
  | entered (st : State Ieee) (maxCoeff normBound : Ieee)

/-- Lines 104-239 and 338-342: `pslq(x, gamma)` up to the first test of the `while` loop. -/
def pslqEntryF (ops : RealOps ℚ) (x : List Ieee) (gamma : Ieee) : Entry :=
  match validateF ops x gamma with
  | some d => .diag d
  | none =>
    match x.getLast? with
    | none => .backOfEmpty
    | some xback =>
      let n := x.length
      let xv : Nat → Ieee := fun i => x.getD i 0
      let s := sSqF xv n xback
      let H := buildHF ops xv s n
      if normCheckFailsF ops H n then .diag .normLemmaFailed
      else
        let y := initYF ops xv s n
        if orthCheckFailsF ops y H n then .diag .orthLemmaFailed
        else
          let st := reducerF ops n H y
          let mc := maxCoeffF st.H n
          let nb : Ieee := 1 / mc
          if Ieee.lt nb (.finite 100000000000) then .entered st mc nb
          else .skipped (x.map (fun t => ((-8 : Int), t))) st mc nb

end Algorithm

/-! ## Contracts and specification-level definitions -/

section Contracts

variable {R : Type} [LinearOrderedField R]

/-- Contract of the collaborator square root on nonnegative arguments: the result is
nonnegative and squares to the argument. -/
def SqrtExact (ops : RealOps R) : Prop :=
  ∀ a : R, 0 ≤ a → 0 ≤ ops.sqrt a ∧ ops.sqrt a * ops.sqrt a = a

/-- Weaker contract: the square root of a positive number is positive. -/
def SqrtPos (ops : RealOps R) : Prop :=
  ∀ a : R, 0 < a → 0 < ops.sqrt a

/-- The value `tau` of line 117. -/
def tauOf (ops : RealOps R) (gamma : R) : R :=
  1 / ops.sqrt (1 / 4 + 1 / (gamma * gamma))

/-- The relation the specification reads from column `k` of `B` (RelationExtractor): the
pairs `(B(i,k), x_i)`, in index order, for the `i` with `B(i,k) ≠ 0`. -/
def specColumnRelation (B : Nat → Nat → R) (k : Nat) (x : List R) : List (R × R) :=
  (List.range x.length).filterMap
    (fun i => if B i k = 0 then none else some (B i k, x.getD i 0))

/-- The entry the specification gives for `H(i,j)` (Decomposer): zero above the diagonal,
`sqrt(s[i+1]/s[i])` on it, `-x_i·x_j/sqrt(s[j]·s[j+1])` below it. -/
def specH (ops : RealOps R) (xv s : Nat → R) (i j : Nat) : R :=
  if i < j then 0
  else if i = j then ops.sqrt (s (i + 1) / s i)
  else -xv i * xv j / ops.sqrt (s j * s (j + 1))

/-- The partial sum of squares `Σ_{k=i}^{n-1} x_k²` of the specification. -/
def specS (xv : Nat → R) (n i : Nat) : R :=
  ∑ k in Finset.Ico i n, xv k * xv k

/-- The input vector as the index function used inside `pslq`: `x[i]`. -/
def inputVec (x : List R) : Nat → R :=
  fun i => x.getD i 0

/-- The vector `s_sq` the Decomposer computes for the input `x` (lines 145-150). -/
def decomposerS (x : List R) (xback : R) : Nat → R :=
  sSq (inputVec x) x.length xback

/-- The matrix `Hx` the Decomposer builds for the input `x` (lines 152-169). -/
def decomposerH (ops : RealOps R) (x : List R) (xback : R) : Nat → Nat → R :=
  buildH ops (inputVec x) (decomposerS x xback) x.length

/-- The vector `y` the Decomposer builds for the input `x` (lines 184-187). -/
def decomposerY (ops : RealOps R) (x : List R) (xback : R) : Nat → R :=
  initY ops (inputVec x) (decomposerS x xback) x.length

/-- Lower-trapezoidal shape: every entry above the diagonal is zero. -/
def LowerTrapezoidal (H : Nat → Nat → R) : Prop :=
  ∀ r k, r < k → H r k = 0

/-- The row operation `row_i ← row_i - q·row_j` on the columns `< w`. -/
def rowOp (M : Nat → Nat → R) (i j : Nat) (q : R) (w : Nat) : Nat → Nat → R :=
  fun r c => if r = i ∧ c < w then M i c - q * M j c else M r c

/-- The column operation `col_j ← col_j + q·col_i` on the rows `< h`. -/
def colOp (M : Nat → Nat → R) (i j : Nat) (q : R) (h : Nat) : Nat → Nat → R :=
  fun r c => if c = j ∧ r < h then M r j + q * M r i else M r c

/-- Entry `(i, k)` of the product of an `n`-column matrix with an `n`-row matrix. -/
def matMul (A B : Nat → Nat → R) (n i k : Nat) : R :=
  ∑ l in Finset.range n, A i l * B l k

/-- The invariant `A·H₀ = H` on the rows `< n`. -/
def ProductInvariant (n : Nat) (A H0 H : Nat → Nat → R) : Prop :=
  ∀ i k, i < n → matMul A H0 n i k = H i k

/-- The quantity maximised by the pivot selection: `γ^(i+1)·|H(i,i)|`. -/
def pivotTerm (H : Nat → Nat → R) (gamma : R) (i : Nat) : R :=
  gamma ^ (i + 1) * |H i i|

/-- The `3 × 2` lower-trapezoidal matrix with the rows `(a, 0)`, `(b, c)`, `(d, e)`,
zero elsewhere; used for worked examples with `n = 3`. -/
def lower3 (a b c d e : R) : Nat → Nat → R :=
  fun r k =>
    if r = 0 ∧ k = 0 then a
    else if r = 1 ∧ k = 0 then b
    else if r = 1 ∧ k = 1 then c
    else if r = 2 ∧ k = 0 then d
    else if r = 2 ∧ k = 1 then e
    else 0

/-- A state of the `while` loop with `Hx = lower3 a b c d e`, `D = A = B = I` and
`y = (1, 1, 1)`; used for worked examples with `n = 3`. -/
def exampleState (a b c d e : R) : State R :=
  ⟨lower3 a b c d e, identity, identity, identity, fun _ => 1⟩

end Contracts

/-! ## Facts about the collaborators and the Validator -/

section Facts

variable {R : Type} [LinearOrderedField R]

theorem SqrtExact.pos {ops : RealOps R} (hs : SqrtExact ops) : SqrtPos ops := by
  intro a ha
  obtain ⟨h0, h1⟩ := hs a ha.le
  rcases h0.lt_or_eq with h | h
  · exact h
  · rw [← h] at h1
    simp at h1
    exact absurd h1.symm ha.ne'

theorem SqrtExact.eq_of_sq {ops : RealOps R} (hs : SqrtExact ops) {u v : R} (hu : 0 ≤ u)
    (huv : u * u = v) : ops.sqrt v = u := by
  have hv : 0 ≤ v := by rw [← huv]; exact mul_self_nonneg u
  obtain ⟨h0, h1⟩ := hs v hv
  have h2 : ops.sqrt v * ops.sqrt v = u * u := by rw [h1, huv]
  rcases mul_self_eq_mul_self_iff.mp h2 with h | h
  · exact h
  · have hu0 : u = 0 := by linarith
    rw [h, hu0]
    simp

theorem isSorted_eq_false_iff (x : List R) :
    isSorted x = false ↔ ∃ i, i + 1 < x.length ∧ x.getD (i + 1) 0 < x.getD i 0 := by
  induction x with
  | nil => simp [isSorted]
  | cons a rest ih =>
    cases rest with
    | nil => simp [isSorted]
    | cons b rest =>
      by_cases hba : b < a
      · simp only [isSorted, hba, if_true, true_iff]
        exact ⟨0, by simp, by simpa using hba⟩
      · simp only [isSorted, hba, if_false]
        rw [ih]
        constructor
        · rintro ⟨i, hi, h⟩
          exact ⟨i + 1, by simpa using hi, by simpa using h⟩
        · rintro ⟨i, hi, h⟩
          cases i with
          | zero => exact absurd (by simpa using h) hba
          | succ i => exact ⟨i, by simpa using hi, by simpa using h⟩

theorem sqrt_three_pos {ops : RealOps R} (hs : SqrtPos ops) : 0 < ops.sqrt 3 :=
  hs 3 (by norm_num)

theorem gamma_pos_of_bound {ops : RealOps R} (hs : SqrtPos ops) {gamma : R}
    (hg : 2 / ops.sqrt 3 < gamma) : 0 < gamma :=
  lt_trans (div_pos (by norm_num) (sqrt_three_pos hs)) hg

theorem tau_bounds {ops : RealOps R} (hs : SqrtExact ops) {gamma : R}
    (hg : 2 / ops.sqrt 3 < gamma) :
    1 < 1 / ops.sqrt (1 / 4 + 1 / (gamma * gamma)) ∧
      1 / ops.sqrt (1 / 4 + 1 / (gamma * gamma)) < 2 := by
  have h3 := hs 3 (by norm_num)
  have h3p : 0 < ops.sqrt 3 := sqrt_three_pos hs.pos
  have hb : 0 < 2 / ops.sqrt 3 := by positivity
  have hgp : 0 < gamma := lt_trans hb hg
  have hbb : (2 / ops.sqrt 3) * (2 / ops.sqrt 3) = 4 / 3 := by
    field_simp
    nlinarith [h3.2]
  have hgg : 4 / 3 < gamma * gamma := by
    rw [← hbb]; exact mul_self_lt_mul_self hb.le hg
  have hggp : 0 < gamma * gamma := by positivity
  have hinv : 1 / (gamma * gamma) < 3 / 4 := by
    rw [div_lt_iff₀ hggp]; linarith
  have hinvp : 0 < 1 / (gamma * gamma) := by positivity
  obtain ⟨tmp, htmp⟩ : ∃ t, t = 1 / 4 + 1 / (gamma * gamma) := ⟨_, rfl⟩
  rw [← htmp]
  have ht1 : tmp < 1 := by linarith
  have ht2 : 1 / 4 < tmp := by linarith
  have htp : 0 < tmp := by linarith
  obtain ⟨hr0, hr1⟩ := hs tmp htp.le
  have hrp : 0 < ops.sqrt tmp := hs.pos tmp htp
  have hr_lt : ops.sqrt tmp < 1 := by
    by_contra h
    push_neg at h
    nlinarith
  have hr_gt : 1 / 2 < ops.sqrt tmp := by
    by_contra h
    push_neg at h
    have := mul_self_le_mul_self hr0 h
    linarith
  constructor
  · rw [lt_div_iff₀ hrp]; linarith
  · rw [div_lt_iff₀ hrp]; linarith

theorem validate_unsorted (ops : RealOps R) (x : List R) (gamma : R)
    (h : isSorted x = false) : validate ops x gamma = .ok (some .unsorted) := by
  simp [validate, h]

theorem validate_sorted (ops : RealOps R) (hs : SqrtPos ops) (x : List R) (gamma : R)
    (h : isSorted x = true) :
    validate ops x gamma =
      if gamma ≤ 2 / ops.sqrt 3 then .ok (some .gammaTooSmall)
      else if tauOf ops gamma ≤ 1 ∨ tauOf ops gamma ≥ 2 then .ok (some .tauOutOfRange)
      else if x.length < 2 then .ok (some .tooFewValues)
      else .ok (checkElements ops x) := by
  have h3 : ops.sqrt 3 ≠ 0 := (hs 3 (by norm_num)).ne'
  unfold validate
  simp only [h, checkedDiv, h3, if_false, Bool.true_eq_false]
  by_cases hg : gamma ≤ 2 / ops.sqrt 3
  · simp [hg]
  · have hgp : 0 < gamma := lt_trans (div_pos (by norm_num) (hs 3 (by norm_num))) (not_le.mp hg)
    have hgg : gamma * gamma ≠ 0 := (mul_pos hgp hgp).ne'
    have ht : ops.sqrt (1 / 4 + 1 / (gamma * gamma)) ≠ 0 :=
      (hs _ (by positivity)).ne'
    simp only [hg, hgg, ht, if_false, tauOf]

theorem checkElements_diag (ops : RealOps R) (x : List R) (d : Diag)
    (h : checkElements ops x = some d) :
    d = .zeroElement ∨ d = .tinyElement ∨ d = .negativeElement := by
  induction x with
  | nil => simp [checkElements] at h
  | cons t rest ih =>
    unfold checkElements at h
    split_ifs at h with h1 h2 h3
    · left; exact (Option.some.inj h).symm
    · right; left; exact (Option.some.inj h).symm
    · right; right; exact (Option.some.inj h).symm
    · exact ih h

theorem checkElements_none_iff (ops : RealOps R) (x : List R) :
    checkElements ops x = none ↔ ∀ t ∈ x, 0 < t ∧ ops.sqrt ops.epsilon ≤ t := by
  induction x with
  | nil => simp [checkElements]
  | cons t rest ih =>
    unfold checkElements
    split_ifs with h1 h2 h3
    · simp [h1]
    · simp only [List.mem_cons, forall_eq_or_imp, false_iff, reduceCtorEq]
      intro h; exact absurd h.1.2 (not_le.mpr h2)
    · simp only [List.mem_cons, forall_eq_or_imp, false_iff, reduceCtorEq]
      intro h; exact absurd h.1.1 (not_lt.mpr h3.le)
    · rw [ih]
      simp only [List.mem_cons, forall_eq_or_imp]
      have : 0 < t := lt_of_le_of_ne (not_lt.mp h3) (Ne.symm h1)
      simp [this, not_lt.mp h2]

theorem validate_ok (ops : RealOps R) (hs : SqrtPos ops) (x : List R) (gamma : R) :
    ∃ r, validate ops x gamma = .ok r := by
  cases h : isSorted x with
  | false => exact ⟨_, validate_unsorted ops x gamma h⟩
  | true =>
    rw [validate_sorted ops hs x gamma h]
    split_ifs <;> exact ⟨_, rfl⟩

theorem validate_none_iff (ops : RealOps R) (hs : SqrtPos ops) (x : List R) (gamma : R) :
    validate ops x gamma = .ok none ↔
      isSorted x = true ∧ 2 / ops.sqrt 3 < gamma ∧
        (1 < tauOf ops gamma ∧ tauOf ops gamma < 2) ∧ 2 ≤ x.length ∧
          ∀ t ∈ x, 0 < t ∧ ops.sqrt ops.epsilon ≤ t := by
  cases h : isSorted x with
  | false => simp [validate_unsorted ops x gamma h]
  | true =>
    rw [validate_sorted ops hs x gamma h]
    split_ifs with h1 h2 h3
    · simp [h1]
    · simp only [reduceCtorEq, false_iff, Except.ok.injEq, true_and, not_and]
      intro _ h4; rcases h2 with h2 | h2
      · exact absurd h4.1 (not_lt.mpr h2)
      · exact absurd h4.2 (not_lt.mpr h2)
    · simp only [reduceCtorEq, false_iff, Except.ok.injEq, true_and, not_and]
      intro _ _ h4; omega
    · push_neg at h1 h2 h3
      simp only [Except.ok.injEq, checkElements_none_iff, true_and]
      constructor
      · intro h4; exact ⟨h1, h2, h3, h4⟩
      · intro h4; exact h4.2.2.2

theorem findSmall_some (ops : RealOps R) (y : Nat → R) (n k : Nat)
    (h : findSmall ops y n = some k) : k < n ∧ |y k| < ops.sqrt ops.epsilon := by
  unfold findSmall at h
  have h1 := List.find?_some h
  have h2 := List.mem_of_find?_eq_some h
  exact ⟨List.mem_range.mp h2, by simpa using h1⟩

theorem findSmall_none (ops : RealOps R) (y : Nat → R) (n : Nat)
    (h : findSmall ops y n = none) : ∀ i, i < n → ops.sqrt ops.epsilon ≤ |y i| := by
  unfold findSmall at h
  intro i hi
  have := List.find?_eq_none.mp h i (List.mem_range.mpr hi)
  simpa using this

theorem iteration_done_site (ops : RealOps R) (n : Nat) (gamma : R) (st st1 : State R)
    (site : Site) (h : iteration ops n gamma st = .done site st1) :
    site = .diag .pivotLast ∨ site = .diag .pivotNone ∨
      ∃ k, site = .found k ∧ k < n ∧ |st1.y k| < ops.sqrt ops.epsilon := by
  unfold iteration at h
  simp only at h
  split_ifs at h with h1 h2
  · left; cases h; rfl
  · right; left; cases h; rfl
  · right; right
    split at h
    · rename_i k hk
      cases h
      exact ⟨k, rfl, findSmall_some ops _ n k hk⟩
    · cases h

theorem iteration_next_bound (ops : RealOps R) (n : Nat) (gamma : R) (st st1 : State R)
    (nb : R) (h : iteration ops n gamma st = .next st1 nb) :
    nb = normBound st1.H n ∧ ∀ i, i < n → ops.sqrt ops.epsilon ≤ |st1.y i| := by
  unfold iteration at h
  simp only at h
  split_ifs at h with h1 h2
  split at h
  · cases h
  · rename_i hk
    cases h
    exact ⟨rfl, findSmall_none ops _ n hk⟩

theorem mainLoop_site (ops : RealOps R) (n : Nat) (gamma : R) (fuel : Nat) :
    ∀ (cin : List Char) (st : State R) (nb : R) (site : Site) (st1 : State R),
      mainLoop ops n gamma fuel cin st nb = some (site, st1) →
        site = .diag .pivotLast ∨ site = .diag .pivotNone ∨
          (∃ k, site = .found k ∧ k < n ∧ |st1.y k| < ops.sqrt ops.epsilon) ∨
            site = .ceiling := by
  induction fuel with
  | zero =>
    intro cin st nb site st1 h
    unfold mainLoop at h
    split_ifs at h with hnb
    cases h
    exact Or.inr (Or.inr (Or.inr rfl))
  | succ fuel ih =>
    intro cin st nb site st1 h
    unfold mainLoop at h
    split_ifs at h with hnb
    · simp only at h
      split at h
      · rename_i s2 st2 hit
        cases h
        rcases iteration_done_site ops n gamma st st1 site hit with h | h | h
        · exact Or.inl h
        · exact Or.inr (Or.inl h)
        · exact Or.inr (Or.inr (Or.inl h))
      · exact ih _ _ _ _ _ h
    · cases h; right; right; right; rfl

theorem pslq_relation (ops : RealOps R) (fuel : Nat) (cin : List Char) (x : List R)
    (gamma : R) (o : Outcome R) (h : pslq ops fuel cin x gamma = some o) :
    o.relation = relationAt x o.site := by
  unfold pslq at h
  split at h
  · cases h; rfl
  · cases h; rfl
  · split at h
    · cases h; rfl
    · split at h
      · cases h; rfl
      · simp only [Option.map_eq_some'] at h
        obtain ⟨r, _, hr⟩ := h
        cases hr; rfl

theorem maxCoeff_two (H : Nat → Nat → R) : maxCoeff H 2 = |H 0 0| := by
  simp only [maxCoeff, forUp, Nat.add_zero, Nat.reduceSub]
  split_ifs with h
  · rfl
  · exact le_antisymm (abs_nonneg _) (not_lt.mp h)

theorem normBound_two (H : Nat → Nat → R) : normBound H 2 = 1 / |H 0 0| := by
  rw [normBound, maxCoeff_two]

theorem pivot_two (H : Nat → Nat → R) (gamma : R) (hg : 0 < gamma) (h : H 0 0 ≠ 0) :
    (pivot H 2 gamma).m = 0 := by
  have : gamma * |H 0 0| > 0 := mul_pos hg (abs_pos.mpr h)
  simp [pivot, forUp, this]

theorem iteration_two (ops : RealOps R) (gamma : R) (st : State R) (hg : 0 < gamma)
    (h : st.H 0 0 ≠ 0) :
    iteration ops 2 gamma st =
      match findSmall ops (swapV st.y 0) 2 with
      | some k => .done (.found k) (swapStep 0 st)
      | none => .next (swapStep 0 st) (1 / |st.H 1 0|) := by
  unfold iteration
  simp only [pivot_two st.H gamma hg h]
  have hr : removeCorner ops 2 0 (swapStep 0 st).H = (swapStep 0 st).H := by
    simp [removeCorner]
  simp only [Int.toNat_zero, hr]
  have hrr : rereduce ops 2 0 (swapStep 0 st) = swapStep 0 st := by
    simp [rereduce, forUp]
  have hnb : normBound (swapStep 0 st).H 2 = 1 / |st.H 1 0| := by
    simp [normBound_two, swapStep, swapRows]
  cases hfs : findSmall ops (swapV st.y 0) 2 with
  | none =>
    have hfs2 : findSmall ops (swapStep 0 st).y 2 = none := hfs
    simp [hrr, hnb, hfs2]
  | some k =>
    have hfs2 : findSmall ops (swapStep 0 st).y 2 = some k := hfs
    simp [hrr, hfs2]

theorem findSmall_two_none (ops : RealOps R) (y : Nat → R)
    (h0 : ops.sqrt ops.epsilon ≤ |y 0|) (h1 : ops.sqrt ops.epsilon ≤ |y 1|) :
    findSmall ops y 2 = none := by
  simp [findSmall, List.range_succ, List.find?, not_lt.mpr h0, not_lt.mpr h1]

theorem mainLoop_two_diverges (ops : RealOps R) (gamma : R) (hg : 0 < gamma) (fuel : Nat) :
    ∀ (cin : List Char) (st : State R) (nb : R),
      nb < maxAcceptableNormBound →
      st.H 0 0 ≠ 0 → st.H 1 0 ≠ 0 →
      1 / |st.H 0 0| < maxAcceptableNormBound → 1 / |st.H 1 0| < maxAcceptableNormBound →
      ops.sqrt ops.epsilon ≤ |st.y 0| → ops.sqrt ops.epsilon ≤ |st.y 1| →
      mainLoop ops 2 gamma fuel cin st nb = none := by
  induction fuel with
  | zero =>
    intro cin st nb hnb _ _ _ _ _ _
    unfold mainLoop
    simp [hnb]
  | succ fuel ih =>
    intro cin st nb hnb h0 h1 b0 b1 y0 y1
    unfold mainLoop
    simp only [hnb, if_true]
    rw [iteration_two ops gamma st hg h0]
    rw [findSmall_two_none ops (swapV st.y 0) (by simpa [swapV] using y1)
      (by simpa [swapV] using y0)]
    simp only
    apply ih
    · exact b1
    · simpa [swapStep, swapRows] using h1
    · simpa [swapStep, swapRows] using h0
    · simpa [swapStep, swapRows] using b1
    · simpa [swapStep, swapRows] using b0
    · simpa [swapStep, swapV] using y1
    · simpa [swapStep, swapV] using y0

theorem sSq_two (a b : R) :
    sSq (fun i => [a, b].getD i 0) 2 b 0 = b * b + a * a ∧
    sSq (fun i => [a, b].getD i 0) 2 b 1 = b * b := by
  simp [sSq, forDown, setV]

theorem buildH_two (ops : RealOps R) (xv s : Nat → R) :
    buildH ops xv s 2 0 0 = ops.sqrt (s 1 / s 0) ∧
    buildH ops xv s 2 1 0 = -xv 1 * xv 0 / ops.sqrt (s 0 * s 1) := by
  simp [buildH, forUp, setM]

theorem initY_two (ops : RealOps R) (xv s : Nat → R) :
    initY ops xv s 2 0 = xv 0 / ops.sqrt (s 0) ∧
    initY ops xv s 2 1 = xv 1 / ops.sqrt (s 0) := by
  simp [initY, forUp, setV]

theorem squaredNorm_two (H : Nat → Nat → R) :
    squaredNorm H 2 1 = H 0 0 * H 0 0 + H 1 0 * H 1 0 := by
  simp [squaredNorm, Finset.sum_range_succ]

theorem vecMul_two (y : Nat → R) (H : Nat → Nat → R) (j : Nat) :
    vecMul y H 2 j = y 0 * H 0 j + y 1 * H 1 j := by
  simp [vecMul, Finset.sum_range_succ]

theorem reducer_two (ops : RealOps R) (st : State R) :
    reducer ops 2 st = reduceStep ops 2 1 0 st := by
  simp [reducer, forUp, forDown]

theorem reduceStep_two (ops : RealOps R) (H : Nat → Nat → R) (y : Nat → R) (q : R)
    (st : State R) (hq : q = ops.round (H 1 0 / H 0 0))
    (hst : st = reduceStep ops 2 1 0 (initState H y)) :
    st.H 0 0 = H 0 0 ∧ st.H 1 0 = H 1 0 - q * H 0 0 ∧
    st.y 0 = y 0 + q * y 1 ∧ st.y 1 = y 1 ∧
    st.B 0 0 = 1 ∧ st.B 0 1 = 0 ∧ st.B 1 0 = q ∧ st.B 1 1 = 1 ∧
    st.A 0 0 = 1 ∧ st.A 0 1 = 0 ∧ st.A 1 0 = -q ∧ st.A 1 1 = 1 := by
  subst hst
  by_cases h0 : ops.round (H 1 0 / H 0 0) = 0
  · have hq0 : q = 0 := hq.trans h0
    simp [reduceStep, initState, h0, hq0, identity]
  · simp only [reduceStep, initState, h0, if_false]
    simp [forUp, setM, setV, identity, hq]

theorem prepare_two (ops : RealOps R) (hs : SqrtExact ops)
    (heps : 0 ≤ ops.sqrt ops.epsilon) (a b r q : R) (ha : 0 < a) (hb : 0 < b)
    (hr : r = ops.sqrt (b * b + a * a)) (hq : q = ops.round (-a / b)) :
    ∃ st nb, prepare ops [a, b] b = .inr (st, nb) ∧ nb = 1 / |st.H 0 0| ∧
      st.H 0 0 = b / r ∧ st.H 1 0 = -(a + q * b) / r ∧
      st.y 0 = (a + q * b) / r ∧ st.y 1 = b / r ∧
      st.B 0 0 = 1 ∧ st.B 0 1 = 0 ∧ st.B 1 0 = q ∧ st.B 1 1 = 1 := by
  have hs0 : 0 < b * b + a * a := by positivity
  have hrp : 0 < r := hr ▸ hs.pos _ hs0
  have hrr : r * r = b * b + a * a := hr ▸ (hs _ hs0.le).2
  have hs1 : ops.sqrt (b * b / (b * b + a * a)) = b / r := by
    apply hs.eq_of_sq (by positivity)
    rw [← hrr]; field_simp
  have hs2 : ops.sqrt ((b * b + a * a) * (b * b)) = r * b := by
    apply hs.eq_of_sq (by positivity)
    rw [← hrr]; ring
  obtain ⟨hS0, hS1⟩ := sSq_two a b
  obtain ⟨hH0, hH1⟩ := buildH_two ops (fun i => [a, b].getD i 0)
    (sSq (fun i => [a, b].getD i 0) 2 b)
  obtain ⟨hY0, hY1⟩ := initY_two ops (fun i => [a, b].getD i 0)
    (sSq (fun i => [a, b].getD i 0) 2 b)
  rw [hS0, hS1, hs1] at hH0
  rw [hS0, hS1, hs2] at hH1
  rw [hS0, ← hr] at hY0 hY1
  simp only [List.getD_cons_zero, List.getD_cons_succ] at hH1 hY0 hY1
  have hH1b : buildH ops (fun i => [a, b].getD i 0) (sSq (fun i => [a, b].getD i 0) 2 b) 2 1 0
      = -a / r := by
    rw [hH1]; field_simp; ring
  clear hH1 hS0 hS1
  obtain ⟨H, hH⟩ : ∃ H, H = buildH ops (fun i => [a, b].getD i 0)
    (sSq (fun i => [a, b].getD i 0) 2 b) 2 := ⟨_, rfl⟩
  obtain ⟨y, hy⟩ : ∃ y, y = initY ops (fun i => [a, b].getD i 0)
    (sSq (fun i => [a, b].getD i 0) 2 b) 2 := ⟨_, rfl⟩
  rw [← hH] at hH0 hH1b
  rw [← hy] at hY0 hY1
  have hnorm : ¬ normCheckFails ops H 2 := by
    unfold normCheckFails
    rw [squaredNorm_two, hH0, hH1b]
    have : b / r * (b / r) + -a / r * (-a / r) = 1 := by
      field_simp; rw [hrr]
    rw [this]
    simpa using heps
  have horth : orthCheckFails ops y H 2 = false := by
    have : y 0 * H 0 0 + y 1 * H 1 0 = 0 := by
      rw [hY0, hY1, hH0, hH1b]; ring
    simp [orthCheckFails, vecMul_two, this, heps]
  have hprep : prepare ops [a, b] b =
      .inr (reducer ops 2 (initState H y), normBound (reducer ops 2 (initState H y)).H 2) := by
    simp only [prepare, List.length_cons, List.length_nil, Nat.reduceAdd]
    rw [← hH, ← hy, if_neg hnorm]
    simp [horth]
  obtain ⟨e1, e2, e3, e4, e5, e6, e7, e8, -⟩ := reduceStep_two ops H y
    (ops.round (H 1 0 / H 0 0)) (reducer ops 2 (initState H y)) rfl (reducer_two ops _)
  have hqq : ops.round (H 1 0 / H 0 0) = q := by
    rw [hq, hH0, hH1b]; congr 1; field_simp; ring
  rw [hqq] at e2 e3 e7
  refine ⟨_, _, hprep, normBound_two _, ?_, ?_, ?_, ?_, e5, e6, e7, e8⟩
  · rw [e1, hH0]
  · rw [e2, hH0, hH1b]; ring
  · rw [e3, hY0, hY1]; ring
  · rw [e4, hY1]

theorem pslq_of_prepare (ops : RealOps R) (fuel : Nat) (cin : List Char) (x : List R)
    (gamma xback : R) (st : State R) (nb : R)
    (hv : validate ops x gamma = .ok none) (hl : x.getLast? = some xback)
    (hp : prepare ops x xback = .inr (st, nb)) :
    pslq ops fuel cin x gamma =
      (mainLoop ops x.length gamma fuel cin st nb).map
        (fun r => ⟨relationAt x r.1, r.1⟩) := by
  unfold pslq
  simp only [hv, hl, hp]

theorem defaultGamma_gt (ops : RealOps R) : 2 / ops.sqrt 3 < defaultGamma ops := by
  unfold defaultGamma
  linarith [show (0 : R) < 1 / 100 by norm_num]

theorem defaultGamma_pos (ops : RealOps R) (hs : SqrtPos ops) : 0 < defaultGamma ops :=
  gamma_pos_of_bound hs (defaultGamma_gt ops)

theorem validate_default_two (ops : RealOps R) (hs : SqrtExact ops) (a b : R)
    (hab : a ≤ b) (ha : 0 < a) (hae : ops.sqrt ops.epsilon ≤ a) :
    validate ops [a, b] (defaultGamma ops) = .ok none := by
  rw [validate_none_iff ops hs.pos]
  refine ⟨?_, defaultGamma_gt ops, tau_bounds hs (defaultGamma_gt ops), by simp, ?_⟩
  · simp [isSorted, not_lt.mpr hab]
  · intro t ht
    simp only [List.mem_cons, List.mem_singleton, List.not_mem_nil, or_false] at ht
    rcases ht with rfl | rfl
    · exact ⟨ha, hae⟩
    · exact ⟨lt_of_lt_of_le ha hab, le_trans hae hab⟩

theorem mainLoop_exit (ops : RealOps R) (n : Nat) (gamma : R) (fuel : Nat)
    (cin : List Char) (st : State R) (nb : R) (h : ¬ nb < maxAcceptableNormBound) :
    mainLoop ops n gamma fuel cin st nb = some (.ceiling, st) := by
  unfold mainLoop
  rw [if_neg h]

theorem mainLoop_succ (ops : RealOps R) (n : Nat) (gamma : R) (fuel : Nat)
    (cin : List Char) (st : State R) (nb : R) (h : nb < maxAcceptableNormBound) :
    mainLoop ops n gamma (fuel + 1) cin st nb =
      match iteration ops n gamma st with
      | .done site st1 => some (site, st1)
      | .next st1 nb1 => mainLoop ops n gamma fuel cin.tail st1 nb1 := by
  rw [mainLoop, if_pos h]

theorem mainLoop_two_ceiling (ops : RealOps R) (gamma : R) (hg : 0 < gamma) (fuel : Nat)
    (cin : List Char) (st : State R) (nb : R) (hnb : nb < maxAcceptableNormBound)
    (h0 : st.H 0 0 ≠ 0) (hy0 : ops.sqrt ops.epsilon ≤ |st.y 0|)
    (hy1 : ops.sqrt ops.epsilon ≤ |st.y 1|)
    (hc : ¬ 1 / |st.H 1 0| < maxAcceptableNormBound) :
    mainLoop ops 2 gamma (fuel + 1) cin st nb = some (.ceiling, swapStep 0 st) := by
  rw [mainLoop_succ ops 2 gamma fuel cin st nb hnb, iteration_two ops gamma st hg h0,
    findSmall_two_none ops (swapV st.y 0) (by simpa [swapV] using hy1)
      (by simpa [swapV] using hy0)]
  exact mainLoop_exit ops 2 gamma fuel cin.tail _ _ hc

theorem mainLoop_two_found (ops : RealOps R) (gamma : R) (hg : 0 < gamma) (fuel : Nat)
    (cin : List Char) (st : State R) (nb : R) (k : Nat)
    (hnb : nb < maxAcceptableNormBound) (h0 : st.H 0 0 ≠ 0)
    (hk : findSmall ops (swapV st.y 0) 2 = some k) :
    mainLoop ops 2 gamma (fuel + 1) cin st nb = some (.found k, swapStep 0 st) := by
  rw [mainLoop_succ ops 2 gamma fuel cin st nb hnb, iteration_two ops gamma st hg h0, hk]

/-- Two-element inputs on which the call never returns: after the Reducer both entries
of the single column of `Hx` are above `1/ceiling` in magnitude and both entries of `y`
are at least `sqrt(epsilon)` in magnitude. -/
theorem pslqDefault_two_diverges (ops : RealOps R) (hs : SqrtExact ops)
    (heps : 0 ≤ ops.sqrt ops.epsilon) (a b r q : R) (ha : 0 < a) (hab : a ≤ b)
    (hae : ops.sqrt ops.epsilon ≤ a)
    (hr : r = ops.sqrt (b * b + a * a)) (hq : q = ops.round (-a / b))
    (hu : (a + q * b) / r ≠ 0)
    (hub : 1 / |(a + q * b) / r| < maxAcceptableNormBound)
    (hwb : 1 / |b / r| < maxAcceptableNormBound)
    (hue : ops.sqrt ops.epsilon ≤ |(a + q * b) / r|)
    (hwe : ops.sqrt ops.epsilon ≤ |b / r|) (fuel : Nat) (cin : List Char) :
    pslqDefault ops fuel cin [a, b] = none := by
  have hb : 0 < b := lt_of_lt_of_le ha hab
  obtain ⟨st, nb, hp, hnb, e1, e2, e3, e4, -⟩ := prepare_two ops hs heps a b r q ha hb hr hq
  unfold pslqDefault
  rw [pslq_of_prepare ops fuel cin [a, b] _ b st nb
    (validate_default_two ops hs a b hab ha hae) (by simp) hp]
  have hrp : 0 < r := hr ▸ hs.pos _ (by positivity)
  have hneg : -(a + q * b) / r = -((a + q * b) / r) := by ring
  have hlen : [a, b].length = 2 := rfl
  rw [hlen, mainLoop_two_diverges ops _ (defaultGamma_pos ops hs.pos) fuel cin st nb]
  · rfl
  · rw [hnb, e1]; exact hwb
  · rw [e1]; exact (div_pos hb hrp).ne'
  · rw [e2, hneg]; exact neg_ne_zero.mpr hu
  · rw [e1]; exact hwb
  · rw [e2, hneg, abs_neg]; exact hub
  · rw [e3]; exact hue
  · rw [e4]; exact hwe

theorem sqrtExact_real (eps : ℝ) : SqrtExact (RealOps.ofSqrt Real.sqrt eps) := by
  intro a ha
  exact ⟨Real.sqrt_nonneg a, Real.mul_self_sqrt ha⟩

theorem cRound_of_neg {a : ℝ} {z : Int} (ha : a < 0) (h1 : (z : ℝ) - 1 < a - 1 / 2)
    (h2 : a - 1 / 2 ≤ z) : cRound a = z := by
  unfold cRound
  rw [if_neg (not_le.mpr ha)]
  congr 1
  exact Int.ceil_eq_iff.mpr ⟨h1, h2⟩

theorem ceiling_value : (maxAcceptableNormBound : ℝ) = 100000000000 := rfl

/-- The run on `x = [3, 4]`: `r = 5`, `q = -1`, and the loop only swaps. -/
theorem run_three_four (fuel : Nat) (cin : List Char) :
    pslqDefault (RealOps.ofSqrt Real.sqrt (1 / 2 ^ 52)) fuel cin [3, 4] = none := by
  have hs := sqrtExact_real (1 / 2 ^ 52)
  have hr : (5 : ℝ) = Real.sqrt (4 * 4 + 3 * 3) :=
    (hs.eq_of_sq (by norm_num) (by norm_num)).symm
  have hq : ((-1 : Int) : ℝ) = cRound (-3 / 4 : ℝ) :=
    (cRound_of_neg (by norm_num) (by norm_num) (by norm_num)).symm
  have he : Real.sqrt (1 / 2 ^ 52) ≤ 1 / 5 := by
    rw [Real.sqrt_le_iff]; norm_num
  apply pslqDefault_two_diverges _ hs (Real.sqrt_nonneg _) 3 4 5 ((-1 : Int) : ℝ)
    (by norm_num) (by norm_num) _ hr hq
  · norm_num
  · rw [ceiling_value]; norm_num [abs_of_pos]
  · rw [ceiling_value]; norm_num [abs_of_pos]
  · show Real.sqrt (1 / 2 ^ 52) ≤ _
    refine le_trans he ?_
    norm_num [abs_of_pos]
  · show Real.sqrt (1 / 2 ^ 52) ≤ _
    refine le_trans he ?_
    norm_num [abs_of_pos]
  · show Real.sqrt (1 / 2 ^ 52) ≤ _
    exact le_trans he (by norm_num)

/-- The run on `x = [1, 2]`: `r = √5`, `q = -1`, and the loop only swaps. -/
theorem run_one_two (fuel : Nat) (cin : List Char) :
    pslqDefault (RealOps.ofSqrt Real.sqrt (1 / 2 ^ 52)) fuel cin [1, 2] = none := by
  have hs := sqrtExact_real (1 / 2 ^ 52)
  obtain ⟨r, hr⟩ : ∃ r : ℝ, r = Real.sqrt (2 * 2 + 1 * 1) := ⟨_, rfl⟩
  have hr2 : r * r = 5 := by
    rw [hr, Real.mul_self_sqrt (by norm_num)]; norm_num
  have hr0 : 0 ≤ r := hr ▸ Real.sqrt_nonneg _
  have hrlo : 2 < r := by nlinarith
  have hrhi : r < 3 := by nlinarith
  have hrp : 0 < r := by linarith
  have hq : ((-1 : Int) : ℝ) = cRound (-1 / 2 : ℝ) :=
    (cRound_of_neg (by norm_num) (by norm_num) (by norm_num)).symm
  have he : Real.sqrt (1 / 2 ^ 52) ≤ 1 / 3 := by
    rw [Real.sqrt_le_iff]; norm_num
  have hu : (1 + ((-1 : Int) : ℝ) * 2) / r = -(1 / r) := by
    push_cast; ring
  have hinv : 1 / 3 ≤ 1 / r := one_div_le_one_div_of_le hrp hrhi.le
  apply pslqDefault_two_diverges _ hs (Real.sqrt_nonneg _) 1 2 r ((-1 : Int) : ℝ)
    (by norm_num) (by norm_num) _ hr hq
  · rw [hu]; exact neg_ne_zero.mpr (by positivity)
  · rw [hu, abs_neg, abs_of_pos (by positivity), ceiling_value, one_div_one_div]
    linarith
  · rw [abs_of_pos (by positivity), ceiling_value, one_div_div]
    linarith
  · show Real.sqrt (1 / 2 ^ 52) ≤ _
    rw [hu, abs_neg, abs_of_pos (by positivity)]
    exact le_trans he hinv
  · show Real.sqrt (1 / 2 ^ 52) ≤ _
    rw [abs_of_pos (by positivity)]
    refine le_trans he (le_trans hinv ?_)
    exact div_le_div_of_nonneg_right (by norm_num) hrp.le
  · show Real.sqrt (1 / 2 ^ 52) ≤ _
    exact le_trans he (by norm_num)

theorem run_two_ceiling (ops : RealOps R) (hs : SqrtExact ops)
    (heps : 0 ≤ ops.sqrt ops.epsilon) (a b r q : R) (ha : 0 < a) (hab : a ≤ b)
    (hae : ops.sqrt ops.epsilon ≤ a)
    (hr : r = ops.sqrt (b * b + a * a)) (hq : q = ops.round (-a / b))
    (huc : ¬ 1 / |(a + q * b) / r| < maxAcceptableNormBound)
    (hwb : 1 / |b / r| < maxAcceptableNormBound)
    (hue : ops.sqrt ops.epsilon ≤ |(a + q * b) / r|)
    (hwe : ops.sqrt ops.epsilon ≤ |b / r|) (fuel : Nat) (cin : List Char) :
    ∃ st nb st1, prepare ops [a, b] b = .inr (st, nb) ∧
      mainLoop ops 2 (defaultGamma ops) (fuel + 1) cin st nb = some (.ceiling, st1) ∧
      (∀ i, i < 2 → ops.sqrt ops.epsilon ≤ |st1.y i|) ∧
      pslqDefault ops (fuel + 1) cin [a, b] = some ⟨[(-8, a), (-8, b)], .ceiling⟩ := by
  have hb : 0 < b := lt_of_lt_of_le ha hab
  obtain ⟨st, nb, hp, hnb, e1, e2, e3, e4, -⟩ := prepare_two ops hs heps a b r q ha hb hr hq
  have hrp : 0 < r := hr ▸ hs.pos _ (by positivity)
  have hneg : -(a + q * b) / r = -((a + q * b) / r) := by ring
  have hml : mainLoop ops 2 (defaultGamma ops) (fuel + 1) cin st nb =
      some (.ceiling, swapStep 0 st) := by
    apply mainLoop_two_ceiling ops _ (defaultGamma_pos ops hs.pos)
    · rw [hnb, e1]; exact hwb
    · rw [e1]; exact (div_pos hb hrp).ne'
    · rw [e3]; exact hue
    · rw [e4]; exact hwe
    · rw [e2, hneg, abs_neg]; exact huc
  refine ⟨st, nb, swapStep 0 st, hp, hml, ?_, ?_⟩
  · intro i hi
    have : i = 0 ∨ i = 1 := by omega
    rcases this with rfl | rfl
    · simpa [swapStep, swapV, e4] using hwe
    · simpa [swapStep, swapV, e3] using hue
  · unfold pslqDefault
    rw [pslq_of_prepare ops (fuel + 1) cin [a, b] _ b st nb
      (validate_default_two ops hs a b hab ha hae) (by simp) hp]
    have hlen : [a, b].length = 2 := rfl
    rw [hlen, hml]
    rfl

theorem run_two_found (ops : RealOps R) (hs : SqrtExact ops)
    (heps : 0 < ops.sqrt ops.epsilon) (a b r q : R) (ha : 0 < a) (hab : a ≤ b)
    (hae : ops.sqrt ops.epsilon ≤ a)
    (hr : r = ops.sqrt (b * b + a * a)) (hq : q = ops.round (-a / b))
    (hu : a + q * b = 0)
    (hwb : 1 / |b / r| < maxAcceptableNormBound)
    (hwe : ops.sqrt ops.epsilon ≤ |b / r|) (fuel : Nat) (cin : List Char) :
    ∃ st nb st1, prepare ops [a, b] b = .inr (st, nb) ∧
      mainLoop ops 2 (defaultGamma ops) (fuel + 1) cin st nb = some (.found 1, st1) ∧
      |st1.y 1| < ops.sqrt ops.epsilon ∧ st1.B 0 1 = 1 ∧ st1.B 1 1 = q ∧
      pslqDefault ops (fuel + 1) cin [a, b] = some ⟨[], .found 1⟩ := by
  have hb : 0 < b := lt_of_lt_of_le ha hab
  obtain ⟨st, nb, hp, hnb, e1, e2, e3, e4, b00, b01, b10, b11⟩ :=
    prepare_two ops hs heps.le a b r q ha hb hr hq
  have hrp : 0 < r := hr ▸ hs.pos _ (by positivity)
  have hy0 : st.y 0 = 0 := by rw [e3, hu]; simp
  have hfs : findSmall ops (swapV st.y 0) 2 = some 1 := by
    have h1 : ¬ |st.y 1| < ops.sqrt ops.epsilon := by rw [e4]; exact not_lt.mpr hwe
    simp [findSmall, List.range_succ, List.find?, swapV, h1, hy0, heps]
  have hml : mainLoop ops 2 (defaultGamma ops) (fuel + 1) cin st nb =
      some (.found 1, swapStep 0 st) := by
    apply mainLoop_two_found ops _ (defaultGamma_pos ops hs.pos)
    · rw [hnb, e1]; exact hwb
    · rw [e1]; exact (div_pos hb hrp).ne'
    · exact hfs
  refine ⟨st, nb, swapStep 0 st, hp, hml, ?_, ?_, ?_, ?_⟩
  · simpa [swapStep, swapV, hy0] using heps
  · simpa [swapStep, swapCols] using b00
  · simpa [swapStep, swapCols] using b10
  · unfold pslqDefault
    rw [pslq_of_prepare ops (fuel + 1) cin [a, b] _ b st nb
      (validate_default_two ops hs a b hab ha hae) (by simp) hp]
    have hlen : [a, b].length = 2 := rfl
    rw [hlen, hml]
    rfl

theorem pslq_of_reject (ops : RealOps R) (fuel : Nat) (cin : List Char) (x : List R)
    (gamma : R) (d : Diag) (hv : validate ops x gamma = .ok (some d)) :
    pslq ops fuel cin x gamma = some ⟨[], .diag d⟩ := by
  unfold pslq
  simp only [hv]

theorem validate_unsorted_iff (ops : RealOps R) (x : List R) (gamma : R) :
    validate ops x gamma = .ok (some .unsorted) ↔ isSorted x = false := by
  constructor
  · intro h
    by_contra hsf
    have hst : isSorted x = true := by simpa using hsf
    cases h1 : checkedDiv 2 (ops.sqrt 3) with
    | error f => simp only [validate, hst, h1, if_false, if_true, Bool.true_eq_false, reduceCtorEq, Except.ok.injEq, Option.some.injEq] at h
    | ok bound =>
      by_cases hg : gamma ≤ bound
      · simp only [validate, hst, h1, hg, if_false, if_true, Bool.true_eq_false, reduceCtorEq, Except.ok.injEq, Option.some.injEq] at h
      · cases h2 : checkedDiv 1 (gamma * gamma) with
        | error f => simp only [validate, hst, h1, hg, h2, if_false, if_true, Bool.true_eq_false, reduceCtorEq, Except.ok.injEq, Option.some.injEq] at h
        | ok g2 =>
          cases h3 : checkedDiv 1 (ops.sqrt (1 / 4 + g2)) with
          | error f => simp only [validate, hst, h1, hg, h2, h3, if_false, if_true, Bool.true_eq_false, reduceCtorEq, Except.ok.injEq, Option.some.injEq] at h
          | ok tau =>
            by_cases ht : tau ≤ 1 ∨ tau ≥ 2
            · simp only [validate, hst, h1, hg, h2, h3, ht, if_false, if_true, Bool.true_eq_false, reduceCtorEq, Except.ok.injEq, Option.some.injEq] at h
            · by_cases hl : x.length < 2
              · simp only [validate, hst, h1, hg, h2, h3, ht, hl, if_false, if_true, Bool.true_eq_false, reduceCtorEq, Except.ok.injEq, Option.some.injEq] at h
              · simp only [validate, hst, h1, hg, h2, h3, ht, hl, if_false,
                  Bool.true_eq_false, Except.ok.injEq] at h
                rcases checkElements_diag ops x _ h with h4 | h4 | h4 <;> cases h4
  · exact validate_unsorted ops x gamma

theorem prepare_diag (ops : RealOps R) (x : List R) (xback : R) (d : Diag)
    (h : prepare ops x xback = .inl d) : d = .normLemmaFailed ∨ d = .orthLemmaFailed := by
  unfold prepare at h
  simp only at h
  split_ifs at h
  · left; cases h; rfl
  · right; cases h; rfl

/-- Every return of `pslq` after the Validator is one of the two Lemma 1 returns or a
return of the `while` loop. -/
theorem pslq_site_cases (ops : RealOps R) (fuel : Nat) (cin : List Char) (x : List R)
    (gamma : R) (o : Outcome R) (h : pslq ops fuel cin x gamma = some o) :
    (∃ f, validate ops x gamma = .error f ∧ o.site = .undefined f) ∨
    (∃ d, validate ops x gamma = .ok (some d) ∧ o.site = .diag d) ∨
    (validate ops x gamma = .ok none ∧
      (o.site = .undefined .backOfEmpty ∧ x.getLast? = none ∨
        o.site = .diag .normLemmaFailed ∨ o.site = .diag .orthLemmaFailed ∨
        o.site = .diag .pivotLast ∨ o.site = .diag .pivotNone ∨
        (∃ k, o.site = .found k) ∨ o.site = .ceiling)) := by
  unfold pslq at h
  split at h
  · rename_i f hv
    cases h; exact Or.inl ⟨f, hv, rfl⟩
  · rename_i d hv
    cases h; exact Or.inr (Or.inl ⟨d, hv, rfl⟩)
  · rename_i hv
    refine Or.inr (Or.inr ⟨hv, ?_⟩)
    split at h
    · rename_i hl
      cases h; exact Or.inl ⟨rfl, hl⟩
    · split at h
      · rename_i d hp
        cases h
        rcases prepare_diag ops x _ d hp with rfl | rfl
        · exact Or.inr (Or.inl rfl)
        · exact Or.inr (Or.inr (Or.inl rfl))
      · simp only [Option.map_eq_some'] at h
        obtain ⟨⟨site, st1⟩, hm, hr⟩ := h
        cases hr
        rcases mainLoop_site ops _ gamma fuel cin _ _ site st1 hm with h | h | ⟨k, h, -⟩ | h
        · exact Or.inr (Or.inr (Or.inr (Or.inl h)))
        · exact Or.inr (Or.inr (Or.inr (Or.inr (Or.inl h))))
        · exact Or.inr (Or.inr (Or.inr (Or.inr (Or.inr (Or.inl ⟨k, h⟩)))))
        · exact Or.inr (Or.inr (Or.inr (Or.inr (Or.inr (Or.inr h)))))

/-! ## Validator claims -/

/-- C6: an input with a descent `x[i] > x[i+1]` is rejected by the first statement of
`pslq`: for every numeric type, every `γ`, every fuel and console input, the Validator
reports the sortedness message and the call returns the empty vector with it, whatever
the later checks would say. -/
theorem pslq_rejects_descent (ops : RealOps R) (fuel : Nat) (cin : List Char)
    (x : List R) (gamma : R) (i : Nat) (hi : i + 1 < x.length)
    (h : x.getD (i + 1) 0 < x.getD i 0) :
    validate ops x gamma = .ok (some .unsorted) ∧
      pslq ops fuel cin x gamma = some ⟨[], .diag .unsorted⟩ := by
  have hs : isSorted x = false := (isSorted_eq_false_iff x).mpr ⟨i, hi, h⟩
  have hv := validate_unsorted ops x gamma hs
  exact ⟨hv, pslq_of_reject ops fuel cin x gamma _ hv⟩

/-- Witness of C6 at the instance of the specification, `x = [2, 1]`. -/
theorem pslq_rejects_descent_witness :
    (0 + 1 < ([2, 1] : List ℝ).length ∧ ([2, 1] : List ℝ).getD (0 + 1) 0 < [2, 1].getD 0 0) ∧
      pslq (RealOps.ofSqrt Real.sqrt (1 / 2 ^ 52)) 0 [] [2, 1] 5 =
        some ⟨[], .diag .unsorted⟩ :=
  ⟨⟨by simp, by norm_num⟩,
    (pslq_rejects_descent (RealOps.ofSqrt Real.sqrt (1 / 2 ^ 52)) 0 [] [2, 1] 5 0
      (by simp) (by norm_num)).2⟩

/-- C7: with a square root that is positive on positive arguments, (1) an input with
fewer than two elements, or an element `≤ 0`, or an element below `sqrt(epsilon)`, or
`γ ≤ 2/sqrt(3)` makes `pslq` return the empty vector through one of the seven
precondition messages; (2) the Validator never executes an undefined operation;
(3) when `γ ≤ 2/sqrt(3)` it returns before `1/(γ·γ)` is evaluated; (4) when every check
has passed, `x.back()` exists and `n ≥ 2`; (5) no call ends in an undefined operation. -/
theorem validation_total_and_rejecting (ops : RealOps R) (hs : SqrtPos ops) (x : List R)
    (gamma : R) :
    ((x.length < 2 ∨ (∃ t ∈ x, t ≤ 0) ∨ (∃ t ∈ x, t < ops.sqrt ops.epsilon) ∨
        gamma ≤ 2 / ops.sqrt 3) →
      ∃ d, d ∈ [Diag.unsorted, .gammaTooSmall, .tauOutOfRange, .tooFewValues,
          .zeroElement, .tinyElement, .negativeElement] ∧
        ∀ fuel cin, pslq ops fuel cin x gamma = some ⟨[], .diag d⟩) ∧
    (∃ r, validate ops x gamma = .ok r) ∧
    (gamma ≤ 2 / ops.sqrt 3 →
      validate ops x gamma = .ok (some .unsorted) ∨
        validate ops x gamma = .ok (some .gammaTooSmall)) ∧
    (validate ops x gamma = .ok none → 2 ≤ x.length ∧ ∃ xback, x.getLast? = some xback) ∧
    (∀ fuel cin o f, pslq ops fuel cin x gamma = some o → o.site ≠ .undefined f) := by
  have hback : validate ops x gamma = .ok none →
      2 ≤ x.length ∧ ∃ xback, x.getLast? = some xback := by
    intro hv
    have hl := ((validate_none_iff ops hs x gamma).mp hv).2.2.2.1
    refine ⟨hl, ?_⟩
    cases x with
    | nil => simp at hl
    | cons a rest => exact ⟨_, List.getLast?_eq_getLast _ (by simp)⟩
  refine ⟨?_, validate_ok ops hs x gamma, ?_, hback, ?_⟩
  · intro hviol
    obtain ⟨r, hr⟩ := validate_ok ops hs x gamma
    cases r with
    | none =>
      exfalso
      obtain ⟨-, hg, -, hl, he⟩ := (validate_none_iff ops hs x gamma).mp hr
      rcases hviol with h | ⟨t, ht, h⟩ | ⟨t, ht, h⟩ | h
      · omega
      · exact absurd (he t ht).1 (not_lt.mpr h)
      · exact absurd (he t ht).2 (not_le.mpr h)
      · exact absurd hg (not_lt.mpr h)
    | some d =>
      refine ⟨d, ?_, fun fuel cin => pslq_of_reject ops fuel cin x gamma d hr⟩
      cases hsrt : isSorted x with
      | false =>
        rw [validate_unsorted ops x gamma hsrt] at hr
        cases hr; simp
      | true =>
        rw [validate_sorted ops hs x gamma hsrt] at hr
        split_ifs at hr
        · cases hr; simp
        · cases hr; simp
        · cases hr; simp
        · rcases checkElements_diag ops x d (Except.ok.inj hr) with h | h | h <;>
            simp [h]
  · intro hg
    cases hsrt : isSorted x with
    | false => exact Or.inl (validate_unsorted ops x gamma hsrt)
    | true =>
      right
      rw [validate_sorted ops hs x gamma hsrt, if_pos hg]
  · intro fuel cin o f ho hsite
    obtain ⟨r, hr⟩ := validate_ok ops hs x gamma
    rcases pslq_site_cases ops fuel cin x gamma o ho with
      ⟨f1, hv, -⟩ | ⟨d, -, hd⟩ | ⟨hv, h⟩
    · rw [hr] at hv; cases hv
    · rw [hd] at hsite; cases hsite
    · rcases h with ⟨-, hl⟩ | h | h | h | h | ⟨k, h⟩ | h
      · obtain ⟨-, xb, hxb⟩ := hback hv
        rw [hl] at hxb; cases hxb
      all_goals (rw [h] at hsite; cases hsite)

/-- Witness of C7 on the real numbers at `x = [1]` (fewer than two values). -/
theorem validation_total_and_rejecting_witness :
    SqrtPos (RealOps.ofSqrt Real.sqrt (1 / 2 ^ 52)) ∧
      ∃ d, d ∈ [Diag.unsorted, .gammaTooSmall, .tauOutOfRange, .tooFewValues,
          .zeroElement, .tinyElement, .negativeElement] ∧
        ∀ fuel cin, pslq (RealOps.ofSqrt Real.sqrt (1 / 2 ^ 52)) fuel cin [1] 5 =
          some ⟨[], .diag d⟩ :=
  ⟨(sqrtExact_real _).pos,
    (validation_total_and_rejecting (RealOps.ofSqrt Real.sqrt (1 / 2 ^ 52))
      (sqrtExact_real _).pos [1] 5).1 (Or.inl (by simp))⟩

theorem pslq_unsorted_iff_isSorted (ops : RealOps R) (fuel : Nat) (cin : List Char)
    (x : List R) (gamma : R) :
    pslq ops fuel cin x gamma = some ⟨[], .diag .unsorted⟩ ↔ isSorted x = false := by
  constructor
  · intro h
    rcases pslq_site_cases ops fuel cin x gamma _ h with ⟨f, -, hf⟩ | ⟨d, hv, hd⟩ | ⟨-, hc⟩
    · cases hf
    · cases hd
      exact (validate_unsorted_iff ops x gamma).mp hv
    · rcases hc with ⟨hc, -⟩ | hc | hc | hc | hc | ⟨k, hc⟩ | hc <;> cases hc
  · intro h
    exact pslq_of_reject ops fuel cin x gamma _ (validate_unsorted ops x gamma h)

/-- C8 (counterexample): `x = [1, 1]` has two equal adjacent elements, yet on the real
numbers with the default `γ` it passes `std::is_sorted` and every other check of the
Validator, so the call goes on to the Decomposer. -/
theorem equal_neighbours_pass_validation :
    ([1, 1] : List ℝ).getD 0 0 = ([1, 1] : List ℝ).getD 1 0 ∧
      isSorted ([1, 1] : List ℝ) = true ∧
      validate (RealOps.ofSqrt Real.sqrt (1 / 2 ^ 52)) [1, 1]
        (defaultGamma (RealOps.ofSqrt Real.sqrt (1 / 2 ^ 52))) = .ok none := by
  refine ⟨rfl, by simp [isSorted], ?_⟩
  apply validate_default_two _ (sqrtExact_real _) 1 1 le_rfl one_pos
  show Real.sqrt (1 / 2 ^ 52) ≤ 1
  rw [Real.sqrt_le_iff]; norm_num

/-- C8 (amended): the sortedness test is that of `std::is_sorted`, which is not strict.
For every numeric type, input, `γ`, fuel and console input, `pslq` returns the empty
vector with the sortedness message exactly when some element is less than its
predecessor; equal neighbours do not trigger it. -/
theorem sortedness_rejection_iff_descent (ops : RealOps R) (fuel : Nat) (cin : List Char)
    (x : List R) (gamma : R) :
    pslq ops fuel cin x gamma = some ⟨[], .diag .unsorted⟩ ↔
      ∃ i, i + 1 < x.length ∧ x.getD (i + 1) 0 < x.getD i 0 := by
  rw [pslq_unsorted_iff_isSorted, isSorted_eq_false_iff]

theorem checkElements_append (ops : RealOps R) (pre : List R) (t : R) (post : List R)
    (hpre : ∀ u ∈ pre, 0 < u ∧ ops.sqrt ops.epsilon ≤ u) :
    checkElements ops (pre ++ t :: post) = checkElements ops (t :: post) := by
  induction pre with
  | nil => rfl
  | cons u rest ih =>
    have hu := hpre u (List.mem_cons_self _ _)
    rw [List.cons_append, checkElements, if_neg hu.1.ne', if_neg (not_lt.mpr hu.2),
      if_neg (not_lt.mpr hu.1.le)]
    exact ih (fun v hv => hpre v (List.mem_cons_of_mem _ hv))

theorem sqrt_three_le_two : Real.sqrt 3 ≤ 2 := by
  rw [Real.sqrt_le_iff]; norm_num

theorem one_le_gamma_bound : (1 : ℝ) ≤ 2 / Real.sqrt 3 := by
  rw [le_div_iff₀ (Real.sqrt_pos.mpr (by norm_num))]
  linarith [sqrt_three_le_two]

/-- C9 (counterexample): on the real numbers, `x = []` with `γ = 1` and `x = [0, 1]` with
`γ = 1` are both reported with the `γ` message, not with the message for too few values
or for a zero element. -/
theorem gamma_reported_before_size_and_elements :
    pslq (RealOps.ofSqrt Real.sqrt (1 / 2 ^ 52)) 0 [] [] 1 =
        some ⟨[], .diag .gammaTooSmall⟩ ∧
      pslq (RealOps.ofSqrt Real.sqrt (1 / 2 ^ 52)) 0 [] [0, 1] 1 =
        some ⟨[], .diag .gammaTooSmall⟩ ∧
      Site.diag Diag.gammaTooSmall ≠ .diag .tooFewValues ∧
      Site.diag Diag.gammaTooSmall ≠ .diag .zeroElement := by
  have hs : SqrtPos (RealOps.ofSqrt Real.sqrt (1 / 2 ^ 52)) := (sqrtExact_real _).pos
  have hg : (1 : ℝ) ≤ 2 / (RealOps.ofSqrt Real.sqrt (1 / 2 ^ 52)).sqrt 3 :=
    one_le_gamma_bound
  refine ⟨?_, ?_, by decide, by decide⟩
  · apply pslq_of_reject
    rw [validate_sorted _ hs _ _ (by simp [isSorted]), if_pos hg]
  · apply pslq_of_reject
    rw [validate_sorted _ hs _ _ (by simp [isSorted]), if_pos hg]

/-- C9 (amended): the message is that of the first failing check in the order of the
source: sortedness, then `γ > 2/sqrt(3)`, then `τ ∈ (1, 2)`, then `n ≥ 2`, then the
elements in index order, each tested for zero, then for being below `sqrt(epsilon)`,
then for being negative. -/
theorem diagnostic_follows_source_order (ops : RealOps R) (hs : SqrtPos ops) (x : List R)
    (gamma : R) (fuel : Nat) (cin : List Char) :
    (isSorted x = false → pslq ops fuel cin x gamma = some ⟨[], .diag .unsorted⟩) ∧
    (isSorted x = true → gamma ≤ 2 / ops.sqrt 3 →
      pslq ops fuel cin x gamma = some ⟨[], .diag .gammaTooSmall⟩) ∧
    (isSorted x = true → 2 / ops.sqrt 3 < gamma →
      (tauOf ops gamma ≤ 1 ∨ 2 ≤ tauOf ops gamma) →
      pslq ops fuel cin x gamma = some ⟨[], .diag .tauOutOfRange⟩) ∧
    (isSorted x = true → 2 / ops.sqrt 3 < gamma →
      (1 < tauOf ops gamma ∧ tauOf ops gamma < 2) → x.length < 2 →
      pslq ops fuel cin x gamma = some ⟨[], .diag .tooFewValues⟩) ∧
    (isSorted x = true → 2 / ops.sqrt 3 < gamma →
      (1 < tauOf ops gamma ∧ tauOf ops gamma < 2) → 2 ≤ x.length →
      ∀ pre t post, x = pre ++ t :: post →
        (∀ u ∈ pre, 0 < u ∧ ops.sqrt ops.epsilon ≤ u) →
        (t = 0 → pslq ops fuel cin x gamma = some ⟨[], .diag .zeroElement⟩) ∧
        (t ≠ 0 → t < ops.sqrt ops.epsilon →
          pslq ops fuel cin x gamma = some ⟨[], .diag .tinyElement⟩) ∧
        (t ≠ 0 → ¬ t < ops.sqrt ops.epsilon → t < 0 →
          pslq ops fuel cin x gamma = some ⟨[], .diag .negativeElement⟩)) := by
  refine ⟨?_, ?_, ?_, ?_, ?_⟩
  · intro h
    exact pslq_of_reject ops fuel cin x gamma _ (validate_unsorted ops x gamma h)
  · intro h hg
    apply pslq_of_reject
    rw [validate_sorted ops hs x gamma h, if_pos hg]
  · intro h hg ht
    apply pslq_of_reject
    rw [validate_sorted ops hs x gamma h, if_neg (not_le.mpr hg), if_pos ht]
  · intro h hg ht hl
    apply pslq_of_reject
    have ht2 : ¬ (tauOf ops gamma ≤ 1 ∨ tauOf ops gamma ≥ 2) := by
      rintro (h1 | h1)
      · exact absurd ht.1 (not_lt.mpr h1)
      · exact absurd ht.2 (not_lt.mpr h1)
    rw [validate_sorted ops hs x gamma h, if_neg (not_le.mpr hg), if_neg ht2, if_pos hl]
  · intro h hg ht hl pre t post hx hpre
    have ht2 : ¬ (tauOf ops gamma ≤ 1 ∨ tauOf ops gamma ≥ 2) := by
      rintro (h1 | h1)
      · exact absurd ht.1 (not_lt.mpr h1)
      · exact absurd ht.2 (not_lt.mpr h1)
    have hv : validate ops x gamma = .ok (checkElements ops (t :: post)) := by
      rw [validate_sorted ops hs x gamma h, if_neg (not_le.mpr hg), if_neg ht2,
        if_neg (not_lt.mpr hl), hx, checkElements_append ops pre t post hpre]
    refine ⟨?_, ?_, ?_⟩
    · intro h0
      apply pslq_of_reject
      rw [hv, checkElements, if_pos h0]
    · intro h0 h1
      apply pslq_of_reject
      rw [hv, checkElements, if_neg h0, if_pos h1]
    · intro h0 h1 h2
      apply pslq_of_reject
      rw [hv, checkElements, if_neg h0, if_neg h1, if_pos h2]

/-- Witness of C9 (amended) on the real numbers at `x = [0, 1]`, `γ = 1`: the input is
sorted and `γ ≤ 2/√3`, so the `γ` message is reported. -/
theorem diagnostic_follows_source_order_witness :
    SqrtPos (RealOps.ofSqrt Real.sqrt (1 / 2 ^ 52)) ∧
      isSorted ([0, 1] : List ℝ) = true ∧ (1 : ℝ) ≤ 2 / Real.sqrt 3 ∧
      pslq (RealOps.ofSqrt Real.sqrt (1 / 2 ^ 52)) 3 [] [0, 1] 1 =
        some ⟨[], .diag .gammaTooSmall⟩ :=
  ⟨(sqrtExact_real _).pos, by simp [isSorted], one_le_gamma_bound,
    (diagnostic_follows_source_order (RealOps.ofSqrt Real.sqrt (1 / 2 ^ 52))
      (sqrtExact_real _).pos [0, 1] 1 3 []).2.1 (by simp [isSorted]) one_le_gamma_bound⟩

/-- The two-argument function at `γ = 2/sqrt(3) + 0.01`: with an exact square root this `γ`
is above `2/sqrt(3)`, its `τ` lies in `(1, 2)`, and no call returns through the `γ` or the
`τ` message. -/
theorem default_gamma_passes_checks (ops : RealOps R) (hs : SqrtExact ops) (x : List R)
    (fuel : Nat) (cin : List Char) :
    pslqDefault ops fuel cin x = pslq ops fuel cin x (2 / ops.sqrt 3 + 1 / 100) ∧
    2 / ops.sqrt 3 < 2 / ops.sqrt 3 + 1 / 100 ∧
    (1 < tauOf ops (2 / ops.sqrt 3 + 1 / 100) ∧ tauOf ops (2 / ops.sqrt 3 + 1 / 100) < 2) ∧
    ∀ o, pslqDefault ops fuel cin x = some o →
      o.site ≠ .diag .gammaTooSmall ∧ o.site ≠ .diag .tauOutOfRange := by
  have hg : 2 / ops.sqrt 3 < 2 / ops.sqrt 3 + 1 / 100 := defaultGamma_gt ops
  have ht := tau_bounds hs hg
  refine ⟨rfl, hg, ht, ?_⟩
  intro o ho
  have ht2 : ¬ (tauOf ops (2 / ops.sqrt 3 + 1 / 100) ≤ 1 ∨
      tauOf ops (2 / ops.sqrt 3 + 1 / 100) ≥ 2) := by
    rintro (h1 | h1)
    · exact absurd ht.1 (not_lt.mpr h1)
    · exact absurd ht.2 (not_lt.mpr h1)
  rcases pslq_site_cases ops fuel cin x _ o ho with ⟨f, -, hf⟩ | ⟨d, hv, hd⟩ | ⟨-, hc⟩
  · rw [hf]; exact ⟨by simp, by simp⟩
  · rw [hd]
    cases hsrt : isSorted x with
    | false =>
      rw [show defaultGamma ops = 2 / ops.sqrt 3 + 1 / 100 from rfl,
        validate_unsorted ops x _ hsrt] at hv
      cases hv; exact ⟨by simp, by simp⟩
    | true =>
      rw [show defaultGamma ops = 2 / ops.sqrt 3 + 1 / 100 from rfl,
        validate_sorted ops hs.pos x _ hsrt, if_neg (not_le.mpr hg), if_neg ht2] at hv
      split_ifs at hv
      · cases hv; exact ⟨by simp, by simp⟩
      · rcases checkElements_diag ops x d (Except.ok.inj hv) with h | h | h <;>
          rw [h] <;> exact ⟨by simp, by simp⟩
  · rcases hc with ⟨hc, -⟩ | hc | hc | hc | hc | ⟨k, hc⟩ | hc <;> rw [hc] <;>
      exact ⟨by simp, by simp⟩

/-- The default `γ` on the real numbers at `x = [1, 2]`. -/
theorem default_gamma_passes_checks_witness :
    SqrtExact (RealOps.ofSqrt Real.sqrt (1 / 2 ^ 52)) ∧
      (2 / Real.sqrt 3 < 2 / Real.sqrt 3 + 1 / 100 ∧
        1 < tauOf (RealOps.ofSqrt Real.sqrt (1 / 2 ^ 52)) (2 / Real.sqrt 3 + 1 / 100) ∧
        tauOf (RealOps.ofSqrt Real.sqrt (1 / 2 ^ 52)) (2 / Real.sqrt 3 + 1 / 100) < 2) :=
  ⟨sqrtExact_real _,
    (default_gamma_passes_checks (RealOps.ofSqrt Real.sqrt (1 / 2 ^ 52))
      (sqrtExact_real _) [1, 2] 0 []).2.1,
    (default_gamma_passes_checks (RealOps.ofSqrt Real.sqrt (1 / 2 ^ 52))
      (sqrtExact_real _) [1, 2] 0 []).2.2.1⟩

/-! ## The `while` loop and the returned vector -/

theorem mainLoop_exits (ops : RealOps R) (n : Nat) (gamma : R) (fuel : Nat) :
    ∀ (cin : List Char) (st : State R) (nb : R) (site : Site) (st1 : State R),
      mainLoop ops n gamma fuel cin st nb = some (site, st1) →
        (∃ k, site = .found k ∧ k < n ∧ |st1.y k| < ops.sqrt ops.epsilon) ∨
          site = .diag .pivotLast ∨ site = .diag .pivotNone ∨
          (site = .ceiling ∧
            ((¬ nb < maxAcceptableNormBound ∧ st1 = st) ∨
              ¬ normBound st1.H n < maxAcceptableNormBound)) := by
  induction fuel with
  | zero =>
    intro cin st nb site st1 h
    by_cases hnb : nb < maxAcceptableNormBound
    · rw [mainLoop, if_pos hnb] at h
      cases h
    · rw [mainLoop_exit ops n gamma 0 cin st nb hnb] at h
      cases h
      exact Or.inr (Or.inr (Or.inr ⟨rfl, Or.inl ⟨hnb, rfl⟩⟩))
  | succ fuel ih =>
    intro cin st nb site st1 h
    by_cases hnb : nb < maxAcceptableNormBound
    · rw [mainLoop_succ ops n gamma fuel cin st nb hnb] at h
      cases hit : iteration ops n gamma st with
      | done s2 st2 =>
        rw [hit] at h
        cases h
        rcases iteration_done_site ops n gamma st st1 site hit with h | h | h
        · exact Or.inr (Or.inl h)
        · exact Or.inr (Or.inr (Or.inl h))
        · exact Or.inl h
      | next st2 nb2 =>
        rw [hit] at h
        have hnb2 := (iteration_next_bound ops n gamma st st2 nb2 hit).1
        rcases ih _ _ _ _ _ h with h1 | h1 | h1 | ⟨h1, h2⟩
        · exact Or.inl h1
        · exact Or.inr (Or.inl h1)
        · exact Or.inr (Or.inr (Or.inl h1))
        · refine Or.inr (Or.inr (Or.inr ⟨h1, Or.inr ?_⟩))
          rcases h2 with ⟨h3, h4⟩ | h3
          · rw [h4, ← hnb2]; exact h3
          · exact h3
    · rw [mainLoop_exit ops n gamma _ cin st nb hnb] at h
      cases h
      exact Or.inr (Or.inr (Or.inr ⟨rfl, Or.inl ⟨hnb, rfl⟩⟩))

theorem mainLoop_more_fuel (ops : RealOps R) (n : Nat) (gamma : R) (fuel : Nat) :
    ∀ (cin cin2 : List Char) (st : State R) (nb : R) (r : Site × State R) (extra : Nat),
      mainLoop ops n gamma fuel cin st nb = some r →
        mainLoop ops n gamma (fuel + extra) cin2 st nb = some r := by
  induction fuel with
  | zero =>
    intro cin cin2 st nb r extra h
    by_cases hnb : nb < maxAcceptableNormBound
    · rw [mainLoop, if_pos hnb] at h
      cases h
    · rw [mainLoop_exit ops n gamma 0 cin st nb hnb] at h
      rw [mainLoop_exit ops n gamma _ cin2 st nb hnb]
      exact h
  | succ fuel ih =>
    intro cin cin2 st nb r extra h
    by_cases hnb : nb < maxAcceptableNormBound
    · rw [mainLoop_succ ops n gamma fuel cin st nb hnb] at h
      rw [show fuel + 1 + extra = (fuel + extra) + 1 by omega,
        mainLoop_succ ops n gamma (fuel + extra) cin2 st nb hnb]
      cases hit : iteration ops n gamma st with
      | done s2 st2 =>
        rw [hit] at h
        exact h
      | next st2 nb2 =>
        rw [hit] at h
        exact ih _ _ _ _ _ _ h
    · rw [mainLoop_exit ops n gamma _ cin st nb hnb] at h
      rw [mainLoop_exit ops n gamma _ cin2 st nb hnb]
      exact h

theorem pslq_relation_cases (ops : RealOps R) (fuel : Nat) (cin : List Char) (x : List R)
    (gamma : R) (o : Outcome R) (h : pslq ops fuel cin x gamma = some o) :
    o.relation = [] ∨ (o.site = .ceiling ∧ o.relation = stubRelation x) := by
  rw [pslq_relation ops fuel cin x gamma o h]
  generalize o.site = s
  cases s <;> simp [relationAt]

theorem pslq_never_two_minus_one (ops : RealOps R) (fuel : Nat) (cin : List Char)
    (c gamma : R) (k : Int) (site : Site) :
    pslq ops fuel cin [c, 2 * c] gamma ≠ some ⟨[(2 * k, c), (-k, 2 * c)], site⟩ := by
  intro h
  rcases pslq_relation_cases ops fuel cin _ gamma _ h with h1 | ⟨-, h1⟩
  · simp at h1
  · simp only [stubRelation, List.map_cons, List.map_nil, List.cons.injEq,
      Prod.mk.injEq, and_true, true_and] at h1
    omega

theorem sqrt_small_eps : Real.sqrt (1 / 10 ^ 100) ≤ 1 / 10 ^ 50 := by
  rw [Real.sqrt_le_iff]; norm_num

/-- The run on `x = [2·10¹², 10²⁴ - 1]` with `epsilon = 10⁻¹⁰⁰`: `r = 10²⁴ + 1`, `q = 0`;
after the first pass `norm_bound = (10²⁴ + 1)/(2·10¹²)`, not below the ceiling. -/
theorem run_ceiling_example (fuel : Nat) (cin : List Char) :
    ∃ st nb st1,
      prepare (RealOps.ofSqrt Real.sqrt (1 / 10 ^ 100)) [2 * 10 ^ 12, 10 ^ 24 - 1]
        (10 ^ 24 - 1) = .inr (st, nb) ∧
      mainLoop (RealOps.ofSqrt Real.sqrt (1 / 10 ^ 100)) 2
        (defaultGamma (RealOps.ofSqrt Real.sqrt (1 / 10 ^ 100))) (fuel + 1) cin st nb =
          some (.ceiling, st1) ∧
      (∀ i, i < 2 → Real.sqrt (1 / 10 ^ 100) ≤ |st1.y i|) ∧
      pslqDefault (RealOps.ofSqrt Real.sqrt (1 / 10 ^ 100)) (fuel + 1) cin
        [2 * 10 ^ 12, 10 ^ 24 - 1] =
          some ⟨[(-8, 2 * 10 ^ 12), (-8, 10 ^ 24 - 1)], .ceiling⟩ := by
  have hs := sqrtExact_real (1 / 10 ^ 100)
  have hr : (10 ^ 24 + 1 : ℝ) =
      Real.sqrt ((10 ^ 24 - 1) * (10 ^ 24 - 1) + 2 * 10 ^ 12 * (2 * 10 ^ 12)) :=
    (hs.eq_of_sq (by norm_num) (by norm_num)).symm
  have hq : ((0 : Int) : ℝ) = cRound (-(2 * 10 ^ 12) / (10 ^ 24 - 1) : ℝ) :=
    (cRound_of_neg (by norm_num) (by norm_num) (by norm_num)).symm
  have he := sqrt_small_eps
  exact run_two_ceiling _ hs (Real.sqrt_nonneg _) (2 * 10 ^ 12) (10 ^ 24 - 1) (10 ^ 24 + 1)
    ((0 : Int) : ℝ) (by norm_num) (by norm_num) (le_trans he (by norm_num)) hr hq
    (by rw [ceiling_value]; norm_num [abs_of_pos])
    (by rw [ceiling_value]; norm_num [abs_of_pos])
    (le_trans he (by norm_num [abs_of_pos]))
    (le_trans he (by norm_num [abs_of_pos])) fuel cin

/-! ## Claims about the returned relation and the `while` loop -/

/-- C1 (the code at the failing input): on the real numbers with `epsilon = 10⁻¹⁰⁰` and
the default `γ`, the input `x = [2·10¹², 10²⁴ - 1]` passes the Validator, the call returns
the nonempty vector `[(-8, x₀), (-8, x₁)]` pushed after the loop, and for this vector
`|Σ cᵢ·xᵢ| < sqrt(epsilon)·max|cᵢ|` is false. -/
theorem stub_relation_violates_tolerance (fuel : Nat) (cin : List Char) :
    validate (RealOps.ofSqrt Real.sqrt (1 / 10 ^ 100)) [2 * 10 ^ 12, 10 ^ 24 - 1]
        (defaultGamma (RealOps.ofSqrt Real.sqrt (1 / 10 ^ 100))) = .ok none ∧
      pslqDefault (RealOps.ofSqrt Real.sqrt (1 / 10 ^ 100)) (fuel + 1) cin
        [2 * 10 ^ 12, 10 ^ 24 - 1] =
          some ⟨[(-8, 2 * 10 ^ 12), (-8, 10 ^ 24 - 1)], .ceiling⟩ ∧
      ¬ (|((-8 : Int) : ℝ) * (2 * 10 ^ 12) + ((-8 : Int) : ℝ) * (10 ^ 24 - 1)| <
          Real.sqrt (1 / 10 ^ 100) * (max |(-8 : Int)| |(-8 : Int)| : Int)) := by
  obtain ⟨st, nb, st1, -, -, -, hrun⟩ := run_ceiling_example fuel cin
  refine ⟨?_, hrun, ?_⟩
  · exact validate_default_two _ (sqrtExact_real _) _ _ (by norm_num) (by norm_num)
      (le_trans sqrt_small_eps (by norm_num))
  · have he := sqrt_small_eps
    have h8 : ((max |(-8 : Int)| |(-8 : Int)| : Int) : ℝ) = 8 := by norm_num
    rw [h8, not_lt]
    have habs : |((-8 : Int) : ℝ) * (2 * 10 ^ 12) + ((-8 : Int) : ℝ) * (10 ^ 24 - 1)| =
        8 * (2 * 10 ^ 12) + 8 * (10 ^ 24 - 1) := by
      rw [abs_of_neg (by norm_num)]; push_cast; ring
    rw [habs]
    have : Real.sqrt (1 / 10 ^ 100) * 8 ≤ 1 / 10 ^ 50 * 8 :=
      mul_le_mul_of_nonneg_right he (by norm_num)
    refine le_trans this ?_
    norm_num

/-- C2 (the code at the failing input): on the real numbers with `epsilon = 2⁻⁵²` and the
default `γ`, the run on `x = [1, 1]` reaches the termination check of its first pass with
`|y₁| < sqrt(epsilon)`; column 1 of `B` then holds the relation `(1, -1)`, so the
specified result is `[(1, x₀), (-1, x₁)]`, but the call returns the empty vector. -/
theorem found_relation_not_returned (fuel : Nat) (cin : List Char) :
    ∃ st nb st1,
      prepare (RealOps.ofSqrt Real.sqrt (1 / 2 ^ 52)) [1, 1] 1 = .inr (st, nb) ∧
      mainLoop (RealOps.ofSqrt Real.sqrt (1 / 2 ^ 52)) 2
        (defaultGamma (RealOps.ofSqrt Real.sqrt (1 / 2 ^ 52))) (fuel + 1) cin st nb =
          some (.found 1, st1) ∧
      |st1.y 1| < Real.sqrt (1 / 2 ^ 52) ∧
      specColumnRelation st1.B 1 ([1, 1] : List ℝ) = [(1, 1), (-1, 1)] ∧
      pslqDefault (RealOps.ofSqrt Real.sqrt (1 / 2 ^ 52)) (fuel + 1) cin [1, 1] =
        some ⟨[], .found 1⟩ := by
  have hs := sqrtExact_real (1 / 2 ^ 52)
  obtain ⟨r, hr⟩ : ∃ r : ℝ, r = Real.sqrt (1 * 1 + 1 * 1) := ⟨_, rfl⟩
  have hr2 : r * r = 2 := by
    rw [hr, Real.mul_self_sqrt (by norm_num)]; norm_num
  have hr0 : 0 ≤ r := hr ▸ Real.sqrt_nonneg _
  have hrhi : r < 2 := by nlinarith
  have hrp : 0 < r := by nlinarith
  have hq : ((-1 : Int) : ℝ) = cRound (-1 / 1 : ℝ) :=
    (cRound_of_neg (by norm_num) (by norm_num) (by norm_num)).symm
  have he : Real.sqrt (1 / 2 ^ 52) ≤ 1 / 2 := by
    rw [Real.sqrt_le_iff]; norm_num
  have hinv : 1 / 2 ≤ 1 / r := one_div_le_one_div_of_le hrp hrhi.le
  obtain ⟨st, nb, st1, hp, hml, hy, hb0, hb1, hrun⟩ :=
    run_two_found _ hs (Real.sqrt_pos.mpr (show (0 : ℝ) < 1 / 2 ^ 52 by norm_num)) 1 1 r ((-1 : Int) : ℝ)
      one_pos le_rfl (le_trans he (by norm_num)) hr hq (by push_cast; ring)
      (by rw [abs_of_pos (by positivity), ceiling_value, one_div_one_div]; linarith)
      (by
        show Real.sqrt (1 / 2 ^ 52) ≤ _
        rw [abs_of_pos (by positivity)]; exact le_trans he hinv)
      fuel cin
  refine ⟨st, nb, st1, hp, hml, hy, ?_, hrun⟩
  simp [specColumnRelation, List.range_succ, hb0, hb1]

/-- C3 (the code at the failing input): on the real numbers with `epsilon = 10⁻¹⁰⁰` and
the default `γ`, the run on `x = [2·10¹², 10²⁴ - 1]` leaves the `while` loop because
`norm_bound` is not below the ceiling, every `|yᵢ|` being at least `sqrt(epsilon)`, and
the call returns a vector that is not empty. -/
theorem ceiling_exit_returns_nonempty (fuel : Nat) (cin : List Char) :
    ∃ st nb st1 o,
      prepare (RealOps.ofSqrt Real.sqrt (1 / 10 ^ 100)) [2 * 10 ^ 12, 10 ^ 24 - 1]
        (10 ^ 24 - 1) = .inr (st, nb) ∧
      mainLoop (RealOps.ofSqrt Real.sqrt (1 / 10 ^ 100)) 2
        (defaultGamma (RealOps.ofSqrt Real.sqrt (1 / 10 ^ 100))) (fuel + 1) cin st nb =
          some (.ceiling, st1) ∧
      (∀ i, i < 2 → Real.sqrt (1 / 10 ^ 100) ≤ |st1.y i|) ∧
      pslqDefault (RealOps.ofSqrt Real.sqrt (1 / 10 ^ 100)) (fuel + 1) cin
        [2 * 10 ^ 12, 10 ^ 24 - 1] = some o ∧
      o.site = .ceiling ∧ o.relation ≠ [] ∧ o.relation.length = 2 := by
  obtain ⟨st, nb, st1, hp, hml, hy, hrun⟩ := run_ceiling_example fuel cin
  exact ⟨st, nb, st1, _, hp, hml, hy, hrun, rfl, by simp, rfl⟩

/-- C4 (the code at `c = 1` and in general): on the real numbers with `epsilon = 2⁻⁵²`
the call `pslq([1, 2])` with the default `γ` returns for no amount of fuel; and for every
numeric type, every `c`, `γ`, fuel and console input, no call `pslq([c, 2c], γ)` returns
a vector of the form `[(2k, c), (-k, 2c)]`. -/
theorem no_relation_for_c_two_c :
    (∀ fuel cin, pslqDefault (RealOps.ofSqrt Real.sqrt (1 / 2 ^ 52)) fuel cin [1, 2] = none) ∧
      ∀ (ops : RealOps ℝ) (fuel : Nat) (cin : List Char) (c gamma : ℝ) (k : Int)
        (site : Site),
        pslq ops fuel cin [c, 2 * c] gamma ≠ some ⟨[(2 * k, c), (-k, 2 * c)], site⟩ :=
  ⟨run_one_two, pslq_never_two_minus_one⟩

/-- C5 (counterexample): on the real numbers with `epsilon = 2⁻⁵²` and the default `γ`,
the input `x = [3, 4]` passes the Validator and the `while` loop never ends: the call
returns for no amount of fuel. -/
theorem main_loop_runs_forever_on_three_four :
    validate (RealOps.ofSqrt Real.sqrt (1 / 2 ^ 52)) [3, 4]
        (defaultGamma (RealOps.ofSqrt Real.sqrt (1 / 2 ^ 52))) = .ok none ∧
      ¬ ∃ fuel cin o,
        pslqDefault (RealOps.ofSqrt Real.sqrt (1 / 2 ^ 52)) fuel cin [3, 4] = some o := by
  constructor
  · apply validate_default_two _ (sqrtExact_real _) 3 4 (by norm_num) (by norm_num)
    show Real.sqrt (1 / 2 ^ 52) ≤ 3
    rw [Real.sqrt_le_iff]; norm_num
  · rintro ⟨fuel, cin, o, h⟩
    rw [run_three_four fuel cin] at h
    cases h

/-- C5 (amended): the `while` loop has no iteration cap.  When it ends, it ends through
the termination check (some `|y_k| < sqrt(epsilon)`), through one of the two pivot
guards, or because `norm_bound` is not below the ceiling, and giving it more fuel or
another console input does not change where and in which state it ends. -/
theorem main_loop_ends_only_at_exits (ops : RealOps R) (n : Nat) (gamma : R) (fuel : Nat)
    (cin : List Char) (st : State R) (nb : R) (site : Site) (st1 : State R)
    (h : mainLoop ops n gamma fuel cin st nb = some (site, st1)) :
    ((∃ k, site = .found k ∧ k < n ∧ |st1.y k| < ops.sqrt ops.epsilon) ∨
        site = .diag .pivotLast ∨ site = .diag .pivotNone ∨
        (site = .ceiling ∧
          ((¬ nb < maxAcceptableNormBound ∧ st1 = st) ∨
            ¬ normBound st1.H n < maxAcceptableNormBound))) ∧
      ∀ extra cin2, mainLoop ops n gamma (fuel + extra) cin2 st nb = some (site, st1) :=
  ⟨mainLoop_exits ops n gamma fuel cin st nb site st1 h,
    fun extra cin2 => mainLoop_more_fuel ops n gamma fuel cin cin2 st nb _ extra h⟩

/-- Witness of C5 (amended): a loop entered with `norm_bound = 10¹¹` ends at once at the
ceiling, with any amount of fuel. -/
theorem main_loop_ends_only_at_exits_witness :
    mainLoop (RealOps.ofSqrt Real.sqrt (1 / 2 ^ 52)) 2 5 0 []
        (initState identity (fun _ => 1)) 100000000000 =
          some (.ceiling, initState identity (fun _ => 1)) ∧
      ∀ extra cin2, mainLoop (RealOps.ofSqrt Real.sqrt (1 / 2 ^ 52)) 2 5 (0 + extra) cin2
        (initState identity (fun _ => 1)) 100000000000 =
          some (.ceiling, initState identity (fun _ => 1)) :=
  ⟨mainLoop_exit _ 2 5 0 [] _ _ (by rw [ceiling_value]; norm_num),
    (main_loop_ends_only_at_exits (RealOps.ofSqrt Real.sqrt (1 / 2 ^ 52)) 2 5 0 []
      (initState identity (fun _ => 1)) 100000000000 .ceiling
      (initState identity (fun _ => 1))
      (mainLoop_exit _ 2 5 0 [] _ _ (by rw [ceiling_value]; norm_num))).2⟩

/-! ## Loop rules -/

theorem forUp_induction {σ : Type} (P : σ → Prop) (lo c : Nat) (body : Nat → σ → σ) (s : σ)
    (h0 : P s) (hstep : ∀ i t, lo ≤ i → i < lo + c → P t → P (body i t)) :
    P (forUp lo c body s) := by
  induction c with
  | zero => exact h0
  | succ c ih =>
    rw [forUp]
    apply hstep (lo + c) _ (by omega) (by omega)
    exact ih (fun i t h1 h2 => hstep i t h1 (by omega))

theorem forDown_induction {σ : Type} (P : σ → Prop) (c : Nat) (body : Nat → σ → σ) :
    ∀ s : σ, P s → (∀ i t, i < c → P t → P (body i t)) → P (forDown c body s) := by
  induction c with
  | zero => intro s h0 _; exact h0
  | succ c ih =>
    intro s h0 hstep
    rw [forDown]
    apply ih
    · exact hstep c s (by omega) h0
    · exact fun i t h1 h2 => hstep i t (by omega) h2

/-- A loop that assigns `M(i, k) = f k` for `k = 0 .. c-1`. -/
theorem forUp_setRow {T : Type} (M : Nat → Nat → T) (i c : Nat) (f : Nat → T) (r k : Nat) :
    forUp 0 c (fun j H => setM H i j (f j)) M r k =
      if r = i ∧ k < c then f k else M r k := by
  induction c with
  | zero => simp [forUp]
  | succ c ih =>
    rw [forUp]
    simp only [setM, ih, Nat.zero_add]
    by_cases h1 : r = i
    · by_cases h2 : k = c
      · simp [h1, h2]
      · by_cases h3 : k < c
        · simp [h1, h2, h3, Nat.lt_succ_of_lt h3]
        · have : ¬ k < c + 1 := by omega
          simp [h1, h2, h3, this]
    · simp [h1]

/-- A loop that assigns `v[i] = f i` for `i = 0 .. c-1`. -/
theorem forUp_setV {T : Type} (v : Nat → T) (c : Nat) (f : Nat → T) (k : Nat) :
    forUp 0 c (fun i y => setV y i (f i)) v k = if k < c then f k else v k := by
  induction c with
  | zero => simp [forUp]
  | succ c ih =>
    rw [forUp]
    simp only [setV, ih, Nat.zero_add]
    by_cases h2 : k = c
    · simp [h2]
    · by_cases h3 : k < c
      · simp [h2, h3, Nat.lt_succ_of_lt h3]
      · have : ¬ k < c + 1 := by omega
        simp [h2, h3, this]

/-! ## Decomposer, general `n` -/

theorem specS_succ (xv : Nat → R) (n i : Nat) (h : i < n) :
    specS xv n i = specS xv n (i + 1) + xv i * xv i := by
  unfold specS
  rw [Finset.sum_eq_sum_Ico_succ_bot h, add_comm]

theorem specS_of_le (xv : Nat → R) (n i : Nat) (h : n ≤ i) : specS xv n i = 0 := by
  unfold specS
  rw [Finset.Ico_eq_empty (by omega), Finset.sum_empty]

/-- Lines 145-150 compute the partial sums of squares. -/
theorem sSq_eq_specS (xv : Nat → R) (n : Nat) (hn : 1 ≤ n) (i : Nat) :
    sSq xv n (xv (n - 1)) i = specS xv n i := by
  unfold sSq
  have key : ∀ (c : Nat) (s : Nat → R), c ≤ n - 1 →
      (∀ k, c ≤ k → s k = specS xv n k) →
      ∀ k, forDown c (fun i s => setV s i (s (i + 1) + xv i * xv i)) s k = specS xv n k := by
    intro c
    induction c with
    | zero => intro s _ hs k; exact hs k (Nat.zero_le k)
    | succ c ih =>
      intro s hc hs k
      rw [forDown]
      apply ih _ (by omega)
      intro k hk
      by_cases hkc : k = c
      · subst hkc
        simp only [setV, if_true]
        rw [hs (k + 1) (by omega), specS_succ xv n k (by omega)]
      · simp only [setV, hkc, if_false]
        exact hs k (by omega)
  apply key (n - 1) _ le_rfl
  intro k hk
  by_cases hkn : k = n - 1
  · subst hkn
    simp only [setV, if_true]
    rw [specS_succ xv n (n - 1) (by omega), specS_of_le xv n _ (by omega), zero_add]
  · simp only [setV, hkn, if_false]
    exact (specS_of_le xv n k (by omega)).symm

theorem specS_pos (xv : Nat → R) (n i : Nat) (h : i < n) (hx : ∀ k, k < n → 0 < xv k) :
    0 < specS xv n i := by
  unfold specS
  apply Finset.sum_pos
  · intro k hk
    have := hx k (Finset.mem_Ico.mp hk).2
    positivity
  · exact ⟨i, Finset.mem_Ico.mpr ⟨le_rfl, h⟩⟩

/-- Lines 152-169 fill `Hx` with the specified entries; outside the `n × (n-1)` block the
model reads zero. -/
theorem buildH_entry (ops : RealOps R) (xv s : Nat → R) (n i j : Nat) :
    buildH ops xv s n i j = if i < n ∧ j < n - 1 then specH ops xv s i j else 0 := by
  unfold buildH
  have hbody : (fun (i : Nat) (H : Nat → Nat → R) =>
      forUp 0 (n - 1)
        (fun j H =>
          if i < j then setM H i j 0
          else if i = j then setM H i i (ops.sqrt (s (i + 1) / s i))
          else setM H i j (-xv i * xv j / ops.sqrt (s j * s (j + 1)))) H) =
      fun i H => forUp 0 (n - 1) (fun j H => setM H i j (specH ops xv s i j)) H := by
    funext i H
    congr 1
    funext j H
    unfold specH
    split_ifs with h1 h2
    · rfl
    · subst h2; rfl
    · rfl
  rw [hbody]
  have hrows : ∀ (c : Nat) (r k : Nat),
      forUp 0 c (fun i H => forUp 0 (n - 1) (fun j H => setM H i j (specH ops xv s i j)) H)
        (fun _ _ => (0 : R)) r k = if r < c ∧ k < n - 1 then specH ops xv s r k else 0 := by
    intro c
    induction c with
    | zero => intro r k; simp [forUp]
    | succ c ih =>
      intro r k
      rw [forUp, forUp_setRow, ih, Nat.zero_add]
      by_cases h1 : r = c
      · by_cases h2 : k < n - 1
        · simp [h1, h2]
        · simp [h1, h2]
      · by_cases h3 : r < c
        · have : r < c + 1 := by omega
          simp [h1, h3, this]
        · have : ¬ r < c + 1 := by omega
          simp [h1, h3, this]
  have hlast : (fun (j : Nat) (H : Nat → Nat → R) =>
      setM H (n - 1) j (-xv (n - 1) * xv j / ops.sqrt (s j * s (j + 1)))) =
      fun j H => setM H (n - 1) j
        ((fun j => -xv (n - 1) * xv j / ops.sqrt (s j * s (j + 1))) j) := rfl
  rw [hlast, forUp_setRow, hrows]
  by_cases hj : j < n - 1
  · by_cases hi : i = n - 1
    · have h1 : ¬ i < j := by omega
      have h2 : ¬ i = j := by omega
      have h3 : i < n := by omega
      simp only [hi, hj, and_self, if_true, specH]
      rw [if_pos ⟨by omega, trivial⟩]
      rw [if_neg (by omega), if_neg (by omega)]
    · by_cases hi2 : i < n - 1
      · have : i < n := by omega
        simp [hi, hj, hi2, this]
      · have : ¬ i < n := by omega
        simp [hi, hj, hi2, this]
  · simp [hj]

theorem initY_entry (ops : RealOps R) (xv s : Nat → R) (n i : Nat) :
    initY ops xv s n i = if i < n then xv i / ops.sqrt (s 0) else 0 := by
  unfold initY
  rw [forUp_setV]

theorem sum_range_column (f : Nat → R) (j n : Nat) (hj : j + 1 ≤ n)
    (hlow : ∀ i, i < j → f i = 0) :
    ∑ i in Finset.range n, f i = f j + ∑ i in Finset.Ico (j + 1) n, f i := by
  rw [← Finset.sum_range_add_sum_Ico f hj, Finset.sum_range_succ]
  rw [Finset.sum_eq_zero (fun i hi => hlow i (Finset.mem_range.mp hi)), zero_add]

/-- Square roots met in column `j` of `Hx`, in terms of `e = sqrt(s[j]·s[j+1])`. -/
theorem column_sqrt_facts (ops : RealOps R) (hs : SqrtExact ops) (xv : Nat → R) (n j : Nat)
    (hj : j + 1 < n) (hx : ∀ k, k < n → 0 < xv k) :
    0 < specS xv n j ∧ 0 < specS xv n (j + 1) ∧
      0 < ops.sqrt (specS xv n j * specS xv n (j + 1)) ∧
      ops.sqrt (specS xv n j * specS xv n (j + 1)) *
          ops.sqrt (specS xv n j * specS xv n (j + 1)) =
        specS xv n j * specS xv n (j + 1) ∧
      ops.sqrt (specS xv n (j + 1) / specS xv n j) =
        specS xv n (j + 1) / ops.sqrt (specS xv n j * specS xv n (j + 1)) := by
  have h0 := specS_pos xv n j (by omega) hx
  have h1 := specS_pos xv n (j + 1) hj hx
  have hprod : 0 < specS xv n j * specS xv n (j + 1) := mul_pos h0 h1
  have he := hs.pos _ hprod
  have he2 := (hs _ hprod.le).2
  refine ⟨h0, h1, he, he2, ?_⟩
  apply hs.eq_of_sq (by positivity)
  rw [div_mul_div_comm, he2]
  field_simp
  ring

/-- Lemma 1.ii, column form: every column of `Hx` has unit Euclidean norm. -/
theorem column_norm_one (ops : RealOps R) (hs : SqrtExact ops) (xv : Nat → R) (n j : Nat)
    (hj : j + 1 < n) (hx : ∀ k, k < n → 0 < xv k) :
    ∑ i in Finset.range n,
      buildH ops xv (specS xv n) n i j * buildH ops xv (specS xv n) n i j = 1 := by
  obtain ⟨h0, h1, he, he2, hd⟩ := column_sqrt_facts ops hs xv n j hj hx
  have hsj := specS_succ xv n j (by omega)
  have hjn : j < n - 1 := by omega
  rw [sum_range_column _ j n (by omega)]
  · have hdiag : buildH ops xv (specS xv n) n j j = ops.sqrt (specS xv n (j + 1) / specS xv n j) := by
      rw [buildH_entry, if_pos ⟨by omega, hjn⟩]
      simp [specH]
    have hbelow : ∀ i ∈ Finset.Ico (j + 1) n,
        buildH ops xv (specS xv n) n i j * buildH ops xv (specS xv n) n i j =
          xv j * xv j / (specS xv n j * specS xv n (j + 1)) * (xv i * xv i) := by
      intro i hi
      obtain ⟨hi1, hi2⟩ := Finset.mem_Ico.mp hi
      rw [buildH_entry, if_pos ⟨hi2, hjn⟩]
      simp only [specH]
      rw [if_neg (by omega), if_neg (by omega), div_mul_div_comm, he2]
      field_simp
      ring
    rw [Finset.sum_congr rfl hbelow, ← Finset.mul_sum, hdiag]
    have hd2 := (hs (specS xv n (j + 1) / specS xv n j) (by positivity)).2
    rw [hd2]
    have : ∑ i in Finset.Ico (j + 1) n, xv i * xv i = specS xv n (j + 1) := rfl
    rw [this]
    field_simp
    rw [hsj]
    ring
  · intro i hi
    rw [buildH_entry, if_pos ⟨by omega, hjn⟩]
    simp [specH, hi]

/-- Lemma 1.iii, column form: every column of `Hx` is orthogonal to `x`. -/
theorem column_orthogonal (ops : RealOps R) (hs : SqrtExact ops) (xv : Nat → R) (n j : Nat)
    (hj : j + 1 < n) (hx : ∀ k, k < n → 0 < xv k) :
    ∑ i in Finset.range n, xv i * buildH ops xv (specS xv n) n i j = 0 := by
  obtain ⟨h0, h1, he, he2, hd⟩ := column_sqrt_facts ops hs xv n j hj hx
  have hjn : j < n - 1 := by omega
  rw [sum_range_column _ j n (by omega)]
  · have hdiag : buildH ops xv (specS xv n) n j j = ops.sqrt (specS xv n (j + 1) / specS xv n j) := by
      rw [buildH_entry, if_pos ⟨by omega, hjn⟩]
      simp [specH]
    have hbelow : ∀ i ∈ Finset.Ico (j + 1) n,
        xv i * buildH ops xv (specS xv n) n i j =
          -(xv j / ops.sqrt (specS xv n j * specS xv n (j + 1))) * (xv i * xv i) := by
      intro i hi
      obtain ⟨hi1, hi2⟩ := Finset.mem_Ico.mp hi
      rw [buildH_entry, if_pos ⟨hi2, hjn⟩]
      simp only [specH]
      rw [if_neg (by omega), if_neg (by omega)]
      ring
    rw [Finset.sum_congr rfl hbelow, ← Finset.mul_sum, hdiag, hd]
    have : ∑ i in Finset.Ico (j + 1) n, xv i * xv i = specS xv n (j + 1) := rfl
    rw [this]
    field_simp
  · intro i hi
    rw [buildH_entry, if_pos ⟨by omega, hjn⟩]
    simp [specH, hi]

/-- Lemma 1.ii: `‖Hx‖² = n - 1`. -/
theorem squaredNorm_buildH (ops : RealOps R) (hs : SqrtExact ops) (xv : Nat → R) (n : Nat)
    (hx : ∀ k, k < n → 0 < xv k) :
    squaredNorm (buildH ops xv (specS xv n) n) n (n - 1) = ((n - 1 : Nat) : R) := by
  unfold squaredNorm
  rw [Finset.sum_comm]
  rw [Finset.sum_congr rfl (fun j hj =>
    column_norm_one ops hs xv n j (by have := Finset.mem_range.mp hj; omega) hx)]
  simp

/-! ## The Decomposer on an input vector -/

theorem prepare_eq (ops : RealOps R) (x : List R) (xback : R) :
    prepare ops x xback =
      if normCheckFails ops (decomposerH ops x xback) x.length then .inl .normLemmaFailed
      else if orthCheckFails ops (decomposerY ops x xback) (decomposerH ops x xback) x.length
        then .inl .orthLemmaFailed
      else .inr (reducer ops x.length
          (initState (decomposerH ops x xback) (decomposerY ops x xback)),
        normBound (reducer ops x.length
          (initState (decomposerH ops x xback) (decomposerY ops x xback))).H x.length) := by
  rfl

theorem getLast_eq_inputVec (x : List R) (xback : R) (h : x.getLast? = some xback) :
    xback = inputVec x (x.length - 1) := by
  unfold inputVec
  cases x with
  | nil => simp at h
  | cons a rest =>
    rw [List.getLast?_eq_getLast _ (by simp)] at h
    have h1 := Option.some.inj h
    rw [← h1, List.getLast_eq_getElem, List.getD_eq_getElem?_getD,
      List.getElem?_eq_getElem (by simp)]
    rfl

theorem inputVec_pos (x : List R) (hpos : ∀ t ∈ x, 0 < t) (k : Nat) (hk : k < x.length) :
    0 < inputVec x k := by
  unfold inputVec
  rw [List.getD_eq_getElem?_getD, List.getElem?_eq_getElem hk]
  exact hpos _ (List.getElem_mem _)

theorem decomposerS_eq (x : List R) (xback : R) (h : x.getLast? = some xback) :
    decomposerS x xback = specS (inputVec x) x.length := by
  funext i
  unfold decomposerS
  rw [getLast_eq_inputVec x xback h]
  apply sSq_eq_specS
  cases x with
  | nil => simp at h
  | cons a rest => simp

theorem decomposerH_eq (ops : RealOps R) (x : List R) (xback : R)
    (h : x.getLast? = some xback) :
    decomposerH ops x xback =
      buildH ops (inputVec x) (specS (inputVec x) x.length) x.length := by
  unfold decomposerH
  rw [decomposerS_eq x xback h]

theorem decomposerY_entry (ops : RealOps R) (x : List R) (xback : R) (i : Nat) :
    decomposerY ops x xback i =
      if i < x.length then inputVec x i / ops.sqrt (decomposerS x xback 0) else 0 := by
  unfold decomposerY
  rw [initY_entry]

theorem vecMul_decomposer (ops : RealOps R) (hs : SqrtExact ops) (x : List R) (xback : R)
    (hpos : ∀ t ∈ x, 0 < t) (hl : x.getLast? = some xback) (j : Nat)
    (hj : j + 1 < x.length) :
    vecMul (decomposerY ops x xback) (decomposerH ops x xback) x.length j = 0 := by
  unfold vecMul
  have hcol := column_orthogonal ops hs (inputVec x) x.length j hj (inputVec_pos x hpos)
  rw [← decomposerH_eq ops x xback hl] at hcol
  have hterm : ∀ i ∈ Finset.range x.length,
      decomposerY ops x xback i * decomposerH ops x xback i j =
        (ops.sqrt (decomposerS x xback 0))⁻¹ * (inputVec x i * decomposerH ops x xback i j) := by
    intro i hi
    rw [decomposerY_entry, if_pos (Finset.mem_range.mp hi)]
    ring
  rw [Finset.sum_congr rfl hterm, ← Finset.mul_sum, hcol, mul_zero]

theorem checks_pass (ops : RealOps R) (hs : SqrtExact ops)
    (heps : 0 ≤ ops.sqrt ops.epsilon) (x : List R) (xback : R) (hn : 2 ≤ x.length)
    (hpos : ∀ t ∈ x, 0 < t) (hl : x.getLast? = some xback) :
    ¬ normCheckFails ops (decomposerH ops x xback) x.length ∧
      orthCheckFails ops (decomposerY ops x xback) (decomposerH ops x xback) x.length =
        false := by
  constructor
  · unfold normCheckFails
    rw [decomposerH_eq ops x xback hl,
      squaredNorm_buildH ops hs (inputVec x) x.length (inputVec_pos x hpos)]
    have hne : ((x.length - 1 : Nat) : R) ≠ 0 := by
      have : 0 < x.length - 1 := by omega
      exact_mod_cast this.ne'
    rw [div_self hne, sub_self, abs_zero]
    exact not_lt.mpr heps
  · unfold orthCheckFails
    rw [List.any_eq_false]
    intro i hi
    have hi2 : i + 1 < x.length := by
      have := List.mem_range.mp hi
      omega
    rw [vecMul_decomposer ops hs x xback hpos hl i hi2]
    simpa using heps

theorem prepare_ok (ops : RealOps R) (hs : SqrtExact ops)
    (heps : 0 ≤ ops.sqrt ops.epsilon) (x : List R) (xback : R) (hn : 2 ≤ x.length)
    (hpos : ∀ t ∈ x, 0 < t) (hl : x.getLast? = some xback) :
    prepare ops x xback =
      .inr (reducer ops x.length
          (initState (decomposerH ops x xback) (decomposerY ops x xback)),
        normBound (reducer ops x.length
          (initState (decomposerH ops x xback) (decomposerY ops x xback))).H x.length) := by
  obtain ⟨h1, h2⟩ := checks_pass ops hs heps x xback hn hpos hl
  rw [prepare_eq, if_neg h1, h2]
  rfl

/-! ## The Reducer leaves the diagonal alone; the norm bound -/

/-- One step of the Reducer writes only `Hx(i, k)` with `k ≤ j`. -/
theorem reduceStep_H_frame (ops : RealOps R) (n i j : Nat) (st : State R) (r k : Nat)
    (h : ¬ (r = i ∧ k ≤ j)) : (reduceStep ops n i j st).H r k = st.H r k := by
  unfold reduceStep
  simp only
  split_ifs with hq
  · rfl
  · refine forUp_induction (fun H => H r k = st.H r k) 0 (j + 1)
      (fun k H => setM H i k (H i k - ops.round (st.H i j / st.H j j) * H j k)) st.H rfl ?_
    intro c H _ hc hH
    simp only [setM]
    rw [if_neg]
    · exact hH
    · rintro ⟨h1, h2⟩
      exact h ⟨h1, by omega⟩

/-- The Reducer changes no entry of `Hx` on or above the diagonal. -/
theorem reducer_H_frame (ops : RealOps R) (n : Nat) (st : State R) (r k : Nat)
    (h : r ≤ k) : (reducer ops n st).H r k = st.H r k := by
  unfold reducer
  apply forUp_induction (fun t : State R => t.H r k = st.H r k)
  · rfl
  · intro i t _ _ ht
    apply forDown_induction (fun u : State R => u.H r k = st.H r k)
    · exact ht
    · intro j u hj hu
      rw [reduceStep_H_frame ops n i j u r k (by rintro ⟨h1, h2⟩; omega)]
      exact hu

theorem maxCoeff_ge (H : Nat → Nat → R) (n i : Nat) (hi : i < n - 1) :
    |H i i| ≤ maxCoeff H n := by
  unfold maxCoeff
  generalize n - 1 = c at hi
  induction c with
  | zero => omega
  | succ c ih =>
    rw [forUp, Nat.zero_add]
    by_cases hic : i = c
    · subst hic
      split_ifs with h1
      · exact le_rfl
      · exact not_lt.mp h1
    · have := ih (by omega)
      split_ifs with h1
      · exact le_trans this h1.le
      · exact this

theorem checkElementsRef_eq (ops : RealOps R) (x : List R) :
    checkElementsRef ops x = (checkElements ops x, x) := by
  induction x with
  | nil => rfl
  | cons t rest ih =>
    unfold checkElementsRef checkElements
    split_ifs <;> simp [ih]

theorem foldl_set_values (l : List (R × String)) (pre : List R) :
    (l.foldl (fun (acc : List R × Nat) e => (acc.1.set acc.2 e.1, acc.2 + 1))
      (pre ++ List.replicate l.length 0, pre.length)).1 = pre ++ l.map Prod.fst := by
  induction l generalizing pre with
  | nil => simp
  | cons e rest ih =>
    rw [List.foldl_cons]
    have hset : (pre ++ List.replicate (e :: rest).length 0).set pre.length e.1 =
        (pre ++ [e.1]) ++ List.replicate rest.length 0 := by
      simp [List.replicate_succ, List.set_append_right]
    have hlen : pre.length + 1 = (pre ++ [e.1]).length := by simp
    simp only []
    rw [hset, hlen, ih (pre ++ [e.1])]
    simp

/-- Lines 353-357 extract the keys in iteration order. -/
theorem dictValues_eq (d : Dictionary R) : dictValues d = d.entries.map Prod.fst := by
  unfold dictValues
  have := foldl_set_values d.entries ([] : List R)
  simpa using this

theorem isSorted_of_pairwise (x : List R) (h : x.Pairwise (fun a b => a < b)) :
    isSorted x = true := by
  induction x with
  | nil => rfl
  | cons a rest ih =>
    cases rest with
    | nil => rfl
    | cons b rest =>
      have hab : a < b := (List.pairwise_cons.mp h).1 b (List.mem_cons_self _ _)
      rw [isSorted, if_neg (not_lt.mpr hab.le)]
      exact ih (List.pairwise_cons.mp h).2

theorem renderRelation_eq_empty_iff (showReal : R → String) (d : Dictionary R)
    (m : List (Int × R)) : renderRelation showReal d m = "" ↔ m = [] := by
  cases m with
  | nil => simp [renderRelation]
  | cons first rest =>
    simp only [renderRelation, reduceCtorEq, iff_false]
    intro h
    have := congrArg String.length h
    rw [String.length_append] at this
    have h5 : " = 0.".length = 5 := by decide
    rw [h5] at this
    simp at this

theorem mainLoop_cin (ops : RealOps R) (n : Nat) (gamma : R) (fuel : Nat) :
    ∀ (cin cin2 : List Char) (st : State R) (nb : R),
      mainLoop ops n gamma fuel cin st nb = mainLoop ops n gamma fuel cin2 st nb := by
  induction fuel with
  | zero =>
    intro cin cin2 st nb
    rw [mainLoop, mainLoop]
  | succ fuel ih =>
    intro cin cin2 st nb
    by_cases hnb : nb < maxAcceptableNormBound
    · rw [mainLoop_succ ops n gamma fuel cin st nb hnb,
        mainLoop_succ ops n gamma fuel cin2 st nb hnb]
      cases iteration ops n gamma st with
      | done s2 st2 => rfl
      | next st2 nb2 => exact ih _ _ _ _
    · rw [mainLoop_exit ops n gamma _ cin st nb hnb, mainLoop_exit ops n gamma _ cin2 st nb hnb]

theorem pslq_cin (ops : RealOps R) (fuel : Nat) (cin cin2 : List Char) (x : List R)
    (gamma : R) : pslq ops fuel cin x gamma = pslq ops fuel cin2 x gamma := by
  unfold pslq
  split
  · rfl
  · rfl
  · split
    · rfl
    · split
      · rfl
      · rw [mainLoop_cin ops x.length gamma fuel cin cin2]

theorem pslq_more_fuel (ops : RealOps R) (fuel extra : Nat) (cin cin2 : List Char)
    (x : List R) (gamma : R) (o : Outcome R) (h : pslq ops fuel cin x gamma = some o) :
    pslq ops (fuel + extra) cin2 x gamma = some o := by
  unfold pslq at h ⊢
  split at h
  · exact h
  · exact h
  · split at h
    · exact h
    · split at h
      · exact h
      · rename_i st nb hp
        simp only [Option.map_eq_some'] at h ⊢
        obtain ⟨r, hr, ho⟩ := h
        exact ⟨r, mainLoop_more_fuel ops x.length gamma fuel cin cin2 st nb r extra hr, ho⟩

theorem pslq_ceiling_nonempty (ops : RealOps R) (fuel : Nat) (cin : List Char) (x : List R)
    (gamma : R) (o : Outcome R) (h : pslq ops fuel cin x gamma = some o)
    (hsite : o.site = .ceiling) : x ≠ [] := by
  unfold pslq at h
  split at h
  · cases h; cases hsite
  · cases h; cases hsite
  · split at h
    · cases h; cases hsite
    · rename_i xback hl
      intro hx
      rw [hx] at hl
      cases hl

/-! ## Claims about the returned vector -/

/-- C12: every pair of a returned vector has a nonzero integer coefficient, and the second
components of the returned pairs are a subsequence of `x`, in the order of `x`. -/
theorem returned_pairs_nonzero_in_order (ops : RealOps R) (fuel : Nat) (cin : List Char)
    (x : List R) (gamma : R) (o : Outcome R) (h : pslq ops fuel cin x gamma = some o) :
    (∀ p ∈ o.relation, p.1 ≠ 0) ∧ (o.relation.map Prod.snd).Sublist x := by
  rcases pslq_relation_cases ops fuel cin x gamma o h with h1 | ⟨-, h1⟩
  · rw [h1]
    exact ⟨by simp, by simp⟩
  · rw [h1]
    constructor
    · intro p hp
      simp only [stubRelation, List.mem_map] at hp
      obtain ⟨t, -, rfl⟩ := hp
      show (-8 : Int) ≠ 0
      decide
    · simp [stubRelation, List.map_map, Function.comp_def]

/-- Witness of C12 on the run of `x = [2·10¹², 10²⁴ - 1]` that returns two pairs. -/
theorem returned_pairs_nonzero_in_order_witness :
    (∀ p ∈ [((-8 : Int), (2 * 10 ^ 12 : ℝ)), (-8, 10 ^ 24 - 1)], p.1 ≠ 0) ∧
      ([((-8 : Int), (2 * 10 ^ 12 : ℝ)), (-8, 10 ^ 24 - 1)].map Prod.snd).Sublist
        [2 * 10 ^ 12, 10 ^ 24 - 1] := by
  obtain ⟨st, nb, st1, -, -, -, hrun⟩ := run_ceiling_example 0 []
  exact returned_pairs_nonzero_in_order _ _ _ _ _ _ hrun

/-- C13: with the same numeric type, input and `γ`, the result does not depend on the
console input read by `std::cin.get()`, and two calls that return, whatever fuel and
console input they are given, return the same vector through the same return. -/
theorem pslq_deterministic (ops : RealOps R) (x : List R) (gamma : R) (fuel fuel2 : Nat)
    (cin cin2 : List Char) :
    pslq ops fuel cin x gamma = pslq ops fuel cin2 x gamma ∧
      ∀ o o2, pslq ops fuel cin x gamma = some o → pslq ops fuel2 cin2 x gamma = some o2 →
        o = o2 := by
  refine ⟨pslq_cin ops fuel cin cin2 x gamma, ?_⟩
  intro o o2 h1 h2
  rcases Nat.le_total fuel fuel2 with hle | hle
  · obtain ⟨e, rfl⟩ := Nat.exists_eq_add_of_le hle
    have := pslq_more_fuel ops fuel e cin cin2 x gamma o h1
    rw [h2] at this
    exact (Option.some.inj this).symm
  · obtain ⟨e, rfl⟩ := Nat.exists_eq_add_of_le hle
    have := pslq_more_fuel ops fuel2 e cin2 cin x gamma o2 h2
    rw [h1] at this
    exact Option.some.inj this

/-- Witness of C13: the run of `x = [2·10¹², 10²⁴ - 1]` with fuel 1 and with fuel 5 and
another console input. -/
theorem pslq_deterministic_witness :
    ∀ o2, pslq (RealOps.ofSqrt Real.sqrt (1 / 10 ^ 100)) 5 ['a', 'b']
        [2 * 10 ^ 12, 10 ^ 24 - 1] (defaultGamma (RealOps.ofSqrt Real.sqrt (1 / 10 ^ 100))) =
          some o2 →
      (⟨[(-8, 2 * 10 ^ 12), (-8, 10 ^ 24 - 1)], .ceiling⟩ : Outcome ℝ) = o2 := by
  obtain ⟨st, nb, st1, -, -, -, hrun⟩ := run_ceiling_example 0 []
  intro o2 h2
  exact (pslq_deterministic (RealOps.ofSqrt Real.sqrt (1 / 10 ^ 100))
    [2 * 10 ^ 12, 10 ^ 24 - 1] _ 1 5 [] ['a', 'b']).2 _ o2 hrun h2

/-- C16: a call that returns gives either the empty vector or exactly
`[(-8, x₀), …, (-8, x_{n-1})]`, and the vector is nonempty exactly when the call leaves
through the return after the `while` loop, reached when `norm_bound` is not below the
ceiling. -/
theorem result_is_empty_or_stub (ops : RealOps R) (fuel : Nat) (cin : List Char)
    (x : List R) (gamma : R) (o : Outcome R) (h : pslq ops fuel cin x gamma = some o) :
    (o.relation = [] ∨ o.relation = x.map (fun t => ((-8 : Int), t))) ∧
      (o.relation ≠ [] ↔ o.site = .ceiling) := by
  rcases pslq_relation_cases ops fuel cin x gamma o h with h1 | ⟨h0, h1⟩
  · refine ⟨Or.inl h1, ?_⟩
    constructor
    · intro hne; exact absurd h1 hne
    · intro hsite
      exfalso
      have hx := pslq_ceiling_nonempty ops fuel cin x gamma o h hsite
      have h2 := pslq_relation ops fuel cin x gamma o h
      rw [hsite, h1] at h2
      simp only [relationAt, stubRelation] at h2
      cases x with
      | nil => exact hx rfl
      | cons a rest => simp at h2
  · refine ⟨Or.inr h1, ?_⟩
    constructor
    · intro _; exact h0
    · intro _
      have hx := pslq_ceiling_nonempty ops fuel cin x gamma o h h0
      rw [h1]
      cases x with
      | nil => exact absurd rfl hx
      | cons a rest => simp [stubRelation]

/-- Witness of C16 on the run of `x = [2·10¹², 10²⁴ - 1]`. -/
theorem result_is_empty_or_stub_witness :
    (([((-8 : Int), (2 * 10 ^ 12 : ℝ)), (-8, 10 ^ 24 - 1)] = [] ∨
        [((-8 : Int), (2 * 10 ^ 12 : ℝ)), (-8, 10 ^ 24 - 1)] =
          [2 * 10 ^ 12, 10 ^ 24 - 1].map (fun t => ((-8 : Int), t))) ∧
      ([((-8 : Int), (2 * 10 ^ 12 : ℝ)), (-8, 10 ^ 24 - 1)] ≠ [] ↔
        Site.ceiling = Site.ceiling)) := by
  obtain ⟨st, nb, st1, -, -, -, hrun⟩ := run_ceiling_example 0 []
  exact result_is_empty_or_stub _ _ _ _ _ _ hrun

/-- C11: the dictionary form returns when the call on the extracted key list returns, and
it returns the empty string exactly when that call returns the empty vector; the key
list is the list of keys in iteration order. -/
theorem dictionary_form_empty_iff (ops : RealOps R) (showReal : R → String) (fuel : Nat)
    (cin : List Char) (d : Dictionary R) (gamma : R) :
    (pslqDict ops showReal fuel cin d gamma = none ↔
        pslq ops fuel cin (dictValues d) gamma = none) ∧
      (pslqDict ops showReal fuel cin d gamma = some "" ↔
        ∃ o, pslq ops fuel cin (dictValues d) gamma = some o ∧ o.relation = []) ∧
      dictValues d = d.entries.map Prod.fst := by
  refine ⟨?_, ?_, dictValues_eq d⟩
  · unfold pslqDict
    simp
  · unfold pslqDict
    simp only [Option.map_eq_some']
    constructor
    · rintro ⟨o, ho, hr⟩
      exact ⟨o, ho, (renderRelation_eq_empty_iff showReal d o.relation).mp hr⟩
    · rintro ⟨o, ho, hr⟩
      exact ⟨o, ho, (renderRelation_eq_empty_iff showReal d o.relation).mpr hr⟩

/-- C14: the vector the caller passed holds, after the call, the same elements in the same
positions as before it. -/
theorem input_vector_unchanged (ops : RealOps R) (fuel : Nat) (cin : List Char)
    (x : List R) (gamma : R) (o : Outcome R) (x1 : List R)
    (h : pslqInPlace ops fuel cin x gamma = some (o, x1)) :
    x1 = x ∧ x1.length = x.length ∧ (∀ i : Nat, x1[i]? = x[i]?) ∧
      pslq ops fuel cin x gamma = some o := by
  unfold pslqInPlace at h
  simp only [Option.map_eq_some', Prod.mk.injEq] at h
  obtain ⟨o1, ho1, rfl, hx⟩ := h
  rw [checkElementsRef_eq] at hx
  subst hx
  exact ⟨rfl, rfl, fun _ => rfl, ho1⟩

/-- Witness of C14 on the real numbers: the call on `x = [1]` returns (too few values) and
leaves `[1]` in the vector. -/
theorem input_vector_unchanged_witness :
    (checkElementsRef (RealOps.ofSqrt Real.sqrt (1 / 2 ^ 52)) ([1] : List ℝ)).2 = [1] ∧
      pslq (RealOps.ofSqrt Real.sqrt (1 / 2 ^ 52)) 0 [] [1] 5 =
        some ⟨[], .diag .tooFewValues⟩ := by
  have hs : SqrtPos (RealOps.ofSqrt Real.sqrt (1 / 2 ^ 52)) := (sqrtExact_real _).pos
  have hg : ¬ (5 : ℝ) ≤ 2 / (RealOps.ofSqrt Real.sqrt (1 / 2 ^ 52)).sqrt 3 := by
    rw [not_le]
    show 2 / Real.sqrt 3 < 5
    have h3 : (1 : ℝ) ≤ Real.sqrt 3 := by
      rw [Real.one_le_sqrt]; norm_num
    rw [div_lt_iff₀ (by linarith)]
    linarith
  have ht := tau_bounds (sqrtExact_real (1 / 2 ^ 52)) (not_le.mp hg)
  have ht2 : ¬ (tauOf (RealOps.ofSqrt Real.sqrt (1 / 2 ^ 52)) 5 ≤ 1 ∨
      tauOf (RealOps.ofSqrt Real.sqrt (1 / 2 ^ 52)) 5 ≥ 2) := by
    rintro (h1 | h1)
    · exact absurd ht.1 (not_lt.mpr h1)
    · exact absurd ht.2 (not_lt.mpr h1)
  have hp : pslq (RealOps.ofSqrt Real.sqrt (1 / 2 ^ 52)) 0 [] ([1] : List ℝ) 5 =
      some ⟨[], .diag .tooFewValues⟩ := by
    apply pslq_of_reject
    rw [validate_sorted _ hs _ _ (by simp [isSorted]), if_neg hg, if_neg ht2,
      if_pos (by simp)]
  have hin : pslqInPlace (RealOps.ofSqrt Real.sqrt (1 / 2 ^ 52)) 0 [] ([1] : List ℝ) 5 =
      some (⟨[], .diag .tooFewValues⟩,
        (checkElementsRef (RealOps.ofSqrt Real.sqrt (1 / 2 ^ 52)) ([1] : List ℝ)).2) := by
    unfold pslqInPlace
    rw [hp]
    rfl
  have := input_vector_unchanged _ _ _ _ _ _ _ hin
  exact ⟨this.1, this.2.2.2⟩

/-- C15: the key list extracted from a dictionary has the dictionary's size and is
strictly ascending, it passes `std::is_sorted`, and no call on it returns through the
sortedness message. -/
theorem dictionary_values_ascending (d : Dictionary R) :
    (dictValues d).length = d.entries.length ∧
      (dictValues d).Pairwise (fun a b => a < b) ∧
      isSorted (dictValues d) = true ∧
      ∀ (ops : RealOps R) (fuel : Nat) (cin : List Char) (gamma : R),
        validate ops (dictValues d) gamma ≠ .ok (some .unsorted) ∧
          pslq ops fuel cin (dictValues d) gamma ≠ some ⟨[], .diag .unsorted⟩ := by
  have hv := dictValues_eq d
  have hp : (dictValues d).Pairwise (fun a b => a < b) := by
    rw [hv]; exact d.ascending
  have hsrt := isSorted_of_pairwise _ hp
  refine ⟨by rw [hv, List.length_map], hp, hsrt, ?_⟩
  intro ops fuel cin gamma
  constructor
  · rw [Ne, validate_unsorted_iff, hsrt]
    simp
  · rw [Ne, pslq_unsorted_iff_isSorted, hsrt]
    simp

/-! ## Claims about the Decomposer and the norm bound -/

theorem prepare_inr (ops : RealOps R) (x : List R) (xback : R) (st : State R) (nb : R)
    (h : prepare ops x xback = .inr (st, nb)) :
    st = reducer ops x.length
        (initState (decomposerH ops x xback) (decomposerY ops x xback)) ∧
      nb = normBound st.H x.length := by
  rw [prepare_eq] at h
  split_ifs at h
  have h1 := Sum.inr.inj h
  have h2 := (Prod.mk.inj h1).1
  have h3 := (Prod.mk.inj h1).2
  subst h2
  exact ⟨rfl, h3.symm⟩

theorem sqrt_eps_nonneg (ops : RealOps R) (hs : SqrtExact ops) (heps : 0 ≤ ops.epsilon) :
    0 ≤ ops.sqrt ops.epsilon :=
  (hs _ heps).1

/-- C18: for a nonempty input with all elements positive (in particular for `n ≥ 2`) and
an exact square root, the matrix of the Decomposer has `‖Hx‖² = n - 1`, each of its
`n - 1` columns having unit Euclidean norm. -/
theorem decomposer_frobenius_norm (ops : RealOps R) (hs : SqrtExact ops) (x : List R)
    (xback : R) (hpos : ∀ t ∈ x, 0 < t)
    (hl : x.getLast? = some xback) :
    squaredNorm (decomposerH ops x xback) x.length (x.length - 1) =
        ((x.length - 1 : Nat) : R) ∧
      ∀ j, j + 1 < x.length →
        ∑ i in Finset.range x.length,
          decomposerH ops x xback i j * decomposerH ops x xback i j = 1 := by
  rw [decomposerH_eq ops x xback hl]
  exact ⟨squaredNorm_buildH ops hs (inputVec x) x.length (inputVec_pos x hpos),
    fun j hj => column_norm_one ops hs (inputVec x) x.length j hj (inputVec_pos x hpos)⟩

/-- Witness of C18 on the real numbers at `x = [3, 4]`. -/
theorem decomposer_frobenius_norm_witness :
    squaredNorm (decomposerH (RealOps.ofSqrt Real.sqrt (1 / 2 ^ 52)) ([3, 4] : List ℝ) 4)
      2 (2 - 1) = ((2 - 1 : Nat) : ℝ) :=
  (decomposer_frobenius_norm (RealOps.ofSqrt Real.sqrt (1 / 2 ^ 52)) (sqrtExact_real _)
    [3, 4] 4 (by simp) (by simp)).1

/-- C19: for a nonempty input with all elements positive (in particular for `n ≥ 2`) and
an exact square root, every column of the matrix of the Decomposer is orthogonal to `x`,
and to the normalised vector `y = x/sqrt(s[0])`. -/
theorem decomposer_orthogonal_to_input (ops : RealOps R) (hs : SqrtExact ops) (x : List R)
    (xback : R) (hpos : ∀ t ∈ x, 0 < t)
    (hl : x.getLast? = some xback) (j : Nat) (hj : j + 1 < x.length) :
    ∑ i in Finset.range x.length, inputVec x i * decomposerH ops x xback i j = 0 ∧
      vecMul (decomposerY ops x xback) (decomposerH ops x xback) x.length j = 0 := by
  refine ⟨?_, vecMul_decomposer ops hs x xback hpos hl j hj⟩
  rw [decomposerH_eq ops x xback hl]
  exact column_orthogonal ops hs (inputVec x) x.length j hj (inputVec_pos x hpos)

/-- Witness of C19 on the real numbers at `x = [3, 4]`, column 0. -/
theorem decomposer_orthogonal_to_input_witness :
    ∑ i in Finset.range 2, inputVec ([3, 4] : List ℝ) i *
        decomposerH (RealOps.ofSqrt Real.sqrt (1 / 2 ^ 52)) ([3, 4] : List ℝ) 4 i 0 = 0 ∧
      vecMul (decomposerY (RealOps.ofSqrt Real.sqrt (1 / 2 ^ 52)) ([3, 4] : List ℝ) 4)
        (decomposerH (RealOps.ofSqrt Real.sqrt (1 / 2 ^ 52)) ([3, 4] : List ℝ) 4) 2 0 = 0 :=
  decomposer_orthogonal_to_input (RealOps.ofSqrt Real.sqrt (1 / 2 ^ 52)) (sqrtExact_real _)
    [3, 4] 4 (by simp) (by simp) 0 (by simp)

/-- C20: with an exact square root and a nonnegative epsilon, on an input that passes the
Validator both tests of Lemma 1 pass: `|‖Hx‖²/(n-1) - 1| ≤ sqrt(epsilon)` and
`|(yᵀHx)_i|/(n-1) ≤ sqrt(epsilon)` for every column, the Decomposer hands over to the
Reducer, and no call returns through either of the two "this is a bug" messages. -/
theorem decomposition_checks_never_fail (ops : RealOps R) (hs : SqrtExact ops)
    (heps : 0 ≤ ops.epsilon) (x : List R) (gamma : R)
    (hv : validate ops x gamma = .ok none) :
    (∃ xback, x.getLast? = some xback ∧
      |squaredNorm (decomposerH ops x xback) x.length (x.length - 1) /
          ((x.length - 1 : Nat) : R) - 1| ≤ ops.sqrt ops.epsilon ∧
      (∀ i, i < x.length - 1 →
        |vecMul (decomposerY ops x xback) (decomposerH ops x xback) x.length i| /
          ((x.length - 1 : Nat) : R) ≤ ops.sqrt ops.epsilon) ∧
      ∃ st nb, prepare ops x xback = .inr (st, nb)) ∧
    ∀ fuel cin o, pslq ops fuel cin x gamma = some o →
      o.site ≠ .diag .normLemmaFailed ∧ o.site ≠ .diag .orthLemmaFailed := by
  obtain ⟨-, -, -, hn, hel⟩ := (validate_none_iff ops hs.pos x gamma).mp hv
  have hpos : ∀ t ∈ x, 0 < t := fun t ht => (hel t ht).1
  have he := sqrt_eps_nonneg ops hs heps
  obtain ⟨xback, hl⟩ : ∃ xback, x.getLast? = some xback := by
    cases x with
    | nil => simp at hn
    | cons a rest => exact ⟨_, List.getLast?_eq_getLast _ (by simp)⟩
  have hprep := prepare_ok ops hs he x xback hn hpos hl
  have hne : ((x.length - 1 : Nat) : R) ≠ 0 := by
    have : 0 < x.length - 1 := by omega
    exact_mod_cast this.ne'
  constructor
  · refine ⟨xback, hl, ?_, ?_, _, _, hprep⟩
    · rw [decomposerH_eq ops x xback hl,
        squaredNorm_buildH ops hs (inputVec x) x.length (inputVec_pos x hpos),
        div_self hne, sub_self,
        abs_zero]
      exact he
    · intro i hi
      rw [vecMul_decomposer ops hs x xback hpos hl i (by omega), abs_zero, zero_div]
      exact he
  · intro fuel cin o ho
    rw [pslq_of_prepare ops fuel cin x gamma xback _ _ hv hl hprep] at ho
    simp only [Option.map_eq_some'] at ho
    obtain ⟨⟨site, st1⟩, hm, rfl⟩ := ho
    rcases mainLoop_exits ops _ gamma fuel cin _ _ site st1 hm with
      ⟨k, h, -⟩ | h | h | ⟨h, -⟩ <;> rw [show (Outcome.mk (relationAt x site) site).site =
        site from rfl, h] <;> exact ⟨by simp, by simp⟩

/-- Witness of C20 on the real numbers at `x = [3, 4]` with the default `γ`. -/
theorem decomposition_checks_never_fail_witness :
    ∃ xback, ([3, 4] : List ℝ).getLast? = some xback ∧
      |squaredNorm (decomposerH (RealOps.ofSqrt Real.sqrt (1 / 2 ^ 52)) [3, 4] xback)
          ([3, 4] : List ℝ).length (([3, 4] : List ℝ).length - 1) /
        ((([3, 4] : List ℝ).length - 1 : Nat) : ℝ) - 1| ≤ Real.sqrt (1 / 2 ^ 52) := by
  have hv : validate (RealOps.ofSqrt Real.sqrt (1 / 2 ^ 52)) [3, 4]
      (defaultGamma (RealOps.ofSqrt Real.sqrt (1 / 2 ^ 52))) = .ok none := by
    apply validate_default_two _ (sqrtExact_real _) 3 4 (by norm_num) (by norm_num)
    show Real.sqrt (1 / 2 ^ 52) ≤ 3
    rw [Real.sqrt_le_iff]; norm_num
  obtain ⟨xback, h1, h2, -⟩ := (decomposition_checks_never_fail
    (RealOps.ofSqrt Real.sqrt (1 / 2 ^ 52)) (sqrtExact_real _)
    (show (0 : ℝ) ≤ 1 / 2 ^ 52 by norm_num) [3, 4] _ hv).1
  exact ⟨xback, h1, h2⟩

theorem forUp_rowOp {T : Type} [Ring T] (M : Nat → Nat → T) (i j : Nat) (q : T) (hij : i ≠ j)
    (c r k : Nat) :
    forUp 0 c (fun k H => setM H i k (H i k - q * H j k)) M r k =
      if r = i ∧ k < c then M i k - q * M j k else M r k := by
  induction c generalizing r k with
  | zero => simp [forUp]
  | succ c ih =>
    rw [forUp]
    simp only [setM, Nat.zero_add]
    by_cases h1 : r = i ∧ k = c
    · obtain ⟨rfl, rfl⟩ := h1
      rw [if_pos ⟨rfl, rfl⟩, ih, ih, if_neg (by omega), if_neg (by omega),
        if_pos ⟨rfl, by omega⟩]
    · rw [if_neg h1, ih]
      by_cases h2 : r = i ∧ k < c
      · rw [if_pos h2, if_pos ⟨h2.1, by omega⟩]
      · rw [if_neg h2, if_neg (by omega)]

theorem forUp_colOp {T : Type} [Ring T] (M : Nat → Nat → T) (i j : Nat) (q : T) (hij : i ≠ j)
    (c r k : Nat) :
    forUp 0 c (fun k B => setM B k j (B k j + q * B k i)) M r k =
      if k = j ∧ r < c then M r j + q * M r i else M r k := by
  induction c generalizing r k with
  | zero => simp [forUp]
  | succ c ih =>
    rw [forUp]
    simp only [setM, Nat.zero_add]
    by_cases h1 : r = c ∧ k = j
    · obtain ⟨rfl, rfl⟩ := h1
      rw [if_pos ⟨rfl, rfl⟩, ih, ih, if_neg (by omega), if_neg (by omega),
        if_pos ⟨rfl, by omega⟩]
    · rw [if_neg h1, ih]
      by_cases h2 : k = j ∧ r < c
      · rw [if_pos h2, if_pos ⟨h2.1, by omega⟩]
      · rw [if_neg h2, if_neg (by omega)]

theorem forUp_triple {T : Type} [Ring T] (D A B : Nat → Nat → T) (i j : Nat) (q : T)
    (c : Nat) :
    forUp 0 c
        (fun k (dab : (Nat → Nat → T) × (Nat → Nat → T) × (Nat → Nat → T)) =>
          (setM dab.1 i k (dab.1 i k - q * dab.1 j k),
            setM dab.2.1 i k (dab.2.1 i k - q * dab.2.1 j k),
            setM dab.2.2 k j (dab.2.2 k j + q * dab.2.2 k i)))
        (D, A, B) =
      (forUp 0 c (fun k H => setM H i k (H i k - q * H j k)) D,
        forUp 0 c (fun k H => setM H i k (H i k - q * H j k)) A,
        forUp 0 c (fun k B => setM B k j (B k j + q * B k i)) B) := by
  induction c with
  | zero => rfl
  | succ c ih =>
    rw [forUp, ih]
    rfl

theorem forUp_pair {T : Type} [Ring T] (A B : Nat → Nat → T) (i j : Nat) (q : T)
    (c : Nat) :
    forUp 0 c
        (fun k (ab : (Nat → Nat → T) × (Nat → Nat → T)) =>
          (setM ab.1 i k (ab.1 i k - q * ab.1 j k),
            setM ab.2 k j (ab.2 k j + q * ab.2 k i)))
        (A, B) =
      (forUp 0 c (fun k H => setM H i k (H i k - q * H j k)) A,
        forUp 0 c (fun k B => setM B k j (B k j + q * B k i)) B) := by
  induction c with
  | zero => rfl
  | succ c ih =>
    rw [forUp, ih]
    rfl

/-- The Reducer step at `(i, j)`, `i ≠ j`: the new state, entry by entry, with
`q = round(Hx(i,j)/Hx(j,j))`. -/
theorem reduceStep_entries (ops : RealOps R) (n i j : Nat) (st : State R) (hij : i ≠ j) :
    (∀ r k, (reduceStep ops n i j st).H r k =
        rowOp st.H i j (ops.round (st.H i j / st.H j j)) (j + 1) r k) ∧
      (∀ r k, (reduceStep ops n i j st).D r k =
        rowOp st.D i j (ops.round (st.H i j / st.H j j)) n r k) ∧
      (∀ r k, (reduceStep ops n i j st).A r k =
        rowOp st.A i j (ops.round (st.H i j / st.H j j)) n r k) ∧
      (∀ r k, (reduceStep ops n i j st).B r k =
        colOp st.B i j (ops.round (st.H i j / st.H j j)) n r k) ∧
      (∀ k, (reduceStep ops n i j st).y k =
        if k = j then st.y j + ops.round (st.H i j / st.H j j) * st.y i else st.y k) := by
  by_cases hq : ops.round (st.H i j / st.H j j) = 0
  · have hst : reduceStep ops n i j st = st := by
      unfold reduceStep
      simp only [hq, if_true]
    rw [hst, hq]
    refine ⟨?_, ?_, ?_, ?_, ?_⟩
    · intro r k; unfold rowOp; split_ifs with h
      · rw [h.1]; ring
      · rfl
    · intro r k; unfold rowOp; split_ifs with h
      · rw [h.1]; ring
      · rfl
    · intro r k; unfold rowOp; split_ifs with h
      · rw [h.1]; ring
      · rfl
    · intro r k; unfold colOp; split_ifs with h
      · rw [h.1]; ring
      · rfl
    · intro k; split_ifs with h
      · rw [h]; ring
      · rfl
  · have hst : reduceStep ops n i j st =
        ⟨forUp 0 (j + 1) (fun k H => setM H i k
            (H i k - ops.round (st.H i j / st.H j j) * H j k)) st.H,
          forUp 0 n (fun k H => setM H i k
            (H i k - ops.round (st.H i j / st.H j j) * H j k)) st.D,
          forUp 0 n (fun k H => setM H i k
            (H i k - ops.round (st.H i j / st.H j j) * H j k)) st.A,
          forUp 0 n (fun k B => setM B k j
            (B k j + ops.round (st.H i j / st.H j j) * B k i)) st.B,
          setV st.y j (st.y j + ops.round (st.H i j / st.H j j) * st.y i)⟩ := by
      unfold reduceStep
      simp only [hq, if_false]
      rw [forUp_triple]
    rw [hst]
    refine ⟨?_, ?_, ?_, ?_, ?_⟩
    · intro r k; exact forUp_rowOp st.H i j _ hij (j + 1) r k
    · intro r k; exact forUp_rowOp st.D i j _ hij n r k
    · intro r k; exact forUp_rowOp st.A i j _ hij n r k
    · intro r k; exact forUp_colOp st.B i j _ hij n r k
    · intro k; rfl

/-- The re-reduction step at `(i, j)`, `i ≠ j`: the new state, entry by entry, with
`t = round(Hx(i,j)/Hx(j,j))`.  The row of `Hx` is updated on the columns `k < j` only. -/
theorem rereduceStep_entries (ops : RealOps R) (n i j : Nat) (st : State R) (hij : i ≠ j) :
    (∀ r k, (rereduceStep ops n i j st).H r k =
        rowOp st.H i j (ops.round (st.H i j / st.H j j)) j r k) ∧
      (rereduceStep ops n i j st).D = st.D ∧
      (∀ r k, (rereduceStep ops n i j st).A r k =
        rowOp st.A i j (ops.round (st.H i j / st.H j j)) n r k) ∧
      (∀ r k, (rereduceStep ops n i j st).B r k =
        colOp st.B i j (ops.round (st.H i j / st.H j j)) n r k) ∧
      (∀ k, (rereduceStep ops n i j st).y k =
        if k = j then st.y j + ops.round (st.H i j / st.H j j) * st.y i else st.y k) := by
  by_cases hq : ops.round (st.H i j / st.H j j) = 0
  · have hst : rereduceStep ops n i j st = st := by
      unfold rereduceStep
      simp only [hq, if_true]
    rw [hst, hq]
    refine ⟨?_, rfl, ?_, ?_, ?_⟩
    · intro r k; unfold rowOp; split_ifs with h
      · rw [h.1]; ring
      · rfl
    · intro r k; unfold rowOp; split_ifs with h
      · rw [h.1]; ring
      · rfl
    · intro r k; unfold colOp; split_ifs with h
      · rw [h.1]; ring
      · rfl
    · intro k; split_ifs with h
      · rw [h]; ring
      · rfl
  · have hst : rereduceStep ops n i j st =
        ⟨forUp 0 j (fun k H => setM H i k
            (H i k - ops.round (st.H i j / st.H j j) * H j k)) st.H,
          st.D,
          forUp 0 n (fun k H => setM H i k
            (H i k - ops.round (st.H i j / st.H j j) * H j k)) st.A,
          forUp 0 n (fun k B => setM B k j
            (B k j + ops.round (st.H i j / st.H j j) * B k i)) st.B,
          setV st.y j (st.y j + ops.round (st.H i j / st.H j j) * st.y i)⟩ := by
      unfold rereduceStep
      simp only [hq, if_false]
      rw [forUp_pair]
    rw [hst]
    refine ⟨?_, rfl, ?_, ?_, ?_⟩
    · intro r k; exact forUp_rowOp st.H i j _ hij j r k
    · intro r k; exact forUp_rowOp st.A i j _ hij n r k
    · intro r k; exact forUp_colOp st.B i j _ hij n r k
    · intro k; rfl

/-! ## Products under the elementary operations -/

theorem matMul_identity_left (H : Nat → Nat → R) (n i k : Nat) (hi : i < n) :
    matMul identity H n i k = H i k := by
  unfold matMul identity
  simp [Finset.sum_ite_eq, hi]

theorem matMul_rowOp_left (A B : Nat → Nat → R) (n i j : Nat) (q : R) (r c : Nat) :
    matMul (rowOp A i j q n) B n r c =
      if r = i then matMul A B n i c - q * matMul A B n j c else matMul A B n r c := by
  unfold matMul rowOp
  by_cases hr : r = i
  · rw [if_pos hr, Finset.mul_sum, ← Finset.sum_sub_distrib]
    apply Finset.sum_congr rfl
    intro l hl
    rw [if_pos ⟨hr, Finset.mem_range.mp hl⟩]
    ring
  · rw [if_neg hr]
    apply Finset.sum_congr rfl
    intro l _
    rw [if_neg (fun h => hr h.1)]

/-- State of the pivot search after `c` passes of the loop of lines 251-258. -/
theorem pivot_loop (H : Nat → Nat → R) (gamma : R) (c : Nat) :
    (forUp 0 c
        (fun i (pv : PivotVars R) =>
          if pv.gammai * |H i i| > pv.maxTerm then
            (⟨pv.gammai * gamma, pv.gammai * |H i i|, (i : Int)⟩ : PivotVars R)
          else ⟨pv.gammai * gamma, pv.maxTerm, pv.m⟩)
        ⟨gamma, 0, -1⟩).gammai = gamma ^ (c + 1) ∧
    (((forUp 0 c
        (fun i (pv : PivotVars R) =>
          if pv.gammai * |H i i| > pv.maxTerm then
            (⟨pv.gammai * gamma, pv.gammai * |H i i|, (i : Int)⟩ : PivotVars R)
          else ⟨pv.gammai * gamma, pv.maxTerm, pv.m⟩)
        ⟨gamma, 0, -1⟩).m = -1 ∧
      (forUp 0 c
        (fun i (pv : PivotVars R) =>
          if pv.gammai * |H i i| > pv.maxTerm then
            (⟨pv.gammai * gamma, pv.gammai * |H i i|, (i : Int)⟩ : PivotVars R)
          else ⟨pv.gammai * gamma, pv.maxTerm, pv.m⟩)
        ⟨gamma, 0, -1⟩).maxTerm = 0 ∧
      ∀ i, i < c → pivotTerm H gamma i ≤ 0) ∨
     ∃ m : Nat,
      (forUp 0 c
        (fun i (pv : PivotVars R) =>
          if pv.gammai * |H i i| > pv.maxTerm then
            (⟨pv.gammai * gamma, pv.gammai * |H i i|, (i : Int)⟩ : PivotVars R)
          else ⟨pv.gammai * gamma, pv.maxTerm, pv.m⟩)
        ⟨gamma, 0, -1⟩).m = (m : Int) ∧ m < c ∧
      (forUp 0 c
        (fun i (pv : PivotVars R) =>
          if pv.gammai * |H i i| > pv.maxTerm then
            (⟨pv.gammai * gamma, pv.gammai * |H i i|, (i : Int)⟩ : PivotVars R)
          else ⟨pv.gammai * gamma, pv.maxTerm, pv.m⟩)
        ⟨gamma, 0, -1⟩).maxTerm = pivotTerm H gamma m ∧
      0 < pivotTerm H gamma m ∧
      (∀ i, i < c → pivotTerm H gamma i ≤ pivotTerm H gamma m) ∧
      ∀ i, i < m → pivotTerm H gamma i < pivotTerm H gamma m) := by
  induction c with
  | zero =>
    refine ⟨by simp [forUp], Or.inl ⟨rfl, rfl, fun i hi => by omega⟩⟩
  | succ c ih =>
    obtain ⟨hg, hcase⟩ := ih
    rw [forUp]
    generalize forUp 0 c
        (fun i (pv : PivotVars R) =>
          if pv.gammai * |H i i| > pv.maxTerm then
            (⟨pv.gammai * gamma, pv.gammai * |H i i|, (i : Int)⟩ : PivotVars R)
          else ⟨pv.gammai * gamma, pv.maxTerm, pv.m⟩)
        ⟨gamma, 0, -1⟩ = pv at hg hcase
    simp only [Nat.zero_add]
    have hterm : pv.gammai * |H c c| = pivotTerm H gamma c := by
      rw [hg]; rfl
    rw [hterm]
    by_cases hgt : pivotTerm H gamma c > pv.maxTerm
    · rw [if_pos hgt]
      refine ⟨by simp only []; rw [hg]; ring, Or.inr ⟨c, rfl, by omega, rfl, ?_, ?_, ?_⟩⟩
      · rcases hcase with ⟨-, h2, -⟩ | ⟨m, -, -, h3, h4, -, -⟩
        · rw [h2] at hgt; exact hgt
        · rw [h3] at hgt; exact lt_trans h4 hgt
      · intro i hi
        by_cases hic : i = c
        · rw [hic]
        · rcases hcase with ⟨-, h2, h3⟩ | ⟨m, -, -, h3, -, h5, -⟩
          · rw [h2] at hgt
            exact le_trans (h3 i (by omega)) hgt.le
          · rw [h3] at hgt
            exact le_trans (h5 i (by omega)) hgt.le
      · intro i hi
        rcases hcase with ⟨-, h2, h3⟩ | ⟨m, -, -, h3, -, h5, -⟩
        · rw [h2] at hgt
          exact lt_of_le_of_lt (h3 i hi) hgt
        · rw [h3] at hgt
          exact lt_of_le_of_lt (h5 i hi) hgt
    · rw [if_neg hgt]
      refine ⟨by simp only []; rw [hg]; ring, ?_⟩
      rcases hcase with ⟨h1, h2, h3⟩ | ⟨m, h1, h2, h3, h4, h5, h6⟩
      · refine Or.inl ⟨h1, h2, ?_⟩
        intro i hi
        by_cases hic : i = c
        · rw [hic]; rw [h2] at hgt; exact not_lt.mp hgt
        · exact h3 i (by omega)
      · refine Or.inr ⟨m, h1, by omega, h3, h4, ?_, h6⟩
        intro i hi
        by_cases hic : i = c
        · rw [hic]; rw [h3] at hgt; exact not_lt.mp hgt
        · exact h5 i (by omega)

/-- The pivot index is `-1` with no positive term, or the least index of a largest term. -/
theorem pivot_cases (H : Nat → Nat → R) (n : Nat) (gamma : R) :
    ((pivot H n gamma).m = -1 ∧ ∀ i, i < n - 1 → pivotTerm H gamma i ≤ 0) ∨
      ∃ m : Nat, (pivot H n gamma).m = (m : Int) ∧ m < n - 1 ∧
        0 < pivotTerm H gamma m ∧
        (∀ i, i < n - 1 → pivotTerm H gamma i ≤ pivotTerm H gamma m) ∧
        ∀ i, i < m → pivotTerm H gamma i < pivotTerm H gamma m := by
  obtain ⟨-, h⟩ := pivot_loop H gamma (n - 1)
  rcases h with ⟨h1, -, h3⟩ | ⟨m, h1, h2, -, h4, h5, h6⟩
  · exact Or.inl ⟨h1, h3⟩
  · exact Or.inr ⟨m, h1, h2, h4, h5, h6⟩

theorem pivotTerm_nonneg (H : Nat → Nat → R) (gamma : R) (hg : 0 < gamma) (i : Nat) :
    0 ≤ pivotTerm H gamma i :=
  mul_nonneg (pow_pos hg _).le (abs_nonneg _)

/-! ## Invariants carried through the Reducer and the `while` loop -/

theorem reducer_preserves (ops : RealOps R) (n : Nat) (P : State R → Prop)
    (hstep : ∀ i j u, j < i → i < n → P u → P (reduceStep ops n i j u))
    (st : State R) (h : P st) : P (reducer ops n st) := by
  unfold reducer
  apply forUp_induction P
  · exact h
  · intro i t hi1 hi2 ht
    apply forDown_induction P
    · exact ht
    · intro j u hj hu
      exact hstep i j u hj (by omega) hu

theorem lowerTrapezoidal_buildH (ops : RealOps R) (xv s : Nat → R) (n : Nat) :
    LowerTrapezoidal (buildH ops xv s n) := by
  intro r k hrk
  rw [buildH_entry]
  split_ifs
  · unfold specH
    rw [if_pos hrk]
  · rfl

/-- Invariants of the Reducer: `Hx` stays lower-trapezoidal, `A·H₀ = Hx`, `D = A`. -/
theorem reducer_product (ops : RealOps R) (n : Nat) (H0 : Nat → Nat → R) (y0 : Nat → R)
    (h0 : LowerTrapezoidal H0) :
    LowerTrapezoidal (reducer ops n (initState H0 y0)).H ∧
      ProductInvariant n (reducer ops n (initState H0 y0)).A H0
        (reducer ops n (initState H0 y0)).H ∧
      (reducer ops n (initState H0 y0)).D = (reducer ops n (initState H0 y0)).A := by
  apply reducer_preserves ops n
    (fun st => LowerTrapezoidal st.H ∧ ProductInvariant n st.A H0 st.H ∧ st.D = st.A)
  · intro i j u hj hi ⟨hL, hP, hD⟩
    obtain ⟨hH, hDe, hA, -, -⟩ := reduceStep_entries ops n i j u (by omega)
    have hA2 : (reduceStep ops n i j u).A =
        rowOp u.A i j (ops.round (u.H i j / u.H j j)) n :=
      funext fun r => funext fun k => hA r k
    have hD2 : (reduceStep ops n i j u).D =
        rowOp u.D i j (ops.round (u.H i j / u.H j j)) n :=
      funext fun r => funext fun k => hDe r k
    refine ⟨?_, ?_, ?_⟩
    · intro r k hrk
      rw [hH r k]
      unfold rowOp
      rw [if_neg (by omega)]
      exact hL r k hrk
    · intro r k hr
      rw [hA2, matMul_rowOp_left, hH r k]
      unfold rowOp
      by_cases hri : r = i
      · rw [if_pos hri, hP i k hi, hP j k (by omega)]
        by_cases hk : k < j + 1
        · rw [if_pos ⟨hri, hk⟩]
        · rw [if_neg (fun h => hk h.2), hL j k (by omega), hri]
          ring
      · rw [if_neg hri, if_neg (fun h => hri h.1)]
        exact hP r k hr
    · rw [hA2, hD2, hD]
  · refine ⟨h0, ?_, rfl⟩
    intro i k hi
    exact matMul_identity_left H0 n i k hi

/-! ## The rounding of `std::round` meets the contracts -/

theorem decomposerH_diag_ne (ops : RealOps R) (hs : SqrtExact ops) (x : List R) (xback : R)
    (hpos : ∀ t ∈ x, 0 < t) (hl : x.getLast? = some xback) (k : Nat)
    (hk : k + 1 < x.length) : decomposerH ops x xback k k ≠ 0 := by
  rw [decomposerH_eq ops x xback hl, buildH_entry, if_pos ⟨by omega, by omega⟩]
  unfold specH
  rw [if_neg (lt_irrefl k), if_pos rfl]
  have h1 := specS_pos (inputVec x) x.length k (by omega) (inputVec_pos x hpos)
  have h2 := specS_pos (inputVec x) x.length (k + 1) hk (inputVec_pos x hpos)
  exact (hs.pos _ (div_pos h2 h1)).ne'

theorem forUp_rotate {T : Type} [Ring T] (M : Nat → Nat → T) (m lo c : Nat) (t1 t2 : T)
    (r k : Nat) :
    forUp lo c
        (fun i H =>
          let t3 := H i m
          let t4 := H i (m + 1)
          let H1 := setM H i m (t1 * t3 + t2 * t4)
          setM H1 i (m + 1) (-t2 * t3 + t1 * t4))
        M r k =
      if lo ≤ r ∧ r < lo + c then
        if k = m then t1 * M r m + t2 * M r (m + 1)
        else if k = m + 1 then -t2 * M r m + t1 * M r (m + 1)
        else M r k
      else M r k := by
  induction c generalizing r k with
  | zero =>
    rw [forUp, if_neg (by omega)]
  | succ c ih =>
    rw [forUp]
    simp only [setM, ih, lt_irrefl, and_false, if_false]
    by_cases hr : r = lo + c
    · subst hr
      simp only [true_and]
      split_ifs <;> first | rfl | (exfalso; omega)
    · simp only [hr, false_and, if_false]
      by_cases hin : lo ≤ r ∧ r < lo + c
      · have h2 : lo ≤ r ∧ r < lo + (c + 1) := by omega
        rw [if_pos hin, if_pos h2]
      · have h2 : ¬ (lo ≤ r ∧ r < lo + (c + 1)) := by omega
        rw [if_neg hin, if_neg h2]

/-- Entries after corner removal: for `m < n - 2`, the rows `m ≤ r ≤ n - 2` have their
entries in the columns `m`, `m + 1` rotated; every other entry is unchanged. -/
theorem removeCorner_entry (ops : RealOps R) (n m : Nat) (H : Nat → Nat → R) (r k : Nat) :
    removeCorner ops n m H r k =
      if m + 2 < n ∧ m ≤ r ∧ r + 1 < n then
        if k = m then
          H m m / ops.sqrt (H m m * H m m + H m (m + 1) * H m (m + 1)) * H r m +
            H m (m + 1) / ops.sqrt (H m m * H m m + H m (m + 1) * H m (m + 1)) *
              H r (m + 1)
        else if k = m + 1 then
          -(H m (m + 1) / ops.sqrt (H m m * H m m + H m (m + 1) * H m (m + 1))) * H r m +
            H m m / ops.sqrt (H m m * H m m + H m (m + 1) * H m (m + 1)) * H r (m + 1)
        else H r k
      else H r k := by
  unfold removeCorner
  by_cases hm : m + 2 < n
  · rw [if_pos hm]
    simp only []
    rw [forUp_rotate]
    by_cases hr : m ≤ r ∧ r < m + (n - 1 - m)
    · have h2 : m + 2 < n ∧ m ≤ r ∧ r + 1 < n := ⟨hm, hr.1, by omega⟩
      rw [if_pos hr, if_pos h2]
    · have h2 : ¬ (m + 2 < n ∧ m ≤ r ∧ r + 1 < n) := by omega
      rw [if_neg hr, if_neg h2]
  · have h2 : ¬ (m + 2 < n ∧ m ≤ r ∧ r + 1 < n) := fun h => hm h.1
    rw [if_neg hm, if_neg h2]

theorem removeCorner_last_row (ops : RealOps R) (n m : Nat) (H : Nat → Nat → R) (k : Nat) :
    removeCorner ops n m H (n - 1) k = H (n - 1) k := by
  have h2 : ¬ (m + 2 < n ∧ m ≤ n - 1 ∧ n - 1 + 1 < n) := by omega
  rw [removeCorner_entry, if_neg h2]

/-- The state an iteration with pivot `m ≤ n - 2` ends in. -/
theorem iteration_at_pivot (ops : RealOps R) (n : Nat) (gamma : R) (st : State R) (m : Nat)
    (hm : (pivot st.H n gamma).m = (m : Int)) (hmn : m + 1 < n) :
    (∃ site, iteration ops n gamma st = .done site
        (rereduce ops n m
          { swapStep m st with H := removeCorner ops n m (swapStep m st).H })) ∨
      ∃ nb, iteration ops n gamma st = .next
        (rereduce ops n m
          { swapStep m st with H := removeCorner ops n m (swapStep m st).H }) nb := by
  unfold iteration
  simp only [hm]
  rw [if_neg (by omega), if_neg (by omega)]
  simp only [Int.toNat_ofNat]
  split
  · exact Or.inl ⟨_, rfl⟩
  · exact Or.inr ⟨_, rfl⟩

/-- The state an iteration with pivot `m ≤ n - 2` ends in is determined. -/
theorem iteration_state_at_pivot (ops : RealOps R) (n : Nat) (gamma : R) (st st1 : State R)
    (m : Nat) (hm : (pivot st.H n gamma).m = (m : Int)) (hmn : m + 1 < n)
    (h : (∃ site, iteration ops n gamma st = .done site st1) ∨
      ∃ nb, iteration ops n gamma st = .next st1 nb) :
    st1 = rereduce ops n m
      { swapStep m st with H := removeCorner ops n m (swapStep m st).H } := by
  rcases iteration_at_pivot ops n gamma st m hm hmn with ⟨s, hs⟩ | ⟨nb, hs⟩
  · rcases h with ⟨s1, h1⟩ | ⟨nb1, h1⟩
    · rw [hs] at h1
      cases h1
      rfl
    · rw [hs] at h1
      cases h1
  · rcases h with ⟨s1, h1⟩ | ⟨nb1, h1⟩
    · rw [hs] at h1
      cases h1
    · rw [hs] at h1
      cases h1
      rfl

/-- The re-reduction changes `Hx` and `A` only in the rows `m < r ≤ n - 2`. -/
theorem rereduce_frame (ops : RealOps R) (n m : Nat) (st : State R) (r : Nat)
    (hr : ¬ (m < r ∧ r + 1 < n)) :
    (∀ k, (rereduce ops n m st).H r k = st.H r k) ∧
      ∀ k, (rereduce ops n m st).A r k = st.A r k := by
  unfold rereduce
  apply forUp_induction (fun t : State R => (∀ k, t.H r k = st.H r k) ∧
    ∀ k, t.A r k = st.A r k)
  · exact ⟨fun _ => rfl, fun _ => rfl⟩
  · intro i t hi1 hi2 ht
    apply forDown_induction (fun t : State R => (∀ k, t.H r k = st.H r k) ∧
      ∀ k, t.A r k = st.A r k)
    · exact ht
    · intro j u hj ⟨hu1, hu2⟩
      obtain ⟨hH, -, hA, -, -⟩ := rereduceStep_entries ops n i j u (by omega)
      have hri : ¬ r = i := by omega
      constructor
      · intro k
        rw [hH r k]
        unfold rowOp
        rw [if_neg (fun h => hri h.1)]
        exact hu1 k
      · intro k
        rw [hA r k]
        unfold rowOp
        rw [if_neg (fun h => hri h.1)]
        exact hu2 k

/-- The re-reduction at `(i, j)` leaves `Hx(i, k)` unchanged for every `k ≥ j`: the
loop of lines 307-309 runs over `k < j`. -/
theorem rereduceStep_H_frame (ops : RealOps R) (n i j : Nat) (st : State R) (hij : i ≠ j)
    (r k : Nat) (hk : r ≠ i ∨ j ≤ k) :
    (rereduceStep ops n i j st).H r k = st.H r k := by
  obtain ⟨hH, -⟩ := rereduceStep_entries ops n i j st hij
  rw [hH r k]
  unfold rowOp
  rw [if_neg (by omega)]

/-- An iteration with pivot `m < n - 2` leaves the last row of `Hx` unchanged. -/
theorem iteration_last_row (ops : RealOps R) (n : Nat) (gamma : R) (st st1 : State R)
    (m : Nat) (hm : (pivot st.H n gamma).m = (m : Int)) (hmn : m + 2 < n)
    (h : (∃ site, iteration ops n gamma st = .done site st1) ∨
      ∃ nb, iteration ops n gamma st = .next st1 nb) (k : Nat) :
    st1.H (n - 1) k = st.H (n - 1) k := by
  rw [iteration_state_at_pivot ops n gamma st st1 m hm (by omega) h,
    (rereduce_frame ops n m _ (n - 1) (by omega)).1 k]
  show removeCorner ops n m (swapRows st.H m) (n - 1) k = st.H (n - 1) k
  rw [removeCorner_last_row]
  unfold swapRows
  rw [if_neg (by omega), if_neg (by omega)]

/-! ## A worked iteration with `n = 3` -/

/-- The pivot of the example `Hx = [[6, 0], [3, 4], [1, 1]]` with `γ = 6/5` is `m = 0`:
`γ·6 = 7.2` against `γ²·4 = 5.76`. -/
theorem example_pivot :
    (pivot (exampleState (6 : R) 3 4 1 1).H 3 (6 / 5)).m = ((0 : Nat) : Int) := by
  show (pivot (lower3 (6 : R) 3 4 1 1) 3 (6 / 5)).m = ((0 : Nat) : Int)
  unfold pivot
  simp only [forUp, lower3]
  norm_num

theorem example_sqrt (ops : RealOps R) (hs : SqrtExact ops) :
    ops.sqrt ((3 : R) * 3 + 4 * 4) = 5 :=
  hs.eq_of_sq (by norm_num) (by norm_num)

/-- The example after the swap at `m = 0`: rows `(3, 4)`, `(6, 0)`, `(1, 1)`. -/
theorem example_swap_entries :
    (swapStep 0 (exampleState (6 : R) 3 4 1 1)).H 0 0 = 3 ∧
      (swapStep 0 (exampleState (6 : R) 3 4 1 1)).H 0 1 = 4 ∧
      (swapStep 0 (exampleState (6 : R) 3 4 1 1)).H 1 0 = 6 ∧
      (swapStep 0 (exampleState (6 : R) 3 4 1 1)).H 1 1 = 0 ∧
      (swapStep 0 (exampleState (6 : R) 3 4 1 1)).H 2 0 = 1 ∧
      (swapStep 0 (exampleState (6 : R) 3 4 1 1)).H 2 1 = 1 := by
  simp [swapStep, swapRows, exampleState, lower3]

/-- The example after corner removal: rows `(5, 0)`, `(18/5, -24/5)`, and the last row
still `(1, 1)`. -/
theorem example_corner_entries (ops : RealOps R) (hs : SqrtExact ops) :
    removeCorner ops 3 0 (swapStep 0 (exampleState (6 : R) 3 4 1 1)).H 0 0 = 5 ∧
      removeCorner ops 3 0 (swapStep 0 (exampleState (6 : R) 3 4 1 1)).H 0 1 = 0 ∧
      removeCorner ops 3 0 (swapStep 0 (exampleState (6 : R) 3 4 1 1)).H 1 0 = 18 / 5 ∧
      removeCorner ops 3 0 (swapStep 0 (exampleState (6 : R) 3 4 1 1)).H 1 1 = -(24 / 5) ∧
      removeCorner ops 3 0 (swapStep 0 (exampleState (6 : R) 3 4 1 1)).H 2 0 = 1 ∧
      removeCorner ops 3 0 (swapStep 0 (exampleState (6 : R) 3 4 1 1)).H 2 1 = 1 := by
  obtain ⟨h00, h01, h10, h11, h20, h21⟩ := example_swap_entries (R := R)
  have h5 := example_sqrt ops hs
  refine ⟨?_, ?_, ?_, ?_, ?_, ?_⟩ <;> rw [removeCorner_entry] <;>
    simp only [h00, h01, h10, h11, h20, h21, h5] <;> norm_num

/-- The re-reduction of the example is the single step at `(i, j) = (1, 0)`. -/
theorem example_rereduce (ops : RealOps R) (st : State R) :
    rereduce ops 3 0 st = rereduceStep ops 3 1 0 st := rfl

/-- The state the example iteration ends in. -/
theorem example_iteration (ops : RealOps R) :
    (∃ site, iteration ops 3 (6 / 5) (exampleState (6 : R) 3 4 1 1) = .done site
        (rereduceStep ops 3 1 0
          { swapStep 0 (exampleState (6 : R) 3 4 1 1) with
            H := removeCorner ops 3 0 (swapStep 0 (exampleState (6 : R) 3 4 1 1)).H })) ∨
      ∃ nb, iteration ops 3 (6 / 5) (exampleState (6 : R) 3 4 1 1) = .next
        (rereduceStep ops 3 1 0
          { swapStep 0 (exampleState (6 : R) 3 4 1 1) with
            H := removeCorner ops 3 0 (swapStep 0 (exampleState (6 : R) 3 4 1 1)).H }) nb :=
  iteration_at_pivot ops 3 (6 / 5) (exampleState (6 : R) 3 4 1 1) 0 example_pivot
    (by decide)

/-- Entries of `Hx` and row `0` of `A` in the state the example iteration ends in. -/
theorem example_final (ops : RealOps R) (hs : SqrtExact ops) :
    (rereduceStep ops 3 1 0
        { swapStep 0 (exampleState (6 : R) 3 4 1 1) with
          H := removeCorner ops 3 0 (swapStep 0 (exampleState (6 : R) 3 4 1 1)).H }).H 0 0 = 5 ∧
    (rereduceStep ops 3 1 0
        { swapStep 0 (exampleState (6 : R) 3 4 1 1) with
          H := removeCorner ops 3 0 (swapStep 0 (exampleState (6 : R) 3 4 1 1)).H }).H 1 0 =
      18 / 5 ∧
    (rereduceStep ops 3 1 0
        { swapStep 0 (exampleState (6 : R) 3 4 1 1) with
          H := removeCorner ops 3 0 (swapStep 0 (exampleState (6 : R) 3 4 1 1)).H }).H 2 0 = 1 ∧
    (rereduceStep ops 3 1 0
        { swapStep 0 (exampleState (6 : R) 3 4 1 1) with
          H := removeCorner ops 3 0 (swapStep 0 (exampleState (6 : R) 3 4 1 1)).H }).H 2 1 = 1 ∧
    ∀ k, (rereduceStep ops 3 1 0
        { swapStep 0 (exampleState (6 : R) 3 4 1 1) with
          H := removeCorner ops 3 0 (swapStep 0 (exampleState (6 : R) 3 4 1 1)).H }).A 0 k =
      identity 1 k := by
  obtain ⟨c00, -, c10, -, c20, c21⟩ := example_corner_entries ops hs
  refine ⟨?_, ?_, ?_, ?_, ?_⟩
  · rw [rereduceStep_H_frame ops 3 1 0 _ (by decide) 0 0 (Or.inr le_rfl)]
    exact c00
  · rw [rereduceStep_H_frame ops 3 1 0 _ (by decide) 1 0 (Or.inr le_rfl)]
    exact c10
  · rw [rereduceStep_H_frame ops 3 1 0 _ (by decide) 2 0 (Or.inr le_rfl)]
    exact c20
  · rw [rereduceStep_H_frame ops 3 1 0 _ (by decide) 2 1 (Or.inr (Nat.zero_le 1))]
    exact c21
  · intro k
    obtain ⟨-, -, hA, -, -⟩ := rereduceStep_entries ops 3 1 0
      { swapStep 0 (exampleState (6 : R) 3 4 1 1) with
        H := removeCorner ops 3 0 (swapStep 0 (exampleState (6 : R) 3 4 1 1)).H } (by decide)
    rw [hA 0 k]
    unfold rowOp
    rw [if_neg (by omega)]
    show swapRows identity 0 0 k = identity 1 k
    unfold swapRows
    rw [if_pos rfl]

/-! ## Corner removal and re-reduction against their descriptions -/

/-- C29: the loop of lines 283-289 runs over `m ≤ i < n - 1`.  Corner removal rotates the
rows `m ≤ i ≤ n - 2` as described, and never changes the last row `i = n - 1`; an
iteration with pivot `m < n - 2` ends with the last row of `Hx` as it was.  On the real
numbers, for `Hx = [[6, 0], [3, 4], [1, 1]]`, `n = 3`, `γ = 6/5`: the pivot is `m = 0`,
after the swap `t1 = 3/5`, `t2 = 4/5`, the rotation of the last row `(1, 1)` would give
`(7/5, 1/5)`, and the iteration ends with the last row still `(1, 1)`. -/
theorem corner_removal_skips_last_row :
    (∀ (ops : RealOps R) (n m : Nat) (H : Nat → Nat → R) (i : Nat),
      m + 2 < n → m ≤ i → i + 1 < n →
      removeCorner ops n m H i m =
          H m m / ops.sqrt (H m m * H m m + H m (m + 1) * H m (m + 1)) * H i m +
            H m (m + 1) / ops.sqrt (H m m * H m m + H m (m + 1) * H m (m + 1)) *
              H i (m + 1) ∧
        removeCorner ops n m H i (m + 1) =
          -(H m (m + 1) / ops.sqrt (H m m * H m m + H m (m + 1) * H m (m + 1))) * H i m +
            H m m / ops.sqrt (H m m * H m m + H m (m + 1) * H m (m + 1)) * H i (m + 1)) ∧
    (∀ (ops : RealOps R) (n m : Nat) (H : Nat → Nat → R) (k : Nat),
      removeCorner ops n m H (n - 1) k = H (n - 1) k) ∧
    (∀ (ops : RealOps R) (n : Nat) (gamma : R) (st st1 : State R) (m : Nat),
      (pivot st.H n gamma).m = (m : Int) → m + 2 < n →
      ((∃ site, iteration ops n gamma st = .done site st1) ∨
        ∃ nb, iteration ops n gamma st = .next st1 nb) →
      ∀ k, st1.H (n - 1) k = st.H (n - 1) k) ∧
    ((pivot (exampleState (6 : ℝ) 3 4 1 1).H 3 (6 / 5)).m = 0 ∧
      (swapStep 0 (exampleState (6 : ℝ) 3 4 1 1)).H 0 0 /
          Real.sqrt ((swapStep 0 (exampleState (6 : ℝ) 3 4 1 1)).H 0 0 *
              (swapStep 0 (exampleState (6 : ℝ) 3 4 1 1)).H 0 0 +
            (swapStep 0 (exampleState (6 : ℝ) 3 4 1 1)).H 0 1 *
              (swapStep 0 (exampleState (6 : ℝ) 3 4 1 1)).H 0 1) = 3 / 5 ∧
      (swapStep 0 (exampleState (6 : ℝ) 3 4 1 1)).H 0 1 /
          Real.sqrt ((swapStep 0 (exampleState (6 : ℝ) 3 4 1 1)).H 0 0 *
              (swapStep 0 (exampleState (6 : ℝ) 3 4 1 1)).H 0 0 +
            (swapStep 0 (exampleState (6 : ℝ) 3 4 1 1)).H 0 1 *
              (swapStep 0 (exampleState (6 : ℝ) 3 4 1 1)).H 0 1) = 4 / 5 ∧
      (3 / 5 : ℝ) * (swapStep 0 (exampleState (6 : ℝ) 3 4 1 1)).H 2 0 +
          4 / 5 * (swapStep 0 (exampleState (6 : ℝ) 3 4 1 1)).H 2 1 = 7 / 5 ∧
      -(4 / 5 : ℝ) * (swapStep 0 (exampleState (6 : ℝ) 3 4 1 1)).H 2 0 +
          3 / 5 * (swapStep 0 (exampleState (6 : ℝ) 3 4 1 1)).H 2 1 = -(1 / 5) ∧
      removeCorner (RealOps.ofSqrt Real.sqrt (1 / 2 ^ 52)) 3 0
        (swapStep 0 (exampleState (6 : ℝ) 3 4 1 1)).H 2 0 = 1 ∧
      removeCorner (RealOps.ofSqrt Real.sqrt (1 / 2 ^ 52)) 3 0
        (swapStep 0 (exampleState (6 : ℝ) 3 4 1 1)).H 2 1 = 1 ∧
      ∃ st1 : State ℝ,
        ((∃ site, iteration (RealOps.ofSqrt Real.sqrt (1 / 2 ^ 52)) 3 (6 / 5)
            (exampleState (6 : ℝ) 3 4 1 1) = .done site st1) ∨
          ∃ nb, iteration (RealOps.ofSqrt Real.sqrt (1 / 2 ^ 52)) 3 (6 / 5)
            (exampleState (6 : ℝ) 3 4 1 1) = .next st1 nb) ∧
        st1.H 2 0 = 1 ∧ st1.H 2 1 = 1) := by
  refine ⟨?_, ?_, ?_, ?_⟩
  · intro ops n m H i hm hi1 hi2
    have hrow : m + 2 < n ∧ m ≤ i ∧ i + 1 < n := ⟨hm, hi1, hi2⟩
    constructor
    · rw [removeCorner_entry, if_pos hrow, if_pos rfl]
    · rw [removeCorner_entry, if_pos hrow, if_neg (Nat.succ_ne_self m), if_pos rfl]
  · intro ops n m H k
    exact removeCorner_last_row ops n m H k
  · intro ops n gamma st st1 m hm hmn h k
    exact iteration_last_row ops n gamma st st1 m hm hmn h k
  · have hs := sqrtExact_real (1 / 2 ^ 52)
    obtain ⟨h00, h01, -, -, h20, h21⟩ := example_swap_entries (R := ℝ)
    obtain ⟨-, -, -, -, c20, c21⟩ :=
      example_corner_entries (RealOps.ofSqrt Real.sqrt (1 / 2 ^ 52)) hs
    obtain ⟨-, -, f20, f21, -⟩ := example_final (RealOps.ofSqrt Real.sqrt (1 / 2 ^ 52)) hs
    have h5 : Real.sqrt ((3 : ℝ) * 3 + 4 * 4) = 5 :=
      example_sqrt (RealOps.ofSqrt Real.sqrt (1 / 2 ^ 52)) hs
    refine ⟨example_pivot, ?_, ?_, ?_, ?_, c20, c21, _,
      example_iteration (RealOps.ofSqrt Real.sqrt (1 / 2 ^ 52)), f20, f21⟩
    · rw [h00, h01, h5]
    · rw [h00, h01, h5]
    · rw [h20, h21]
      norm_num
    · rw [h20, h21]
      norm_num

/-- C30: the loop of lines 307-309 runs over `k < j`, where the Reducer (lines 210-212)
runs over `k ≤ j`.  The update of the re-reduction at `(i, j)` changes `Hx(i,k)` for
`k < j` only and leaves `Hx(i,j)` as it was, where the Reducer makes it
`Hx(i,j) - q·Hx(j,j)`.  On the real numbers, for `Hx = [[5, 0], [18/5, -24/5], [1, 1]]` at
`(i, j) = (1, 0)`: `t = round(18/25) = 1 ≠ 0`, the re-reduction leaves `Hx(1,0) = 18/5`,
which is more than `|Hx(0,0)|/2 = 5/2`, and the update of the Reducer gives `-7/5`; this
is the state of the iteration of `Hx = [[6, 0], [3, 4], [1, 1]]` with `γ = 6/5`, which
ends with `Hx(0,0) = 5` and `Hx(1,0) = 18/5`. -/
theorem rereduction_leaves_entry_unreduced :
    (∀ (ops : RealOps R) (n i j : Nat) (st : State R), j < i →
      ∀ r k, (rereduceStep ops n i j st).H r k =
        if r = i ∧ k < j then st.H i k - ops.round (st.H i j / st.H j j) * st.H j k
        else st.H r k) ∧
    (∀ (ops : RealOps R) (n i j : Nat) (st : State R), j < i →
      (rereduceStep ops n i j st).H i j = st.H i j) ∧
    (∀ (ops : RealOps R) (n i j : Nat) (st : State R), j < i →
      (reduceStep ops n i j st).H i j =
        st.H i j - ops.round (st.H i j / st.H j j) * st.H j j) ∧
    ((RealOps.ofSqrt Real.sqrt (1 / 2 ^ 52)).round
        ((exampleState (5 : ℝ) (18 / 5) (-(24 / 5)) 1 1).H 1 0 /
          (exampleState (5 : ℝ) (18 / 5) (-(24 / 5)) 1 1).H 0 0) = 1 ∧
      (rereduceStep (RealOps.ofSqrt Real.sqrt (1 / 2 ^ 52)) 3 1 0
        (exampleState (5 : ℝ) (18 / 5) (-(24 / 5)) 1 1)).H 1 0 = 18 / 5 ∧
      (rereduceStep (RealOps.ofSqrt Real.sqrt (1 / 2 ^ 52)) 3 1 0
        (exampleState (5 : ℝ) (18 / 5) (-(24 / 5)) 1 1)).H 0 0 = 5 ∧
      ¬ |(rereduceStep (RealOps.ofSqrt Real.sqrt (1 / 2 ^ 52)) 3 1 0
            (exampleState (5 : ℝ) (18 / 5) (-(24 / 5)) 1 1)).H 1 0| ≤
          |(rereduceStep (RealOps.ofSqrt Real.sqrt (1 / 2 ^ 52)) 3 1 0
            (exampleState (5 : ℝ) (18 / 5) (-(24 / 5)) 1 1)).H 0 0| / 2 ∧
      (reduceStep (RealOps.ofSqrt Real.sqrt (1 / 2 ^ 52)) 3 1 0
        (exampleState (5 : ℝ) (18 / 5) (-(24 / 5)) 1 1)).H 1 0 = -(7 / 5) ∧
      ∃ st1 : State ℝ,
        ((∃ site, iteration (RealOps.ofSqrt Real.sqrt (1 / 2 ^ 52)) 3 (6 / 5)
            (exampleState (6 : ℝ) 3 4 1 1) = .done site st1) ∨
          ∃ nb, iteration (RealOps.ofSqrt Real.sqrt (1 / 2 ^ 52)) 3 (6 / 5)
            (exampleState (6 : ℝ) 3 4 1 1) = .next st1 nb) ∧
        st1.H 0 0 = 5 ∧ st1.H 1 0 = 18 / 5 ∧ ¬ |st1.H 1 0| ≤ |st1.H 0 0| / 2) := by
  have hstep : ∀ (ops : RealOps R) (n i j : Nat) (st : State R), j < i →
      (rereduceStep ops n i j st).H i j = st.H i j := by
    intro ops n i j st hj
    exact rereduceStep_H_frame ops n i j st (by omega) i j (Or.inr le_rfl)
  refine ⟨?_, hstep, ?_, ?_⟩
  · intro ops n i j st hj r k
    obtain ⟨hH, -⟩ := rereduceStep_entries ops n i j st (by omega)
    rw [hH r k]
    rfl
  · intro ops n i j st hj
    obtain ⟨hH, -⟩ := reduceStep_entries ops n i j st (by omega)
    rw [hH i j]
    unfold rowOp
    rw [if_pos ⟨rfl, Nat.lt_succ_self j⟩]
  · have hs := sqrtExact_real (1 / 2 ^ 52)
    have e10 : (exampleState (5 : ℝ) (18 / 5) (-(24 / 5)) 1 1).H 1 0 = 18 / 5 := by
      simp [exampleState, lower3]
    have e00 : (exampleState (5 : ℝ) (18 / 5) (-(24 / 5)) 1 1).H 0 0 = 5 := by
      simp [exampleState, lower3]
    have hround : (RealOps.ofSqrt Real.sqrt (1 / 2 ^ 52)).round
        ((exampleState (5 : ℝ) (18 / 5) (-(24 / 5)) 1 1).H 1 0 /
          (exampleState (5 : ℝ) (18 / 5) (-(24 / 5)) 1 1).H 0 0) = 1 := by
      rw [e10, e00]
      show cRound ((18 / 5 : ℝ) / 5) = 1
      unfold cRound
      rw [if_pos (by norm_num)]
      have : ⌊(18 / 5 : ℝ) / 5 + 1 / 2⌋ = 1 := by
        rw [Int.floor_eq_iff]
        constructor <;> norm_num
      rw [this]
      norm_num
    have r10 : (rereduceStep (RealOps.ofSqrt Real.sqrt (1 / 2 ^ 52)) 3 1 0
        (exampleState (5 : ℝ) (18 / 5) (-(24 / 5)) 1 1)).H 1 0 = 18 / 5 := by
      rw [rereduceStep_H_frame _ 3 1 0 _ (by decide) 1 0 (Or.inr le_rfl)]
      exact e10
    have r00 : (rereduceStep (RealOps.ofSqrt Real.sqrt (1 / 2 ^ 52)) 3 1 0
        (exampleState (5 : ℝ) (18 / 5) (-(24 / 5)) 1 1)).H 0 0 = 5 := by
      rw [rereduceStep_H_frame _ 3 1 0 _ (by decide) 0 0 (Or.inr le_rfl)]
      exact e00
    obtain ⟨f00, f10, -, -, -⟩ := example_final (RealOps.ofSqrt Real.sqrt (1 / 2 ^ 52)) hs
    refine ⟨hround, r10, r00, ?_, ?_, _,
      example_iteration (RealOps.ofSqrt Real.sqrt (1 / 2 ^ 52)), f00, f10, ?_⟩
    · rw [r10, r00]
      norm_num [abs_of_pos]
    · obtain ⟨hH, -⟩ := reduceStep_entries (RealOps.ofSqrt Real.sqrt (1 / 2 ^ 52)) 3 1 0
        (exampleState (5 : ℝ) (18 / 5) (-(24 / 5)) 1 1) (by decide)
      rw [hH 1 0]
      unfold rowOp
      rw [if_pos ⟨rfl, by decide⟩, hround, e10, e00]
      norm_num
    · rw [f00, f10]
      norm_num [abs_of_pos]

/-! ## `A·H₀ = Hx` through an iteration -/

/-- An iteration with pivot `m = n - 2` is the swap alone. -/
theorem iteration_state_last_pivot (ops : RealOps R) (n : Nat) (st : State R) (m : Nat)
    (hm : m + 2 = n) :
    rereduce ops n m { swapStep m st with H := removeCorner ops n m (swapStep m st).H } =
      swapStep m st := by
  have h1 : removeCorner ops n m (swapStep m st).H = (swapStep m st).H := by
    unfold removeCorner
    rw [if_neg (by omega)]
  rw [h1]
  unfold rereduce
  have h2 : n - 1 - (m + 1) = 0 := by omega
  rw [h2]
  rfl

theorem tau_in_range (ops : RealOps R) (hs : SqrtExact ops) (gamma : R)
    (hg : 2 / ops.sqrt 3 < gamma) : ¬ (tauOf ops gamma ≤ 1 ∨ tauOf ops gamma ≥ 2) := by
  have ht := tau_bounds hs hg
  unfold tauOf
  rintro (h1 | h1)
  · exact absurd ht.1 (not_lt.mpr h1)
  · exact absurd ht.2 (not_lt.mpr h1)

/-- The value the Validator returns on a sorted input once `γ` and `τ` have passed. -/
theorem validate_of_gamma (ops : RealOps R) (hs : SqrtExact ops) (x : List R) (gamma : R)
    (h : isSorted x = true) (hg : 2 / ops.sqrt 3 < gamma) :
    validate ops x gamma =
      if x.length < 2 then .ok (some .tooFewValues) else .ok (checkElements ops x) := by
  rw [validate_sorted ops hs.pos x gamma h, if_neg (not_le.mpr hg),
    if_neg (tau_in_range ops hs gamma hg)]

/-- Every message of the Validator other than the three of the element loop, the size,
the order and `γ` is never returned. -/
theorem validate_diag_cases (ops : RealOps R) (hs : SqrtExact ops) (x : List R) (gamma : R)
    (d : Diag) (h : validate ops x gamma = .ok (some d)) :
    d = .unsorted ∨ d = .gammaTooSmall ∨ d = .tooFewValues ∨
      checkElements ops x = some d := by
  cases hsrt : isSorted x with
  | false =>
    rw [validate_unsorted ops x gamma hsrt] at h
    cases h
    exact Or.inl rfl
  | true =>
    by_cases hg : gamma ≤ 2 / ops.sqrt 3
    · rw [validate_sorted ops hs.pos x gamma hsrt, if_pos hg] at h
      cases h
      exact Or.inr (Or.inl rfl)
    · rw [validate_of_gamma ops hs x gamma hsrt (not_le.mp hg)] at h
      by_cases hn : x.length < 2
      · rw [if_pos hn] at h
        cases h
        exact Or.inr (Or.inr (Or.inl rfl))
      · rw [if_neg hn] at h
        exact Or.inr (Or.inr (Or.inr (Except.ok.inj h)))

theorem checkElements_ne_negative (ops : RealOps R) (h0 : 0 ≤ ops.sqrt ops.epsilon)
    (x : List R) : checkElements ops x ≠ some .negativeElement := by
  induction x with
  | nil =>
    intro h
    cases h
  | cons t rest ih =>
    unfold checkElements
    by_cases h1 : t = 0
    · rw [if_pos h1]
      intro h
      cases h
    · rw [if_neg h1]
      by_cases h2 : t < ops.sqrt ops.epsilon
      · rw [if_pos h2]
        intro h
        cases h
      · rw [if_neg h2, if_neg (fun h3 : t < 0 => h2 (lt_of_lt_of_le h3 h0))]
        exact ih

/-- C36: with an exact square root, every `γ > 2/sqrt(3)` has `1 < τ < 2` for
`τ = 1/sqrt(1/4 + 1/γ²)`; so the Validator never returns through the message
"τ ∈ (1, 2) is required", and no call of `pslq` returns through it. -/
theorem tau_check_redundant (ops : RealOps R) (hs : SqrtExact ops) :
    (∀ gamma, 2 / ops.sqrt 3 < gamma → 1 < tauOf ops gamma ∧ tauOf ops gamma < 2) ∧
    (∀ x gamma, validate ops x gamma ≠ .ok (some .tauOutOfRange)) ∧
    (∀ fuel cin x gamma o, pslq ops fuel cin x gamma = some o →
      o.site ≠ .diag .tauOutOfRange) := by
  have hval : ∀ x gamma, validate ops x gamma ≠ .ok (some .tauOutOfRange) := by
    intro x gamma h
    rcases validate_diag_cases ops hs x gamma _ h with h1 | h1 | h1 | h1
    · cases h1
    · cases h1
    · cases h1
    · rcases checkElements_diag ops x _ h1 with h2 | h2 | h2 <;> cases h2
  refine ⟨fun gamma hg => tau_bounds hs hg, hval, ?_⟩
  intro fuel cin x gamma o h
  rcases pslq_site_cases ops fuel cin x gamma o h with ⟨f, -, h1⟩ | ⟨d, h1, h2⟩ |
    ⟨-, ⟨h1, -⟩ | h1 | h1 | h1 | h1 | ⟨k, h1⟩ | h1⟩
  · rw [h1]; simp
  · rw [h2]
    intro h3
    have h4 : d = .tauOutOfRange := by injection h3
    rw [h4] at h1
    exact hval x gamma h1
  all_goals rw [h1]; simp

/-- Witness of C36 on the real numbers at the default `γ = 2/sqrt(3) + 0.01`. -/
theorem tau_check_redundant_witness :
    1 < tauOf (RealOps.ofSqrt Real.sqrt (1 / 2 ^ 52))
        (defaultGamma (RealOps.ofSqrt Real.sqrt (1 / 2 ^ 52))) ∧
      tauOf (RealOps.ofSqrt Real.sqrt (1 / 2 ^ 52))
        (defaultGamma (RealOps.ofSqrt Real.sqrt (1 / 2 ^ 52))) < 2 :=
  (tau_check_redundant (RealOps.ofSqrt Real.sqrt (1 / 2 ^ 52)) (sqrtExact_real _)).1 _
    (defaultGamma_gt _)

/-- C37: with an exact square root and `ε > 0`, every element `t < 0` satisfies the
preceding test `t < sqrt(ε)`; so the element loop never returns through the message about
negative values, and neither does the Validator nor any call of `pslq`. -/
theorem negative_branch_dead (ops : RealOps R) (hs : SqrtExact ops)
    (heps : 0 < ops.epsilon) :
    (∀ t : R, t < 0 → t < ops.sqrt ops.epsilon) ∧
    (∀ x, checkElements ops x ≠ some .negativeElement) ∧
    (∀ x gamma, validate ops x gamma ≠ .ok (some .negativeElement)) ∧
    (∀ fuel cin x gamma o, pslq ops fuel cin x gamma = some o →
      o.site ≠ .diag .negativeElement) := by
  have h0 : 0 < ops.sqrt ops.epsilon := hs.pos _ heps
  have hval : ∀ x gamma, validate ops x gamma ≠ .ok (some .negativeElement) := by
    intro x gamma h
    rcases validate_diag_cases ops hs x gamma _ h with h1 | h1 | h1 | h1
    · cases h1
    · cases h1
    · cases h1
    · exact checkElements_ne_negative ops h0.le x h1
  refine ⟨fun t ht => lt_trans ht h0, checkElements_ne_negative ops h0.le, hval, ?_⟩
  intro fuel cin x gamma o h
  rcases pslq_site_cases ops fuel cin x gamma o h with ⟨f, -, h1⟩ | ⟨d, h1, h2⟩ |
    ⟨-, ⟨h1, -⟩ | h1 | h1 | h1 | h1 | ⟨k, h1⟩ | h1⟩
  · rw [h1]; simp
  · rw [h2]
    intro h3
    have h4 : d = .negativeElement := by injection h3
    rw [h4] at h1
    exact hval x gamma h1
  all_goals rw [h1]; simp

/-- Witness of C37 on the real numbers with `ε = 2^-52`: the input `[-1, 2]` is reported
as too small, not as negative. -/
theorem negative_branch_dead_witness :
    checkElements (RealOps.ofSqrt Real.sqrt (1 / 2 ^ 52)) [-1, 2] ≠
      some .negativeElement :=
  (negative_branch_dead (RealOps.ofSqrt Real.sqrt (1 / 2 ^ 52)) (sqrtExact_real _)
    (show (0 : ℝ) < 1 / 2 ^ 52 by norm_num)).2.1 _

/-! ## The Decomposer against its formulas -/

/-- C32: for every `0 ≤ i ≤ n-1` and `0 ≤ j ≤ n-2` the matrix `Hx` of lines 152-169,
the last row included, has `Hx(i,j) = 0` for `i < j`, `Hx(i,i) = sqrt(s[i+1]/s[i])`, and
`Hx(i,j) = -x_i·x_j/sqrt(s[j]·s[j+1])` for `i > j`, with `s` the vector `s_sq`. -/
theorem decomposer_matches_formula (ops : RealOps R) (x : List R) (xback : R) (i j : Nat)
    (hi : i < x.length) (hj : j + 1 < x.length) :
    decomposerH ops x xback i j =
      if i < j then 0
      else if i = j then ops.sqrt (decomposerS x xback (i + 1) / decomposerS x xback i)
      else -inputVec x i * inputVec x j /
        ops.sqrt (decomposerS x xback j * decomposerS x xback (j + 1)) := by
  unfold decomposerH
  rw [buildH_entry, if_pos ⟨hi, by omega⟩]
  rfl

/-- Witness of C32 on the real numbers at `x = [3, 4]`: the last row,
`Hx(1,0) = -x_1·x_0/sqrt(s[0]·s[1])`. -/
theorem decomposer_matches_formula_witness :
    decomposerH (RealOps.ofSqrt Real.sqrt (1 / 2 ^ 52)) ([3, 4] : List ℝ) 4 1 0 =
      -inputVec ([3, 4] : List ℝ) 1 * inputVec ([3, 4] : List ℝ) 0 /
        Real.sqrt (decomposerS ([3, 4] : List ℝ) 4 0 * decomposerS ([3, 4] : List ℝ) 4 (0 + 1)) :=
  decomposer_matches_formula (RealOps.ofSqrt Real.sqrt (1 / 2 ^ 52)) [3, 4] 4 1 0
    (by decide) (by decide)

/-! ## The loop condition and the norm bound -/

theorem maxCoeff_attained (H : Nat → Nat → R) (n : Nat) (hn : 2 ≤ n) :
    ∃ i, i < n - 1 ∧ maxCoeff H n = |H i i| := by
  have key : ∀ c : Nat,
      forUp 0 c (fun i mc => if |H i i| > mc then |H i i| else mc) 0 = 0 ∨
        ∃ i, i < c ∧ forUp 0 c (fun i mc => if |H i i| > mc then |H i i| else mc) 0 =
          |H i i| := by
    intro c
    induction c with
    | zero => exact Or.inl rfl
    | succ c ih =>
      rw [forUp, Nat.zero_add]
      split_ifs with h1
      · exact Or.inr ⟨c, by omega, rfl⟩
      · rcases ih with h | ⟨i, hi, h⟩
        · exact Or.inl h
        · exact Or.inr ⟨i, by omega, h⟩
  rcases key (n - 1) with h | ⟨i, hi, h⟩
  · refine ⟨0, by omega, ?_⟩
    have h1 := maxCoeff_ge H n 0 (by omega)
    have h2 : maxCoeff H n = 0 := h
    rw [h2] at h1 ⊢
    exact le_antisymm (abs_nonneg _) h1
  · exact ⟨i, hi, h⟩

theorem findSmall_first (ops : RealOps R) (y : Nat → R) (n k : Nat)
    (h : findSmall ops y n = some k) : ∀ i, i < k → ops.sqrt ops.epsilon ≤ |y i| := by
  induction n with
  | zero =>
    unfold findSmall at h
    simp at h
  | succ n ih =>
    cases h1 : findSmall ops y n with
    | some k1 =>
      have h2 : findSmall ops y (n + 1) = some k1 := by
        unfold findSmall at h1 ⊢
        rw [List.range_succ, List.find?_append, h1]
        rfl
      rw [h2] at h
      cases h
      exact ih h1
    | none =>
      have h3 := (findSmall_some ops y (n + 1) k h).1
      have h4 := findSmall_none ops y n h1
      intro i hi
      exact h4 i (by omega)

/-- C31: the ceiling is `10e10 = 10¹¹`; `norm_bound` is `1/max_coeff`, where `max_coeff`
is the largest `|Hx(i,i)|`, `0 ≤ i ≤ n-2`, both for the value computed before the loop and
for the value an iteration ends with; with `norm_bound` not below the ceiling the loop is
left (the return after the loop), and with `norm_bound` below it the next iteration runs;
an iteration that got past the pivot guards returns at the first index `k` with
`|y_k| < sqrt(ε)` if there is one, and otherwise runs to its end. -/
theorem main_loop_runs_while_below_ceiling (ops : RealOps R) (n : Nat) (gamma : R) :
    (maxAcceptableNormBound : R) = 10 * 10 ^ 10 ∧
    (maxAcceptableNormBound : R) = 10 ^ 11 ∧
    (∀ H : Nat → Nat → R, normBound H n = 1 / maxCoeff H n ∧
      (∀ i, i < n - 1 → |H i i| ≤ maxCoeff H n) ∧
      (2 ≤ n → ∃ i, i < n - 1 ∧ maxCoeff H n = |H i i|)) ∧
    (∀ (x : List R) (xback : R) (st : State R) (nb : R), x.length = n →
      prepare ops x xback = .inr (st, nb) → nb = normBound st.H n) ∧
    (∀ (st st1 : State R) (nb1 : R), iteration ops n gamma st = .next st1 nb1 →
      nb1 = normBound st1.H n) ∧
    (∀ fuel cin (st : State R) (nb : R), ¬ nb < maxAcceptableNormBound →
      mainLoop ops n gamma fuel cin st nb = some (.ceiling, st)) ∧
    (∀ fuel cin (st : State R) (nb : R), nb < maxAcceptableNormBound →
      mainLoop ops n gamma (fuel + 1) cin st nb =
        match iteration ops n gamma st with
        | .done site st1 => some (site, st1)
        | .next st1 nb1 => mainLoop ops n gamma fuel cin.tail st1 nb1) ∧
    (∀ (st : State R) (m : Nat), (pivot st.H n gamma).m = (m : Int) → m + 1 < n →
      ((∃ i, i < n ∧ |(rereduce ops n m
            { swapStep m st with H := removeCorner ops n m (swapStep m st).H }).y i| <
          ops.sqrt ops.epsilon) →
        ∃ k, iteration ops n gamma st = .done (.found k)
            (rereduce ops n m
              { swapStep m st with H := removeCorner ops n m (swapStep m st).H }) ∧
          k < n ∧
          |(rereduce ops n m
            { swapStep m st with H := removeCorner ops n m (swapStep m st).H }).y k| <
            ops.sqrt ops.epsilon ∧
          ∀ i, i < k → ¬ |(rereduce ops n m
            { swapStep m st with H := removeCorner ops n m (swapStep m st).H }).y i| <
            ops.sqrt ops.epsilon) ∧
      ((∀ i, i < n → ¬ |(rereduce ops n m
            { swapStep m st with H := removeCorner ops n m (swapStep m st).H }).y i| <
          ops.sqrt ops.epsilon) →
        iteration ops n gamma st = .next
          (rereduce ops n m
            { swapStep m st with H := removeCorner ops n m (swapStep m st).H })
          (normBound (rereduce ops n m
            { swapStep m st with H := removeCorner ops n m (swapStep m st).H }).H n))) := by
  refine ⟨?_, ?_, ?_, ?_, ?_, ?_, ?_, ?_⟩
  · unfold maxAcceptableNormBound
    norm_num
  · unfold maxAcceptableNormBound
    norm_num
  · intro H
    exact ⟨rfl, fun i hi => maxCoeff_ge H n i hi, fun hn => maxCoeff_attained H n hn⟩
  · intro x xback st nb hn hp
    rw [← hn]
    exact (prepare_inr ops x xback st nb hp).2
  · intro st st1 nb1 h
    exact (iteration_next_bound ops n gamma st st1 nb1 h).1
  · intro fuel cin st nb h
    exact mainLoop_exit ops n gamma fuel cin st nb h
  · intro fuel cin st nb h
    exact mainLoop_succ ops n gamma fuel cin st nb h
  · intro st m hm hmn
    have hsome : ∀ k, findSmall ops (rereduce ops n m
          { swapStep m st with H := removeCorner ops n m (swapStep m st).H }).y n = some k →
        iteration ops n gamma st = .done (.found k) (rereduce ops n m
            { swapStep m st with H := removeCorner ops n m (swapStep m st).H }) := by
      intro k hf
      unfold iteration
      simp only [hm]
      rw [if_neg (by omega), if_neg (by omega)]
      simp only [Int.toNat_ofNat, hf]
    have hnone : findSmall ops (rereduce ops n m
          { swapStep m st with H := removeCorner ops n m (swapStep m st).H }).y n = none →
        iteration ops n gamma st = .next (rereduce ops n m
            { swapStep m st with H := removeCorner ops n m (swapStep m st).H })
            (normBound (rereduce ops n m
              { swapStep m st with H := removeCorner ops n m (swapStep m st).H }).H n) := by
      intro hf
      unfold iteration
      simp only [hm]
      rw [if_neg (by omega), if_neg (by omega)]
      simp only [Int.toNat_ofNat, hf]
    constructor
    · rintro ⟨i, hi, hyi⟩
      cases hf : findSmall ops (rereduce ops n m
          { swapStep m st with H := removeCorner ops n m (swapStep m st).H }).y n with
      | none =>
        exact absurd hyi (not_lt.mpr (findSmall_none ops _ n hf i hi))
      | some k =>
        obtain ⟨h1, h2⟩ := findSmall_some ops _ n k hf
        exact ⟨k, hsome k hf, h1, h2, fun i hi => not_lt.mpr (findSmall_first ops _ n k hf i hi)⟩
    · intro hall
      cases hf : findSmall ops (rereduce ops n m
          { swapStep m st with H := removeCorner ops n m (swapStep m st).H }).y n with
      | none =>
        exact hnone hf
      | some k =>
        obtain ⟨h1, h2⟩ := findSmall_some ops _ n k hf
        exact absurd h2 (hall k h1)

/-! ## The norm bound the loop starts from -/

theorem sorted_last_two (x : List R) (h : isSorted x = true) (hn : 2 ≤ x.length) :
    inputVec x (x.length - 2) ≤ inputVec x (x.length - 1) := by
  by_contra hlt
  have hf : isSorted x = false := by
    rw [isSorted_eq_false_iff]
    refine ⟨x.length - 2, by omega, ?_⟩
    have h1 : x.length - 2 + 1 = x.length - 1 := by omega
    rw [h1]
    exact not_le.mp hlt
  rw [hf] at h
  cases h

/-- The diagonal of the Decomposer's `Hx` lies in `(0, 1)`. -/
theorem decomposerH_diag_range (ops : RealOps R) (hs : SqrtExact ops) (x : List R)
    (xback : R) (hpos : ∀ t ∈ x, 0 < t) (hl : x.getLast? = some xback) (i : Nat)
    (hi : i + 1 < x.length) :
    decomposerH ops x xback i i =
        ops.sqrt (decomposerS x xback (i + 1) / decomposerS x xback i) ∧
      0 < decomposerH ops x xback i i ∧ decomposerH ops x xback i i < 1 := by
  have hH : decomposerH ops x xback i i =
      ops.sqrt (decomposerS x xback (i + 1) / decomposerS x xback i) := by
    unfold decomposerH
    rw [buildH_entry, if_pos ⟨by omega, by omega⟩]
    unfold specH
    rw [if_neg (lt_irrefl i), if_pos rfl]
  refine ⟨hH, ?_⟩
  rw [hH, decomposerS_eq x xback hl]
  have h1 := specS_pos (inputVec x) x.length (i + 1) hi (inputVec_pos x hpos)
  have h2 := specS_succ (inputVec x) x.length i (by omega)
  have h3 := inputVec_pos x hpos i (by omega)
  have h4 : 0 < specS (inputVec x) x.length i := by nlinarith [mul_pos h3 h3]
  have hr0 : 0 < specS (inputVec x) x.length (i + 1) / specS (inputVec x) x.length i :=
    div_pos h1 h4
  have hr1 : specS (inputVec x) x.length (i + 1) / specS (inputVec x) x.length i < 1 := by
    rw [div_lt_one h4]
    nlinarith [mul_pos h3 h3]
  obtain ⟨hq0, hq1⟩ := hs _ hr0.le
  refine ⟨hs.pos _ hr0, ?_⟩
  by_contra hge
  have hge1 := not_lt.mp hge
  nlinarith

/-- For an ascending positive input the last diagonal entry of the Decomposer's `Hx` is at
least `1/sqrt(2)`. -/
theorem decomposerH_last_diag (ops : RealOps R) (hs : SqrtExact ops) (x : List R)
    (xback : R) (hpos : ∀ t ∈ x, 0 < t) (hl : x.getLast? = some xback)
    (hsrt : isSorted x = true) (hn : 2 ≤ x.length) :
    1 / ops.sqrt 2 ≤ decomposerH ops x xback (x.length - 2) (x.length - 2) := by
  obtain ⟨hH, hpos1, -⟩ := decomposerH_diag_range ops hs x xback hpos hl (x.length - 2)
    (by omega)
  have hidx : x.length - 2 + 1 = x.length - 1 := by omega
  obtain ⟨a, ha⟩ : ∃ a, a = inputVec x (x.length - 2) := ⟨_, rfl⟩
  obtain ⟨b, hb⟩ : ∃ b, b = inputVec x (x.length - 1) := ⟨_, rfl⟩
  have hs1 : decomposerS x xback (x.length - 2 + 1) = b * b := by
    rw [decomposerS_eq x xback hl, hidx, specS_succ _ _ _ (by omega),
      specS_of_le _ _ _ (by omega), zero_add, hb]
  have hs2 : decomposerS x xback (x.length - 2) = b * b + a * a := by
    rw [decomposerS_eq x xback hl, specS_succ _ _ _ (by omega), hidx,
      specS_succ _ _ _ (by omega), specS_of_le _ _ _ (by omega), zero_add, ha, hb]
  have ha0 : 0 < a := by rw [ha]; exact inputVec_pos x hpos _ (by omega)
  have hb0 : 0 < b := by rw [hb]; exact inputVec_pos x hpos _ (by omega)
  have hab : a ≤ b := by rw [ha, hb]; exact sorted_last_two x hsrt hn
  obtain ⟨d, hd⟩ : ∃ d, d = decomposerH ops x xback (x.length - 2) (x.length - 2) :=
    ⟨_, rfl⟩
  rw [← hd] at hH hpos1 ⊢
  rw [hs1, hs2] at hH
  have hsum : 0 < b * b + a * a := by positivity
  obtain ⟨-, hq⟩ := hs (b * b / (b * b + a * a)) (by positivity)
  rw [← hH] at hq
  have hhalf : 1 / 2 ≤ d * d := by
    rw [hq, le_div_iff₀ hsum]
    nlinarith
  obtain ⟨ht0, ht1⟩ := hs 2 (by norm_num)
  have ht : 0 < ops.sqrt 2 := hs.pos 2 (by norm_num)
  rw [div_le_iff₀ ht]
  by_contra hlt
  have hlt1 := not_le.mp hlt
  have h5 : 0 ≤ d * ops.sqrt 2 := by positivity
  have h6 : d * ops.sqrt 2 * (d * ops.sqrt 2) < 1 := by nlinarith
  have h7 : d * ops.sqrt 2 * (d * ops.sqrt 2) = d * d * (ops.sqrt 2 * ops.sqrt 2) := by
    ring
  rw [h7, ht1] at h6
  linarith

/-- C35: with an exact square root and `ε ≥ 0`, for every input that passes the
Validator, the matrix `Hx` handed to the loop has every diagonal entry
`Hx(i,i) = sqrt(s[i+1]/s[i])` in `(0, 1)` and `Hx(n-2,n-2) ≥ 1/sqrt(2)`; the initial
`norm_bound` lies in `(1, sqrt(2)]`, is below the ceiling, the first pass of the loop body
is executed, and the call does not return without executing it. -/
theorem initial_norm_bound_range (ops : RealOps R) (hs : SqrtExact ops)
    (heps : 0 ≤ ops.epsilon) (x : List R) (gamma : R)
    (hv : validate ops x gamma = .ok none) :
    ∃ xback st nb, x.getLast? = some xback ∧ prepare ops x xback = .inr (st, nb) ∧
      (∀ i, i + 1 < x.length →
        st.H i i = ops.sqrt (decomposerS x xback (i + 1) / decomposerS x xback i) ∧
          0 < st.H i i ∧ st.H i i < 1) ∧
      1 / ops.sqrt 2 ≤ st.H (x.length - 2) (x.length - 2) ∧
      1 < nb ∧ nb ≤ ops.sqrt 2 ∧ nb < maxAcceptableNormBound ∧
      (∀ fuel cin, mainLoop ops x.length gamma (fuel + 1) cin st nb =
        match iteration ops x.length gamma st with
        | .done site st1 => some (site, st1)
        | .next st1 nb1 => mainLoop ops x.length gamma fuel cin.tail st1 nb1) ∧
      ∀ cin, pslq ops 0 cin x gamma = none := by
  obtain ⟨hsrt, -, -, hn, hel⟩ := (validate_none_iff ops hs.pos x gamma).mp hv
  have hpos : ∀ t ∈ x, 0 < t := fun t ht => (hel t ht).1
  have he := sqrt_eps_nonneg ops hs heps
  obtain ⟨xback, hl⟩ : ∃ xback, x.getLast? = some xback := by
    cases x with
    | nil => simp at hn
    | cons a rest => exact ⟨_, List.getLast?_eq_getLast _ (by simp)⟩
  have hprep := prepare_ok ops hs he x xback hn hpos hl
  obtain ⟨st, hst⟩ : ∃ st, st = reducer ops x.length
      (initState (decomposerH ops x xback) (decomposerY ops x xback)) := ⟨_, rfl⟩
  rw [← hst] at hprep
  have hdiag : ∀ i, st.H i i = decomposerH ops x xback i i := by
    intro i
    rw [hst, reducer_H_frame ops x.length _ i i le_rfl]
    rfl
  have hrange : ∀ i, i + 1 < x.length →
      st.H i i = ops.sqrt (decomposerS x xback (i + 1) / decomposerS x xback i) ∧
        0 < st.H i i ∧ st.H i i < 1 := by
    intro i hi
    rw [hdiag i]
    exact decomposerH_diag_range ops hs x xback hpos hl i hi
  have hlast : 1 / ops.sqrt 2 ≤ st.H (x.length - 2) (x.length - 2) := by
    rw [hdiag]
    exact decomposerH_last_diag ops hs x xback hpos hl hsrt hn
  obtain ⟨ht0, ht1⟩ := hs 2 (by norm_num)
  have ht : 0 < ops.sqrt 2 := hs.pos 2 (by norm_num)
  obtain ⟨i0, hi0, hmax⟩ := maxCoeff_attained st.H x.length hn
  obtain ⟨-, hp0, hp1⟩ := hrange i0 (by omega)
  rw [abs_of_pos hp0] at hmax
  have hge := maxCoeff_ge st.H x.length (x.length - 2) (by omega)
  have hlast0 : 0 < st.H (x.length - 2) (x.length - 2) := (hrange _ (by omega)).2.1
  rw [abs_of_pos hlast0] at hge
  have hM0 : 0 < maxCoeff st.H x.length := by rw [hmax]; exact hp0
  have hM1 : maxCoeff st.H x.length < 1 := by rw [hmax]; exact hp1
  have hMs : 1 / ops.sqrt 2 ≤ maxCoeff st.H x.length := le_trans hlast hge
  have hnb1 : 1 < normBound st.H x.length := by
    unfold normBound
    rw [lt_div_iff₀ hM0]
    linarith
  have hnb2 : normBound st.H x.length ≤ ops.sqrt 2 := by
    unfold normBound
    rw [div_le_iff₀ hM0]
    rw [div_le_iff₀ ht] at hMs
    linarith
  have hs2 : ops.sqrt 2 < 2 := by
    by_contra h
    have := not_lt.mp h
    nlinarith
  have hnb3 : normBound st.H x.length < maxAcceptableNormBound := by
    unfold maxAcceptableNormBound
    linarith
  refine ⟨xback, st, normBound st.H x.length, hl, hprep, hrange, hlast, hnb1, hnb2, hnb3,
    ?_, ?_⟩
  · intro fuel cin
    exact mainLoop_succ ops x.length gamma fuel cin st _ hnb3
  · intro cin
    rw [pslq_of_prepare ops 0 cin x gamma xback st _ hv hl hprep, mainLoop, if_pos hnb3]
    rfl

/-- Witness of C35 on the real numbers at `x = [3, 4]` with the default `γ`. -/
theorem initial_norm_bound_range_witness :
    ∃ st nb, prepare (RealOps.ofSqrt Real.sqrt (1 / 2 ^ 52)) ([3, 4] : List ℝ) 4 =
        .inr (st, nb) ∧ 1 < nb ∧ nb ≤ Real.sqrt 2 := by
  have hv : validate (RealOps.ofSqrt Real.sqrt (1 / 2 ^ 52)) [3, 4]
      (defaultGamma (RealOps.ofSqrt Real.sqrt (1 / 2 ^ 52))) = .ok none := by
    apply validate_default_two _ (sqrtExact_real _) 3 4 (by norm_num) (by norm_num)
    show Real.sqrt (1 / 2 ^ 52) ≤ 3
    rw [Real.sqrt_le_iff]; norm_num
  obtain ⟨xback, st, nb, h1, h2, -, -, h3, h4, -⟩ := initial_norm_bound_range
    (RealOps.ofSqrt Real.sqrt (1 / 2 ^ 52)) (sqrtExact_real _)
    (show (0 : ℝ) ≤ 1 / 2 ^ 52 by norm_num) [3, 4] _ hv
  have hx : xback = 4 := by
    simp at h1
    exact h1.symm
  rw [hx] at h2
  exact ⟨st, nb, h2, h3, h4⟩

/-! ## The loop on two elements -/

theorem swapRows_swapRows {T : Type} (M : Nat → Nat → T) (m : Nat) :
    swapRows (swapRows M m) m = M := by
  funext r c
  unfold swapRows
  by_cases h1 : r = m
  · rw [if_pos h1, if_neg (Nat.succ_ne_self m), if_pos rfl, h1]
  · rw [if_neg h1]
    by_cases h2 : r = m + 1
    · rw [if_pos h2, if_pos rfl, h2]
    · rw [if_neg h2, if_neg h1, if_neg h2]

theorem swapCols_swapCols {T : Type} (M : Nat → Nat → T) (m : Nat) :
    swapCols (swapCols M m) m = M := by
  funext r c
  unfold swapCols
  by_cases h1 : c = m
  · rw [if_pos h1, if_neg (Nat.succ_ne_self m), if_pos rfl, h1]
  · rw [if_neg h1]
    by_cases h2 : c = m + 1
    · rw [if_pos h2, if_pos rfl, h2]
    · rw [if_neg h2, if_neg h1, if_neg h2]

theorem swapV_swapV {T : Type} (y : Nat → T) (m : Nat) : swapV (swapV y m) m = y := by
  funext k
  unfold swapV
  by_cases h1 : k = m
  · rw [if_pos h1, if_neg (Nat.succ_ne_self m), if_pos rfl, h1]
  · rw [if_neg h1]
    by_cases h2 : k = m + 1
    · rw [if_pos h2, if_pos rfl, h2]
    · rw [if_neg h2, if_neg h1, if_neg h2]

/-- Two swaps at the same index restore the state. -/
theorem swapStep_swapStep {T : Type} (m : Nat) (st : State T) :
    swapStep m (swapStep m st) = st := by
  cases st with
  | mk H D A B y =>
    unfold swapStep
    simp only [swapRows_swapRows, swapCols_swapCols, swapV_swapV]

/-- An iteration that runs to its end had a pivot `m ≤ n - 2`. -/
theorem iteration_next_pivot (ops : RealOps R) (n : Nat) (gamma : R) (st st1 : State R)
    (nb1 : R) (h : iteration ops n gamma st = .next st1 nb1) :
    ∃ m : Nat, (pivot st.H n gamma).m = (m : Int) ∧ m + 1 < n ∧
      st1 = rereduce ops n m
        { swapStep m st with H := removeCorner ops n m (swapStep m st).H } := by
  rcases pivot_cases st.H n gamma with ⟨hm, -⟩ | ⟨m, hm, hmn, -⟩
  · exfalso
    unfold iteration at h
    simp only [hm] at h
    by_cases hn : (-1 : Int) = (n : Int) - 1
    · rw [if_pos hn] at h
      cases h
    · rw [if_neg hn, if_pos (by decide)] at h
      cases h
  · exact ⟨m, hm, by omega,
      iteration_state_at_pivot ops n gamma st st1 m hm (by omega) (Or.inr ⟨nb1, h⟩)⟩

/-- For `n = 2` an iteration that runs to its end is the swap at `m = 0`. -/
theorem iteration_two_next (ops : RealOps R) (gamma : R) (st st1 : State R) (nb1 : R)
    (h : iteration ops 2 gamma st = .next st1 nb1) : st1 = swapStep 0 st := by
  obtain ⟨m, -, hmn, hst⟩ := iteration_next_pivot ops 2 gamma st st1 nb1 h
  have hm0 : m = 0 := by omega
  rw [hm0] at hst
  rw [hst]
  exact iteration_state_last_pivot ops 2 st 0 rfl

/-- For `n = 2`: when two passes of the loop have run to their end and a third is due,
the loop runs on whatever the fuel. -/
theorem mainLoop_two_periodic (ops : RealOps R) (gamma : R) (cin : List Char)
    (st : State R) (nb : R) (h : mainLoop ops 2 gamma 2 cin st nb = none) :
    ∀ fuel cin1, mainLoop ops 2 gamma fuel cin1 st nb = none := by
  have hnb : nb < maxAcceptableNormBound := by
    by_contra hc
    rw [mainLoop_exit ops 2 gamma 2 cin st nb hc] at h
    cases h
  rw [mainLoop_succ ops 2 gamma 1 cin st nb hnb] at h
  cases hit : iteration ops 2 gamma st with
  | done s1 st1 =>
    rw [hit] at h
    cases h
  | next st1 nb1 =>
    rw [hit] at h
    simp only [] at h
    have hnb1 : nb1 < maxAcceptableNormBound := by
      by_contra hc
      rw [mainLoop_exit ops 2 gamma 1 _ st1 nb1 hc] at h
      cases h
    rw [mainLoop_succ ops 2 gamma 0 _ st1 nb1 hnb1] at h
    cases hit1 : iteration ops 2 gamma st1 with
    | done s2 st2 =>
      rw [hit1] at h
      cases h
    | next st2 nb2 =>
      rw [hit1] at h
      simp only [] at h
      have hnb2 : nb2 < maxAcceptableNormBound := by
        by_contra hc
        rw [mainLoop_exit ops 2 gamma 0 _ st2 nb2 hc] at h
        cases h
      have hst2 : st2 = st := by
        rw [iteration_two_next ops gamma st1 st2 nb2 hit1,
          iteration_two_next ops gamma st st1 nb1 hit]
        exact swapStep_swapStep 0 st
      rw [hst2] at hit1
      have key : ∀ fuel : Nat, ∀ cin1 : List Char,
          mainLoop ops 2 gamma fuel cin1 st nb2 = none ∧
            mainLoop ops 2 gamma fuel cin1 st1 nb1 = none := by
        intro fuel
        induction fuel with
        | zero =>
          intro cin1
          constructor
          · rw [mainLoop, if_pos hnb2]
          · rw [mainLoop, if_pos hnb1]
        | succ fuel ih =>
          intro cin1
          constructor
          · rw [mainLoop_succ ops 2 gamma fuel cin1 st nb2 hnb2, hit]
            exact (ih _).2
          · rw [mainLoop_succ ops 2 gamma fuel cin1 st1 nb1 hnb1, hit1]
            exact (ih _).1
      intro fuel cin1
      cases fuel with
      | zero => rw [mainLoop, if_pos hnb]
      | succ fuel =>
        rw [mainLoop_succ ops 2 gamma fuel cin1 st nb hnb, hit]
        exact (key fuel _).2

/-- What a call that has not returned within its fuel was doing: it was in the loop. -/
theorem pslq_none (ops : RealOps R) (fuel : Nat) (cin : List Char) (x : List R) (gamma : R)
    (h : pslq ops fuel cin x gamma = none) :
    ∃ xback st nb, validate ops x gamma = .ok none ∧ x.getLast? = some xback ∧
      prepare ops x xback = .inr (st, nb) ∧
      mainLoop ops x.length gamma fuel cin st nb = none := by
  unfold pslq at h
  split at h
  · cases h
  · cases h
  · rename_i hv
    split at h
    · cases h
    · rename_i xback hl
      split at h
      · cases h
      · rename_i st nb hp
        exact ⟨xback, st, nb, hv, hl, hp, Option.map_eq_none'.mp h⟩

/-- C34: for `n = 2` an iteration that runs to its end is the swap at `m = 0` and nothing
else: the rows of `Hx` and of `A`, the columns of `B` and `y[0]`, `y[1]` are exchanged
(`D` is untouched); two such iterations in a row restore the state; so when two passes of
the loop have run to their end without a return, the loop never returns, and a call of
`pslq` on a 2-element input that has not returned within two passes never returns. -/
theorem two_element_loop_only_swaps (ops : RealOps R) (gamma : R) :
    (∀ (st st1 : State R) (nb1 : R), iteration ops 2 gamma st = .next st1 nb1 →
      st1 = swapStep 0 st ∧ st1.H = swapRows st.H 0 ∧ st1.A = swapRows st.A 0 ∧
        st1.B = swapCols st.B 0 ∧ st1.y = swapV st.y 0 ∧ st1.D = st.D) ∧
    (∀ st : State R, swapStep 0 (swapStep 0 st) = st) ∧
    (∀ (st st1 st2 : State R) (nb1 nb2 : R), iteration ops 2 gamma st = .next st1 nb1 →
      iteration ops 2 gamma st1 = .next st2 nb2 → st2 = st) ∧
    (∀ cin (st : State R) (nb : R), mainLoop ops 2 gamma 2 cin st nb = none →
      ∀ fuel cin1, mainLoop ops 2 gamma fuel cin1 st nb = none) ∧
    (∀ cin (x : List R), x.length = 2 → pslq ops 2 cin x gamma = none →
      ∀ fuel cin1, pslq ops fuel cin1 x gamma = none) := by
  refine ⟨?_, fun st => swapStep_swapStep 0 st, ?_,
    fun cin st nb h => mainLoop_two_periodic ops gamma cin st nb h, ?_⟩
  · intro st st1 nb1 h
    have h1 := iteration_two_next ops gamma st st1 nb1 h
    rw [h1]
    exact ⟨rfl, rfl, rfl, rfl, rfl, rfl⟩
  · intro st st1 st2 nb1 nb2 h1 h2
    rw [iteration_two_next ops gamma st1 st2 nb2 h2,
      iteration_two_next ops gamma st st1 nb1 h1]
    exact swapStep_swapStep 0 st
  · intro cin x hx h fuel cin1
    obtain ⟨xback, st, nb, hv, hl, hp, hml⟩ := pslq_none ops 2 cin x gamma h
    rw [hx] at hml
    rw [pslq_of_prepare ops fuel cin1 x gamma xback st nb hv hl hp, hx,
      mainLoop_two_periodic ops gamma cin st nb hml fuel cin1]
    rfl

/-- Witness of C34 on the real numbers: the call on `x = [3, 4]` with the default `γ` has
not returned within two passes, so it has not returned within seven. -/
theorem two_element_loop_only_swaps_witness :
    pslq (RealOps.ofSqrt Real.sqrt (1 / 2 ^ 52)) 7 []
      [3, 4] (defaultGamma (RealOps.ofSqrt Real.sqrt (1 / 2 ^ 52))) = none :=
  (two_element_loop_only_swaps (RealOps.ofSqrt Real.sqrt (1 / 2 ^ 52))
    (defaultGamma (RealOps.ofSqrt Real.sqrt (1 / 2 ^ 52)))).2.2.2.2 [] [3, 4] rfl
    (run_three_four 2 []) 7 []

/-! ## The divisions of the Reducer -/

theorem forUp_rel {σ τ : Type} (Rel : σ → τ → Prop) (lo c : Nat) (f : Nat → σ → σ)
    (g : Nat → τ → τ) (s : σ) (t : τ) (h0 : Rel s t)
    (hstep : ∀ i s t, lo ≤ i → i < lo + c → Rel s t → Rel (f i s) (g i t)) :
    Rel (forUp lo c f s) (forUp lo c g t) := by
  induction c with
  | zero => exact h0
  | succ c ih =>
    rw [forUp, forUp]
    apply hstep (lo + c) _ _ (by omega) (by omega)
    exact ih (fun i s t h1 h2 => hstep i s t h1 (by omega))

theorem forDown_rel {σ τ : Type} (Rel : σ → τ → Prop) (c : Nat) (f : Nat → σ → σ)
    (g : Nat → τ → τ) :
    ∀ (s : σ) (t : τ), Rel s t → (∀ i s t, i < c → Rel s t → Rel (f i s) (g i t)) →
      Rel (forDown c f s) (forDown c g t) := by
  induction c with
  | zero => intro s t h0 _; exact h0
  | succ c ih =>
    intro s t h0 hstep
    rw [forDown, forDown]
    apply ih
    · exact hstep c s t (by omega) h0
    · intro i s t hi h
      exact hstep i s t (by omega) h

/-- With a diagonal free of zeros no division of the Reducer is by zero: the checked
Reducer ends, in the state of `reducer`. -/
theorem reducerChecked_ok (ops : RealOps R) (n : Nat) (st0 : State R)
    (hdiag : ∀ k, k + 1 < n → st0.H k k ≠ 0) :
    reducerChecked ops n st0 = .ok (reducer ops n st0) := by
  have key : reducerChecked ops n st0 = .ok (reducer ops n st0) ∧
      ∀ k, (reducer ops n st0).H k k = st0.H k k := by
    unfold reducerChecked reducer
    apply forUp_rel (fun (s : Except Fault (State R)) (t : State R) =>
      s = .ok t ∧ ∀ k, t.H k k = st0.H k k)
    · exact ⟨rfl, fun _ => rfl⟩
    · intro i s t hi1 hi2 hst
      apply forDown_rel (fun (s : Except Fault (State R)) (t : State R) =>
        s = .ok t ∧ ∀ k, t.H k k = st0.H k k)
      · exact hst
      · intro j s t hj ⟨hs1, hs2⟩
        have hne : t.H j j ≠ 0 := by
          rw [hs2 j]
          exact hdiag j (by omega)
        constructor
        · rw [hs1]
          show reduceStepChecked ops n i j t = .ok (reduceStep ops n i j t)
          unfold reduceStepChecked checkedDiv
          rw [if_neg hne]
        · intro k
          rw [reduceStep_H_frame ops n i j t k k (by omega)]
          exact hs2 k
  exact key.1

/-- C38: the Reducer never changes an entry of `Hx` on or above the diagonal.  With an
exact square root and `ε ≥ 0`, for every input that passes the Validator, the matrix `Hx`
handed to the loop has `Hx(j,j) = sqrt(s[j+1]/s[j]) > 0` for every `j ≤ n-2` and is
lower-trapezoidal; the Reducer with every division by `Hx(j,j)` checked ends in that state
without an undefined division, and the division `1/max_coeff` is by a positive number. -/
theorem reducer_keeps_diagonal (ops : RealOps R) (hs : SqrtExact ops)
    (heps : 0 ≤ ops.epsilon) (x : List R) (gamma : R)
    (hv : validate ops x gamma = .ok none) :
    (∀ (n : Nat) (st0 : State R) (r k : Nat), r ≤ k →
      (reducer ops n st0).H r k = st0.H r k) ∧
    ∃ xback st nb, x.getLast? = some xback ∧ prepare ops x xback = .inr (st, nb) ∧
      (∀ j, j + 1 < x.length →
        st.H j j = decomposerH ops x xback j j ∧
        st.H j j = ops.sqrt (decomposerS x xback (j + 1) / decomposerS x xback j) ∧
        0 < st.H j j) ∧
      LowerTrapezoidal st.H ∧
      reducerChecked ops x.length
        (initState (decomposerH ops x xback) (decomposerY ops x xback)) = .ok st ∧
      0 < maxCoeff st.H x.length ∧
      normBoundChecked st.H x.length = .ok nb := by
  refine ⟨fun n st0 r k h => reducer_H_frame ops n st0 r k h, ?_⟩
  obtain ⟨-, -, -, hn, hel⟩ := (validate_none_iff ops hs.pos x gamma).mp hv
  have hpos : ∀ t ∈ x, 0 < t := fun t ht => (hel t ht).1
  have he := sqrt_eps_nonneg ops hs heps
  obtain ⟨xback, hl⟩ : ∃ xback, x.getLast? = some xback := by
    cases x with
    | nil => simp at hn
    | cons a rest => exact ⟨_, List.getLast?_eq_getLast _ (by simp)⟩
  have hprep := prepare_ok ops hs he x xback hn hpos hl
  obtain ⟨st, hst⟩ : ∃ st, st = reducer ops x.length
      (initState (decomposerH ops x xback) (decomposerY ops x xback)) := ⟨_, rfl⟩
  rw [← hst] at hprep
  have hdiag : ∀ j, st.H j j = decomposerH ops x xback j j := by
    intro j
    rw [hst, reducer_H_frame ops x.length _ j j le_rfl]
    rfl
  have hrange : ∀ j, j + 1 < x.length →
      st.H j j = decomposerH ops x xback j j ∧
      st.H j j = ops.sqrt (decomposerS x xback (j + 1) / decomposerS x xback j) ∧
      0 < st.H j j := by
    intro j hj
    obtain ⟨h1, h2, -⟩ := decomposerH_diag_range ops hs x xback hpos hl j hj
    rw [hdiag j]
    exact ⟨rfl, h1, h2⟩
  have hL : LowerTrapezoidal st.H := by
    rw [hst]
    exact (reducer_product ops x.length _ _ (lowerTrapezoidal_buildH ops _ _ _)).1
  have hchk : reducerChecked ops x.length
      (initState (decomposerH ops x xback) (decomposerY ops x xback)) = .ok st := by
    rw [hst]
    apply reducerChecked_ok
    intro k hk
    exact decomposerH_diag_ne ops hs x xback hpos hl k hk
  have hM : 0 < maxCoeff st.H x.length := by
    have h1 := maxCoeff_ge st.H x.length 0 (by omega)
    have h2 := (hrange 0 (by omega)).2.2
    rw [abs_of_pos h2] at h1
    exact lt_of_lt_of_le h2 h1
  refine ⟨xback, st, normBound st.H x.length, hl, hprep, hrange, hL, hchk, hM, ?_⟩
  unfold normBoundChecked checkedDiv normBound
  rw [if_neg hM.ne']

/-- Witness of C38 on the real numbers at `x = [3, 4]` with the default `γ`. -/
theorem reducer_keeps_diagonal_witness :
    ∃ st, reducerChecked (RealOps.ofSqrt Real.sqrt (1 / 2 ^ 52)) 2
        (initState (decomposerH (RealOps.ofSqrt Real.sqrt (1 / 2 ^ 52)) [3, 4] 4)
          (decomposerY (RealOps.ofSqrt Real.sqrt (1 / 2 ^ 52)) [3, 4] 4)) = .ok st ∧
      0 < st.H 0 0 := by
  have hv : validate (RealOps.ofSqrt Real.sqrt (1 / 2 ^ 52)) [3, 4]
      (defaultGamma (RealOps.ofSqrt Real.sqrt (1 / 2 ^ 52))) = .ok none := by
    apply validate_default_two _ (sqrtExact_real _) 3 4 (by norm_num) (by norm_num)
    show Real.sqrt (1 / 2 ^ 52) ≤ 3
    rw [Real.sqrt_le_iff]; norm_num
  obtain ⟨xback, st, nb, h1, -, h3, -, h5, -⟩ := (reducer_keeps_diagonal
    (RealOps.ofSqrt Real.sqrt (1 / 2 ^ 52)) (sqrtExact_real _)
    (show (0 : ℝ) ≤ 1 / 2 ^ 52 by norm_num) [3, 4] _ hv).2
  have hx : xback = 4 := by
    simp at h1
    exact h1.symm
  rw [hx] at h5
  exact ⟨st, h5, (h3 0 (by decide)).2.2⟩

/-! ## Orthogonality through the Reducer -/

theorem chunkMask_eq (w : Nat) (hw : w < 64) : chunkMask w = 2 ^ w - 1 := by
  unfold chunkMask
  have h1 : (2 : Nat) ^ w < 2 ^ 64 := Nat.pow_lt_pow_right (by norm_num) hw
  have h2 : 0 < (2 : Nat) ^ w := Nat.two_pow_pos w
  rw [Nat.shiftLeft_eq, Nat.one_mul, Nat.mod_eq_of_lt h1]
  have h3 : 2 ^ w + 2 ^ 64 - 1 = (2 ^ w - 1) + 2 ^ 64 := by omega
  rw [h3, Nat.add_mod_right, Nat.mod_eq_of_lt (by omega)]

/-- The loop adds `i·2^shift` to `m_data`, given fuel for the chunks of `i`. -/
theorem assignLoop_value (w : Nat) (hw1 : 16 ≤ w) (hw2 : w < 64) :
    ∀ (fuel i shift : Nat) (data : Int), i * 2 ^ shift < 2 ^ 64 → i < 2 ^ (w * fuel) →
      assignLoop w fuel i shift data = some (data + (i : Int) * 2 ^ shift) := by
  have hpw : (128 : Nat) < 2 ^ w :=
    lt_of_lt_of_le (by norm_num : (128 : Nat) < 2 ^ 16) (Nat.pow_le_pow_right (by norm_num) hw1)
  intro fuel
  induction fuel with
  | zero =>
    intro i shift data _ hi
    have hi0 : i = 0 := by
      rw [Nat.mul_zero, pow_zero] at hi
      omega
    rw [assignLoop, if_pos hi0, hi0]
    simp
  | succ fuel ih =>
    intro i shift data hb hi
    by_cases hi0 : i = 0
    · rw [assignLoop, if_pos hi0, hi0]
      simp
    · rw [assignLoop, if_neg hi0]
      simp only []
      have hshift : shift < 64 := by
        by_contra hc
        have h1 : (2 : Nat) ^ 64 ≤ 2 ^ shift := Nat.pow_le_pow_right (by norm_num) (by omega)
        have h2 : 1 ≤ i := Nat.one_le_iff_ne_zero.mpr hi0
        have h3 : 2 ^ shift ≤ i * 2 ^ shift := Nat.le_mul_of_pos_left _ h2
        omega
      have hs1 : (shift + w) % 2 ^ w = shift + w := Nat.mod_eq_of_lt (by omega)
      have hmask : (i &&& chunkMask w) % 2 ^ w = i % 2 ^ w := by
        rw [chunkMask_eq w hw2, Nat.and_pow_two_sub_one_eq_mod, Nat.mod_mod]
      have hdiv : i >>> w = i / 2 ^ w := Nat.shiftRight_eq_div_pow i w
      have hsplit : 2 ^ w * (i / 2 ^ w) + i % 2 ^ w = i := Nat.div_add_mod i (2 ^ w)
      rw [hs1, hmask, hdiv, ih]
      · have ht : (if shift ≠ 0 then ((i % 2 ^ w : Nat) : Int) * 2 ^ shift
            else ((i % 2 ^ w : Nat) : Int)) = ((i % 2 ^ w : Nat) : Int) * 2 ^ shift := by
          by_cases hs0 : shift = 0
          · rw [if_neg (not_not.mpr hs0), hs0, pow_zero, mul_one]
          · rw [if_pos hs0]
        rw [ht]
        have hcast : (i : Int) = 2 ^ w * ((i / 2 ^ w : Nat) : Int) + ((i % 2 ^ w : Nat) : Int) := by
          exact_mod_cast hsplit.symm
        congr 1
        rw [hcast, pow_add]
        push_cast
        ring
      · calc i / 2 ^ w * 2 ^ (shift + w) = (i / 2 ^ w * 2 ^ w) * 2 ^ shift := by
              rw [pow_add]; ring
          _ ≤ i * 2 ^ shift := Nat.mul_le_mul_right _ (Nat.div_mul_le_self i (2 ^ w))
          _ < 2 ^ 64 := hb
      · rw [Nat.div_lt_iff_lt_mul (Nat.two_pow_pos w)]
        have : w * (fuel + 1) = w * fuel + w := by ring
        rw [this, pow_add] at hi
        exact hi

/-- C40: with `digits = std::numeric_limits<unsigned>::digits` between 16 and 63 (it is
32 on the usual platforms) and fuel for `64/digits` passes, the loop of
`operator=(unsigned long long)` ends and leaves the value `i` for every `i < 2^64`, and
`operator=(long long)` leaves the value `i` for every `LLONG_MIN < i ≤ LLONG_MAX`. -/
theorem gmp_int_assignment_preserves_value (w fuel : Nat) (hw1 : 16 ≤ w) (hw2 : w < 64)
    (hf : 64 ≤ w * fuel) :
    (∀ i : Nat, i < 2 ^ 64 → assignUnsignedLongLong w fuel i = some (i : Int)) ∧
    (∀ i : Int, -2 ^ 63 < i → i < 2 ^ 63 → assignLongLong w fuel i = some i) := by
  have hu : ∀ i : Nat, i < 2 ^ 64 → assignUnsignedLongLong w fuel i = some (i : Int) := by
    intro i hi
    unfold assignUnsignedLongLong
    rw [assignLoop_value w hw1 hw2 fuel i 0 0 (by simpa using hi)
      (lt_of_lt_of_le hi (Nat.pow_le_pow_right (by norm_num) hf))]
    simp
  refine ⟨hu, ?_⟩
  intro i h1 h2
  unfold assignLongLong
  have hab : i.natAbs < 2 ^ 63 := by omega
  rw [Nat.mod_eq_of_lt (by omega), hu _ (by omega)]
  simp only [Option.map_some']
  congr 1
  by_cases hneg : i < 0
  · rw [if_pos hneg]
    omega
  · rw [if_neg hneg]
    omega

/-- Witness of C40 with `digits = 32`: the assignments of `ULLONG_MAX` and of
`LLONG_MIN + 1`. -/
theorem gmp_int_assignment_preserves_value_witness :
    assignUnsignedLongLong 32 2 18446744073709551615 = some 18446744073709551615 ∧
      assignLongLong 32 2 (-9223372036854775807) = some (-9223372036854775807) :=
  ⟨(gmp_int_assignment_preserves_value 32 2 (by decide) (by decide) (by decide)).1 _
      (by norm_num),
    (gmp_int_assignment_preserves_value 32 2 (by decide) (by decide) (by decide)).2 _
      (by norm_num) (by norm_num)⟩

/-- Witness of C31 on the real numbers: with `norm_bound = 10¹¹` the loop is left at once,
through the return after the loop. -/
theorem main_loop_runs_while_below_ceiling_witness :
    mainLoop (RealOps.ofSqrt Real.sqrt (1 / 2 ^ 52)) 3 (6 / 5) 5 []
        (exampleState (6 : ℝ) 3 4 1 1) (10 ^ 11) =
      some (.ceiling, exampleState (6 : ℝ) 3 4 1 1) :=
  (main_loop_runs_while_below_ceiling (RealOps.ofSqrt Real.sqrt (1 / 2 ^ 52)) 3
    (6 / 5)).2.2.2.2.2.1 5 [] (exampleState (6 : ℝ) 3 4 1 1) (10 ^ 11)
    (by
      unfold maxAcceptableNormBound
      norm_num)

/-! ## A floating-point `Real`: finite precision, overflow and NaN -/

theorem RealOps.ofSqrt_sqrt (f : ℚ → ℚ) (eps a : ℚ) : (RealOps.ofSqrt f eps).sqrt a = f a := rfl

theorem RealOps.ofSqrt_epsilon (f : ℚ → ℚ) (eps : ℚ) :
    (RealOps.ofSqrt f eps).epsilon = eps := rfl

/-! ## Arithmetic of `Ieee` on given values -/

theorem Ieee.ofRat_finite (q : ℚ) (h1 : q ≤ 2 ^ 1000) (h2 : -2 ^ 1000 ≤ q) :
    Ieee.ofRat q = .finite q := by
  unfold Ieee.ofRat Ieee.maxFinite
  have hb : (2 : ℚ) ^ 1000 ≤ (2 ^ 53 - 1) * 2 ^ 971 := by norm_num
  rw [if_neg (by linarith), if_neg (by linarith)]

theorem Ieee.ofRat_overflow (q : ℚ) (h : (2 : ℚ) ^ 1024 ≤ q) : Ieee.ofRat q = .inf false := by
  unfold Ieee.ofRat Ieee.maxFinite
  have hb : (2 ^ 53 - 1) * 2 ^ 971 < (2 : ℚ) ^ 1024 := by norm_num
  rw [if_pos (by linarith)]

theorem Ieee.ofRat_underflow (q : ℚ) (h : q ≤ -(2 : ℚ) ^ 1024) :
    Ieee.ofRat q = .inf true := by
  unfold Ieee.ofRat Ieee.maxFinite
  have hb : (2 ^ 53 - 1) * 2 ^ 971 < (2 : ℚ) ^ 1024 := by norm_num
  have hp : (0 : ℚ) < 2 ^ 1024 := by positivity
  rw [if_neg (by linarith), if_pos (by linarith)]

theorem Ieee.finite_add (a b : ℚ) : Ieee.finite a + Ieee.finite b = Ieee.ofRat (a + b) := rfl
theorem Ieee.finite_mul (a b : ℚ) : Ieee.finite a * Ieee.finite b = Ieee.ofRat (a * b) := rfl
theorem Ieee.finite_div (a b : ℚ) (hb : b ≠ 0) :
    Ieee.finite a / Ieee.finite b = Ieee.ofRat (a / b) := by
  show (if b = 0 then (if a = 0 then Ieee.nan else Ieee.inf (decide (a < 0)))
    else Ieee.ofRat (a / b)) = _
  rw [if_neg hb]
theorem Ieee.neg_finite (a : ℚ) : -Ieee.finite a = Ieee.finite (-a) := rfl
theorem Ieee.nat_lit (n : Nat) : (OfNat.ofNat n : Ieee) = Ieee.finite (n : ℚ) := rfl
theorem Ieee.zero_eq : (0 : Ieee) = Ieee.finite 0 := by rw [Ieee.nat_lit]; norm_num
theorem Ieee.one_eq : (1 : Ieee) = Ieee.finite 1 := by rw [Ieee.nat_lit]; norm_num

theorem Ieee.nan_add (a : Ieee) : Ieee.nan + a = Ieee.nan := rfl
theorem Ieee.add_nan (a : Ieee) : a + Ieee.nan = Ieee.nan := by cases a <;> rfl
theorem Ieee.nan_sub (a : Ieee) : Ieee.nan - a = Ieee.nan := rfl
theorem Ieee.sub_nan (a : Ieee) : a - Ieee.nan = Ieee.nan := by cases a <;> rfl
theorem Ieee.nan_mul (a : Ieee) : Ieee.nan * a = Ieee.nan := rfl
theorem Ieee.mul_nan (a : Ieee) : a * Ieee.nan = Ieee.nan := by cases a <;> rfl
theorem Ieee.nan_div (a : Ieee) : Ieee.nan / a = Ieee.nan := rfl
theorem Ieee.div_nan (a : Ieee) : a / Ieee.nan = Ieee.nan := by cases a <;> rfl
theorem Ieee.lt_nan (a : Ieee) : Ieee.lt a Ieee.nan = false := by cases a <;> rfl
theorem Ieee.nan_lt (a : Ieee) : Ieee.lt Ieee.nan a = false := rfl
theorem Ieee.nan_eq (a : Ieee) : Ieee.eq Ieee.nan a = false := rfl
theorem Ieee.abs_nan : Ieee.abs Ieee.nan = Ieee.nan := rfl
theorem Ieee.sqrt_nan (ops : RealOps ℚ) : Ieee.sqrt ops Ieee.nan = Ieee.nan := rfl
theorem Ieee.round_nan (ops : RealOps ℚ) : Ieee.round ops Ieee.nan = Ieee.nan := rfl
theorem Ieee.sqrt_finite (ops : RealOps ℚ) (a : ℚ) (h : 0 ≤ a) :
    Ieee.sqrt ops (Ieee.finite a) = Ieee.finite (ops.sqrt a) := by
  show (if a < 0 then Ieee.nan else Ieee.finite (ops.sqrt a)) = _
  rw [if_neg (not_lt.mpr h)]

/-! ## The square root with 52 binary digits on given values -/

theorem sqrtNearest_eq (p : Nat) (q : ℚ) (N t : Nat) (hN : ⌊q * 4 ^ (p + 1)⌋ = (N : Int))
    (ht : t * t ≤ N ∧ N < (t + 1) * (t + 1)) :
    sqrtNearest p q = (((t + 1) / 2 : Nat) : ℚ) / 2 ^ p := by
  unfold sqrtNearest
  rw [hN, Int.toNat_ofNat, ← Nat.eq_sqrt.mpr ht]

theorem sqrtNearest_three :
    sqrtNearest 52 3 = 3900231685776981 / 2251799813685248 := by
  rw [sqrtNearest_eq 52 3 243388915243820045087367015432192 15600926743107924
    (by rw [Int.floor_eq_iff]; norm_num) (by norm_num)]
  norm_num

theorem sqrtNearest_eps : sqrtNearest 52 (1 / 2 ^ 52) = 1 / 67108864 := by
  rw [sqrtNearest_eq 52 (1 / 2 ^ 52) 18014398509481984 134217728
    (by rw [Int.floor_eq_iff]; norm_num) (by norm_num)]
  norm_num

theorem sqrtNearest_half : sqrtNearest 52 (1 / 2) = 1592262918131443 / 2251799813685248 := by
  rw [sqrtNearest_eq 52 (1 / 2) 40564819207303340847894502572032 6369051672525772
    (by rw [Int.floor_eq_iff]; norm_num) (by norm_num)]
  norm_num

theorem sqrtNearest_quarter : sqrtNearest 52 (1 / 4 + 1 / 10 ^ 18) = 1 / 2 := by
  rw [sqrtNearest_eq 52 (1 / 4 + 1 / 10 ^ 18) 20282409603651670505076889700622
    4503599627370496 (by rw [Int.floor_eq_iff]; norm_num) (by norm_num)]
  norm_num

/-! ## The run on `x = [1e200, 2e200]` with `γ = 2` -/

/-- The Validator passes `x = [1e200, 2e200]` with `γ = 2`. -/
theorem overflow_validate :
    validateF (RealOps.ofSqrt (sqrtNearest 52) (1 / 2 ^ 52))
      [Ieee.finite (10 ^ 200), Ieee.finite (2 * 10 ^ 200)] (Ieee.finite 2) = none := by
  have hsorted : isSortedF [Ieee.finite (10 ^ 200), Ieee.finite (2 * 10 ^ 200)] = true := by
    have h : ¬ ((2 : ℚ) * 10 ^ 200 < 10 ^ 200) := by norm_num
    simp only [isSortedF, Ieee.lt, decide_eq_true_eq, if_neg h]
  have hs3 : Ieee.sqrt (RealOps.ofSqrt (sqrtNearest 52) (1 / 2 ^ 52)) 3 =
      Ieee.finite (3900231685776981 / 2251799813685248) := by
    rw [Ieee.nat_lit, Ieee.sqrt_finite _ _ (by norm_num), RealOps.ofSqrt_sqrt,
      show ((3 : Nat) : ℚ) = 3 by norm_num, sqrtNearest_three]
  have hbound : (2 : Ieee) / Ieee.sqrt (RealOps.ofSqrt (sqrtNearest 52) (1 / 2 ^ 52)) 3 =
      Ieee.finite (4503599627370496 / 3900231685776981) := by
    rw [hs3, Ieee.nat_lit, Ieee.finite_div _ _ (by norm_num),
      Ieee.ofRat_finite _ (by norm_num) (by norm_num)]
    norm_num
  have hgamma : Ieee.le (Ieee.finite 2) (Ieee.finite (4503599627370496 / 3900231685776981)) =
      false := by
    have h : ¬ ((2 : ℚ) ≤ 4503599627370496 / 3900231685776981) := by norm_num
    simp only [Ieee.le, decide_eq_false_iff_not]
    exact h
  have htmp : (1 : Ieee) / 4 + 1 / (Ieee.finite 2 * Ieee.finite 2) = Ieee.finite (1 / 2) := by
    rw [Ieee.finite_mul, Ieee.ofRat_finite _ (by norm_num) (by norm_num), Ieee.nat_lit,
      Ieee.nat_lit, Ieee.finite_div _ _ (by norm_num),
      Ieee.ofRat_finite _ (by norm_num) (by norm_num), Ieee.finite_div _ _ (by norm_num),
      Ieee.ofRat_finite _ (by norm_num) (by norm_num), Ieee.finite_add,
      Ieee.ofRat_finite _ (by norm_num) (by norm_num)]
    norm_num
  have htau : (1 : Ieee) / Ieee.sqrt (RealOps.ofSqrt (sqrtNearest 52) (1 / 2 ^ 52))
      (Ieee.finite (1 / 2)) = Ieee.finite (2251799813685248 / 1592262918131443) := by
    rw [Ieee.sqrt_finite _ _ (by norm_num), RealOps.ofSqrt_sqrt, sqrtNearest_half,
      Ieee.nat_lit, Ieee.finite_div _ _ (by norm_num),
      Ieee.ofRat_finite _ (by norm_num) (by norm_num)]
    norm_num
  have htau1 : Ieee.le (Ieee.finite (2251799813685248 / 1592262918131443)) 1 = false := by
    have h : ¬ ((2251799813685248 : ℚ) / 1592262918131443 ≤ 1) := by norm_num
    rw [Ieee.one_eq]
    simp only [Ieee.le, decide_eq_false_iff_not]
    exact h
  have htau2 : Ieee.le 2 (Ieee.finite (2251799813685248 / 1592262918131443)) = false := by
    have h : ¬ ((2 : ℚ) ≤ 2251799813685248 / 1592262918131443) := by norm_num
    rw [Ieee.nat_lit]
    simp only [Ieee.le, decide_eq_false_iff_not, Nat.cast_ofNat]
    exact h
  have hse : Ieee.sqrt (RealOps.ofSqrt (sqrtNearest 52) (1 / 2 ^ 52))
      (Ieee.finite (RealOps.ofSqrt (sqrtNearest 52) (1 / 2 ^ 52)).epsilon) =
      Ieee.finite (1 / 67108864) := by
    rw [RealOps.ofSqrt_epsilon, Ieee.sqrt_finite _ _ (by norm_num), RealOps.ofSqrt_sqrt,
      sqrtNearest_eps]
  have hel : checkElementsF (RealOps.ofSqrt (sqrtNearest 52) (1 / 2 ^ 52))
      [Ieee.finite (10 ^ 200), Ieee.finite (2 * 10 ^ 200)] = none := by
    have h1 : ¬ ((10 : ℚ) ^ 200 = 0) := by norm_num
    have h2 : ¬ ((10 : ℚ) ^ 200 < 1 / 67108864) := by norm_num
    have h3 : ¬ ((10 : ℚ) ^ 200 < 0) := by norm_num
    have h4 : ¬ ((2 : ℚ) * 10 ^ 200 = 0) := by norm_num
    have h5 : ¬ ((2 : ℚ) * 10 ^ 200 < 1 / 67108864) := by norm_num
    have h6 : ¬ ((2 : ℚ) * 10 ^ 200 < 0) := by norm_num
    simp only [checkElementsF, hse, Ieee.zero_eq, Ieee.eq, Ieee.lt, decide_eq_true_eq,
      Nat.cast_zero, if_neg h1, if_neg h2, if_neg h3, if_neg h4, if_neg h5, if_neg h6]
  unfold validateF
  simp only [hsorted, hbound, hgamma, htmp, htau, htau1, htau2, hel]
  rfl

theorem buildHF_two (ops : RealOps ℚ) (xv s : Nat → Ieee) :
    buildHF ops xv s 2 0 0 = Ieee.sqrt ops (s 1 / s 0) ∧
      buildHF ops xv s 2 1 0 = -xv 1 * xv 0 / Ieee.sqrt ops (s 0 * s 1) := by
  constructor <;> simp [buildHF, forUp, setM]

theorem squaredNormF_two (H : Nat → Nat → Ieee) :
    squaredNormF H 2 = 0 + H 0 0 * H 0 0 + H 1 0 * H 1 0 := by
  simp [squaredNormF, forUp]

theorem initYF_two (ops : RealOps ℚ) (xv s : Nat → Ieee) :
    initYF ops xv s 2 0 = xv 0 / Ieee.sqrt ops (s 0) ∧
      initYF ops xv s 2 1 = xv 1 / Ieee.sqrt ops (s 0) := by
  constructor <;> simp [initYF, forUp, setV]

theorem vecMulF_two (y : Nat → Ieee) (H : Nat → Nat → Ieee) (j : Nat) :
    vecMulF y H 2 j = 0 + y 0 * H 0 j + y 1 * H 1 j := by
  simp [vecMulF, forUp]

theorem reducerF_two (ops : RealOps ℚ) (H : Nat → Nat → Ieee) (y : Nat → Ieee)
    (h : Ieee.eq (Ieee.round ops (H 1 0 / H 0 0)) 0 = false) :
    (reducerF ops 2 H y).H 0 0 = H 0 0 := by
  simp [reducerF, forUp, forDown, reduceStepF, h, setM]

theorem maxCoeffF_two (H : Nat → Nat → Ieee) :
    maxCoeffF H 2 = if Ieee.lt 0 (Ieee.abs (H 0 0)) then Ieee.abs (H 0 0) else 0 := by
  simp [maxCoeffF, forUp]

/-- The partial sums of squares of `x = [1e200, 2e200]` overflow. -/
theorem overflow_sSq :
    sSqF (fun i => [Ieee.finite (10 ^ 200), Ieee.finite (2 * 10 ^ 200)].getD i 0) 2
        (Ieee.finite (2 * 10 ^ 200)) 0 = Ieee.inf false ∧
      sSqF (fun i => [Ieee.finite (10 ^ 200), Ieee.finite (2 * 10 ^ 200)].getD i 0) 2
        (Ieee.finite (2 * 10 ^ 200)) 1 = Ieee.inf false := by
  have h1 : Ieee.ofRat (2 * 10 ^ 200 * (2 * 10 ^ 200)) = Ieee.inf false :=
    Ieee.ofRat_overflow _ (by norm_num)
  have h2 : Ieee.ofRat (10 ^ 200 * 10 ^ 200) = Ieee.inf false :=
    Ieee.ofRat_overflow _ (by norm_num)
  simp [sSqF, forDown, setV, Ieee.finite_mul, h1, h2]
  rfl

/-- The matrix `Hx` of `x = [1e200, 2e200]` has NaN in both entries of its column. -/
theorem overflow_H (ops : RealOps ℚ) :
    buildHF ops (fun i => [Ieee.finite (10 ^ 200), Ieee.finite (2 * 10 ^ 200)].getD i 0)
        (sSqF (fun i => [Ieee.finite (10 ^ 200), Ieee.finite (2 * 10 ^ 200)].getD i 0) 2
          (Ieee.finite (2 * 10 ^ 200))) 2 0 0 = Ieee.nan ∧
      buildHF ops (fun i => [Ieee.finite (10 ^ 200), Ieee.finite (2 * 10 ^ 200)].getD i 0)
        (sSqF (fun i => [Ieee.finite (10 ^ 200), Ieee.finite (2 * 10 ^ 200)].getD i 0) 2
          (Ieee.finite (2 * 10 ^ 200))) 2 1 0 = Ieee.nan := by
  have h3 : Ieee.ofRat (-(2 * 10 ^ 200) * 10 ^ 200) = Ieee.inf true :=
    Ieee.ofRat_underflow _ (by norm_num)
  rw [(buildHF_two ops _ _).1, (buildHF_two ops _ _).2, overflow_sSq.1, overflow_sSq.2]
  constructor
  · rfl
  · show -Ieee.finite (2 * 10 ^ 200) * Ieee.finite (10 ^ 200) / _ = _
    rw [Ieee.neg_finite, Ieee.finite_mul, h3]
    rfl

/-! ## The run on a matrix whose column is NaN -/

theorem Ieee.one_div_zero : (1 : Ieee) / Ieee.finite 0 = Ieee.inf false := by
  rw [Ieee.one_eq]
  show (if (0 : ℚ) = 0 then (if (1 : ℚ) = 0 then Ieee.nan else Ieee.inf (decide ((1 : ℚ) < 0)))
    else Ieee.ofRat (1 / 0)) = _
  rw [if_pos rfl, if_neg one_ne_zero]
  simp

theorem Ieee.inf_lt_finite (a : ℚ) : Ieee.lt (Ieee.inf false) (Ieee.finite a) = false := rfl

theorem pslqEntryF_two (ops : RealOps ℚ) (a b gamma : Ieee)
    (hv : validateF ops [a, b] gamma = none)
    (hn : normCheckFailsF ops (buildHF ops (fun i => [a, b].getD i 0)
      (sSqF (fun i => [a, b].getD i 0) 2 b) 2) 2 = false)
    (ho : orthCheckFailsF ops (initYF ops (fun i => [a, b].getD i 0)
        (sSqF (fun i => [a, b].getD i 0) 2 b) 2)
      (buildHF ops (fun i => [a, b].getD i 0) (sSqF (fun i => [a, b].getD i 0) 2 b) 2) 2 = false)
    (hl : Ieee.lt (1 / maxCoeffF (reducerF ops 2
        (buildHF ops (fun i => [a, b].getD i 0) (sSqF (fun i => [a, b].getD i 0) 2 b) 2)
        (initYF ops (fun i => [a, b].getD i 0) (sSqF (fun i => [a, b].getD i 0) 2 b) 2)).H 2)
      (Ieee.finite 100000000000) = false) :
    pslqEntryF ops [a, b] gamma =
      .skipped [(-8, a), (-8, b)]
        (reducerF ops 2
          (buildHF ops (fun i => [a, b].getD i 0) (sSqF (fun i => [a, b].getD i 0) 2 b) 2)
          (initYF ops (fun i => [a, b].getD i 0) (sSqF (fun i => [a, b].getD i 0) 2 b) 2))
        (maxCoeffF (reducerF ops 2
          (buildHF ops (fun i => [a, b].getD i 0) (sSqF (fun i => [a, b].getD i 0) 2 b) 2)
          (initYF ops (fun i => [a, b].getD i 0) (sSqF (fun i => [a, b].getD i 0) 2 b) 2)).H 2)
        (1 / maxCoeffF (reducerF ops 2
          (buildHF ops (fun i => [a, b].getD i 0) (sSqF (fun i => [a, b].getD i 0) 2 b) 2)
          (initYF ops (fun i => [a, b].getD i 0) (sSqF (fun i => [a, b].getD i 0) 2 b) 2)).H
            2) := by
  unfold pslqEntryF
  simp only [hv, List.getLast?_cons_cons, List.getLast?_singleton,
    List.length_cons, List.length_nil, Nat.zero_add, Nat.reduceAdd, hn, ho, hl,
    List.map_cons, List.map_nil, Bool.false_eq_true, if_false]

theorem nan_column_run (ops : RealOps ℚ) (H : Nat → Nat → Ieee) (y : Nat → Ieee)
    (h0 : H 0 0 = Ieee.nan) (h1 : H 1 0 = Ieee.nan) :
    normCheckFailsF ops H 2 = false ∧ orthCheckFailsF ops y H 2 = false ∧
      (reducerF ops 2 H y).H 0 0 = Ieee.nan ∧
      maxCoeffF (reducerF ops 2 H y).H 2 = Ieee.finite 0 := by
  have hq : Ieee.eq (Ieee.round ops (H 1 0 / H 0 0)) 0 = false := by
    rw [h0, h1]
    rfl
  have hR := reducerF_two ops H y hq
  refine ⟨?_, ?_, ?_, ?_⟩
  · unfold normCheckFailsF
    rw [squaredNormF_two, h0, h1, Ieee.mul_nan, Ieee.add_nan, Ieee.nan_div, Ieee.nan_sub,
      Ieee.abs_nan, Ieee.lt_nan]
  · unfold orthCheckFailsF
    rw [show List.range (2 - 1) = [0] from rfl]
    simp only [List.any_cons, List.any_nil, Bool.or_false]
    rw [vecMulF_two, h1, Ieee.mul_nan, Ieee.add_nan, Ieee.abs_nan, Ieee.nan_div, Ieee.lt_nan]
  · rw [hR, h0]
  · rw [maxCoeffF_two, hR, h0, Ieee.abs_nan, Ieee.lt_nan, Ieee.zero_eq]
    rfl

theorem overflow_entry :
    ∃ st, pslqEntryF (RealOps.ofSqrt (sqrtNearest 52) (1 / 2 ^ 52))
        [Ieee.finite (10 ^ 200), Ieee.finite (2 * 10 ^ 200)] (Ieee.finite 2) =
          .skipped [(-8, Ieee.finite (10 ^ 200)), (-8, Ieee.finite (2 * 10 ^ 200))] st
            (Ieee.finite 0) (Ieee.inf false) ∧
      st.H 0 0 = Ieee.nan := by
  have hH := overflow_H (RealOps.ofSqrt (sqrtNearest 52) (1 / 2 ^ 52))
  have hrun := nan_column_run (RealOps.ofSqrt (sqrtNearest 52) (1 / 2 ^ 52)) _
    (initYF (RealOps.ofSqrt (sqrtNearest 52) (1 / 2 ^ 52))
      (fun i => [Ieee.finite (10 ^ 200), Ieee.finite (2 * 10 ^ 200)].getD i 0)
      (sSqF (fun i => [Ieee.finite (10 ^ 200), Ieee.finite (2 * 10 ^ 200)].getD i 0) 2
        (Ieee.finite (2 * 10 ^ 200))) 2) hH.1 hH.2
  refine ⟨_, ?_, hrun.2.2.1⟩
  rw [pslqEntryF_two _ _ _ _ overflow_validate hrun.1 hrun.2.1
    (by rw [hrun.2.2.2, Ieee.one_div_zero, Ieee.inf_lt_finite]), hrun.2.2.2, Ieee.one_div_zero]

/-- A square root that returns `1/2` at `1/4 + 1/γ²` gives `τ = 2`: a `γ` that passed the `γ`
check then fails the `τ` check. -/
theorem validate_tau_rounded (ops : RealOps ℚ) (x : List ℚ) (gamma : ℚ)
    (hsorted : isSorted x = true) (h3 : ops.sqrt 3 ≠ 0) (hgamma : 2 / ops.sqrt 3 < gamma)
    (h0 : gamma * gamma ≠ 0) (hq : ops.sqrt (1 / 4 + 1 / (gamma * gamma)) = 1 / 2) :
    tauOf ops gamma = 2 ∧ validate ops x gamma = .ok (some .tauOutOfRange) ∧
      ∀ fuel cin, pslq ops fuel cin x gamma = some ⟨[], .diag .tauOutOfRange⟩ := by
  have ht : tauOf ops gamma = 2 := by
    unfold tauOf
    rw [hq]
    norm_num
  have hv : validate ops x gamma = .ok (some .tauOutOfRange) := by
    have h4 : ¬ ((1 : ℚ) / 2 = 0) := by norm_num
    have h5 : ((1 : ℚ) / (1 / 2) ≤ 1 ∨ (1 : ℚ) / (1 / 2) ≥ 2) := Or.inr (by norm_num)
    unfold validate
    simp only [hsorted, checkedDiv, if_neg h3, if_neg (not_le.mpr hgamma), if_neg h0, hq,
      if_neg h4, if_pos h5, Bool.true_eq_false, if_false]
  refine ⟨ht, hv, ?_⟩
  intro fuel cin
  unfold pslq
  rw [hv]

theorem sqrt_three_rounded : (RealOps.ofSqrt (sqrtNearest 52) (1 / 2 ^ 52)).sqrt 3 =
    3900231685776981 / 2251799813685248 := by
  rw [RealOps.ofSqrt_sqrt, sqrtNearest_three]

theorem sqrt_quarter_rounded :
    (RealOps.ofSqrt (sqrtNearest 52) (1 / 2 ^ 52)).sqrt (1 / 4 + 1 / (10 ^ 9 * 10 ^ 9)) =
      1 / 2 := by
  have hg : (1 : ℚ) / 4 + 1 / (10 ^ 9 * 10 ^ 9) = 1 / 4 + 1 / 10 ^ 18 := by norm_num
  rw [RealOps.ofSqrt_sqrt, hg, sqrtNearest_quarter]

theorem gamma_check_passed_rounded :
    2 / (RealOps.ofSqrt (sqrtNearest 52) (1 / 2 ^ 52)).sqrt 3 < (10 : ℚ) ^ 9 := by
  rw [sqrt_three_rounded]
  norm_num

/-- C36: with a square root of finite precision the `τ` return is reached after the `γ`
check has passed: for `sqrt` rounded to 52 binary digits and `γ = 10^9`, which is above
`2/sqrt(3)`, `sqrt(1/4 + 1/γ²)` is `1/2`, so `τ = 2`, the Validator returns the message
"τ ∈ (1, 2) is required" on the sorted input `[1, 2]`, and so does every call of `pslq`. -/
theorem tau_return_reached_with_rounded_sqrt :
    isSorted ([1, 2] : List ℚ) = true ∧
      2 / (RealOps.ofSqrt (sqrtNearest 52) (1 / 2 ^ 52)).sqrt 3 < (10 : ℚ) ^ 9 ∧
      tauOf (RealOps.ofSqrt (sqrtNearest 52) (1 / 2 ^ 52)) (10 ^ 9) = 2 ∧
      validate (RealOps.ofSqrt (sqrtNearest 52) (1 / 2 ^ 52)) [1, 2] (10 ^ 9) =
        .ok (some .tauOutOfRange) ∧
      ∀ fuel cin, pslq (RealOps.ofSqrt (sqrtNearest 52) (1 / 2 ^ 52)) fuel cin [1, 2] (10 ^ 9) =
        some ⟨[], .diag .tauOutOfRange⟩ :=
  ⟨by simp [isSorted], gamma_check_passed_rounded,
    validate_tau_rounded _ [1, 2] (10 ^ 9) (by simp [isSorted])
      (by rw [sqrt_three_rounded]; norm_num) gamma_check_passed_rounded (by norm_num)
      sqrt_quarter_rounded⟩

/-- C35: in a `Real` with the range of `double`, the input `x = [1e200, 2e200]` with `γ = 2`
passes the Validator, yet `max_coeff` is `0` and the initial `norm_bound` is `+∞`, which is
not below the ceiling: the call returns the vector of lines 338-342 and the body of the main
loop is never executed. -/
theorem loop_body_skipped_on_overflow :
    validateF (RealOps.ofSqrt (sqrtNearest 52) (1 / 2 ^ 52))
        [Ieee.finite (10 ^ 200), Ieee.finite (2 * 10 ^ 200)] (Ieee.finite 2) = none ∧
      ∃ st, pslqEntryF (RealOps.ofSqrt (sqrtNearest 52) (1 / 2 ^ 52))
          [Ieee.finite (10 ^ 200), Ieee.finite (2 * 10 ^ 200)] (Ieee.finite 2) =
            .skipped [(-8, Ieee.finite (10 ^ 200)), (-8, Ieee.finite (2 * 10 ^ 200))] st
              (Ieee.finite 0) (Ieee.inf false) ∧
        Ieee.lt (Ieee.inf false) (Ieee.finite 100000000000) = false := by
  obtain ⟨st, h, -⟩ := overflow_entry
  exact ⟨overflow_validate, st, h, rfl⟩

/-- C38: in a `Real` with the range of `double`, on the input `x = [1e200, 2e200]` with
`γ = 2`, which passes the Validator, the diagonal entry `Hx(0,0)` is NaN before and after the
Reducer, not a positive number; the Reducer divides NaN by NaN, `max_coeff` stays `0`, and
the division `1/max_coeff` of line 235 is a division by zero with the value `+∞`. -/
theorem reducer_diagonal_nan_on_overflow :
    validateF (RealOps.ofSqrt (sqrtNearest 52) (1 / 2 ^ 52))
        [Ieee.finite (10 ^ 200), Ieee.finite (2 * 10 ^ 200)] (Ieee.finite 2) = none ∧
      ∃ H y st,
        H = buildHF (RealOps.ofSqrt (sqrtNearest 52) (1 / 2 ^ 52))
          (fun i => [Ieee.finite (10 ^ 200), Ieee.finite (2 * 10 ^ 200)].getD i 0)
          (sSqF (fun i => [Ieee.finite (10 ^ 200), Ieee.finite (2 * 10 ^ 200)].getD i 0) 2
            (Ieee.finite (2 * 10 ^ 200))) 2 ∧
        y = initYF (RealOps.ofSqrt (sqrtNearest 52) (1 / 2 ^ 52))
          (fun i => [Ieee.finite (10 ^ 200), Ieee.finite (2 * 10 ^ 200)].getD i 0)
          (sSqF (fun i => [Ieee.finite (10 ^ 200), Ieee.finite (2 * 10 ^ 200)].getD i 0) 2
            (Ieee.finite (2 * 10 ^ 200))) 2 ∧
        st = reducerF (RealOps.ofSqrt (sqrtNearest 52) (1 / 2 ^ 52)) 2 H y ∧
        H 0 0 = Ieee.nan ∧ H 1 0 = Ieee.nan ∧
        Ieee.round (RealOps.ofSqrt (sqrtNearest 52) (1 / 2 ^ 52)) (H 1 0 / H 0 0) = Ieee.nan ∧
        st.H 0 0 = Ieee.nan ∧ Ieee.lt 0 (st.H 0 0) = false ∧
        maxCoeffF st.H 2 = Ieee.finite 0 ∧
        1 / maxCoeffF st.H 2 = Ieee.inf false := by
  have hH := overflow_H (RealOps.ofSqrt (sqrtNearest 52) (1 / 2 ^ 52))
  have hrun := nan_column_run (RealOps.ofSqrt (sqrtNearest 52) (1 / 2 ^ 52)) _
    (initYF (RealOps.ofSqrt (sqrtNearest 52) (1 / 2 ^ 52))
      (fun i => [Ieee.finite (10 ^ 200), Ieee.finite (2 * 10 ^ 200)].getD i 0)
      (sSqF (fun i => [Ieee.finite (10 ^ 200), Ieee.finite (2 * 10 ^ 200)].getD i 0) 2
        (Ieee.finite (2 * 10 ^ 200))) 2) hH.1 hH.2
  refine ⟨overflow_validate, _, _, _, rfl, rfl, rfl, hH.1, hH.2, ?_, hrun.2.2.1, ?_,
    hrun.2.2.2, ?_⟩
  · rw [hH.1, hH.2]
    rfl
  · rw [hrun.2.2.1, Ieee.lt_nan]
  · rw [hrun.2.2.2, Ieee.one_div_zero]

/-- C10: the one-argument vector form has no value.  Its parameter `x` is a const vector,
and the call `pslq(x, gamma)` of line 348 is accepted by no function `pslq`, for every input;
the same call on the non-const vector of line 359 is the two-argument function, so the
dictionary form of lines 396-400 does run the two-argument function at the default `γ`,
which is above `2/sqrt(3)`. -/
theorem one_argument_vector_form_has_no_value (ops : RealOps R) (showReal : R → String)
    (fuel : Nat) (cin : List Char) (x : List R) (d : Dictionary R) (gamma : R) :
    pslqVector ops fuel cin x = .error .noMatchingFunction ∧
      callPslqOnValues ops fuel cin x gamma = .ok (pslq ops fuel cin x gamma) ∧
      pslqDictDefault ops showReal fuel cin d =
        (pslqDefault ops fuel cin (dictValues d)).map
          (fun o => renderRelation showReal d o.relation) ∧
      2 / ops.sqrt 3 < defaultGamma ops :=
  ⟨rfl, rfl, rfl, defaultGamma_gt ops⟩

end Facts

end Pslq
